import Mathlib

/-!
Verification of the repository-tree builder and its build-coalescing cache.

This file is a shallow embedding, in Lean 4, of the core of the `octo-tree`
repository: the tree data model and the pure assembly / sort / aggregation
passes of `packages/core/src/tree-node.ts` and `packages/core/src/tree-builder.ts`,
the ref-resolution and listing pipeline of `packages/core/src/git.ts` and
`packages/core/src/index.ts` (modelled against an oracle describing the
behaviour of the external `git` binary), and the in-flight build coalescing
cache of `packages/server/src/app.ts` (modelled as a labelled transition
system whose steps mirror the code between its `await` points).

Embedding conventions:
* JavaScript numbers that the code only adds, maximises and compares
  (`size`, `mtimeMs`, `depth`) are modelled as `Nat`.
* The per-build `nodeMap : Map<path, node>` and `childIdMap : Map<id, node>`
  of the source are realised structurally: a map lookup for the path
  `joinRelative currentPath segment` during the walk is a lookup among the
  current parent's children, which coincides with the source maps for every
  entry list in which no two entries share a path and no entry path extends
  another entry path (which is what `git ls-tree -r` / `git ls-files`
  produce).  `ensureChild` itself is embedded with its explicit map argument,
  exactly as in `tree-node.ts`.
* `String.prototype.localeCompare` in the sort comparator is modelled as
  lexicographic comparison of code points (`lexLe`), and `Array.prototype.sort`
  as a comparison sort (`List.insertionSort`); for the children lists produced
  by a build no two children tie under the comparator, so any comparison sort
  computes the same result.
* `gitPath.split('/')` and `String.prototype.trim` are modelled by the
  structurally recursive `splitPath` and `jsTrim` below, which implement the
  JavaScript semantics directly on the character list of the string.
* Fallible code returns `Except`; the external `git` subprocess is an oracle
  (`GitOracle`) giving the trimmed stdout or the failure of each command the
  core issues.
-/

/-- Node kind: `'file' | 'directory'` from `types.ts`. -/
inductive NodeType where
  | file
  | directory
deriving DecidableEq, Repr

/-- TreeNode from `types.ts`: one file or directory of the built tree.
It is a nested inductive; `children` is the ordered child sequence. -/
inductive TreeNode where
  | node (id name relativePath : String) (type : NodeType) (size mtimeMs depth : Nat)
      (children : List TreeNode)

/-- Projection: the `id` field. -/
def TreeNode.id : TreeNode → String
  | .node i _ _ _ _ _ _ _ => i

/-- Projection: the `name` field. -/
def TreeNode.name : TreeNode → String
  | .node _ n _ _ _ _ _ _ => n

/-- Projection: the `relativePath` field. -/
def TreeNode.relativePath : TreeNode → String
  | .node _ _ rp _ _ _ _ _ => rp

/-- Projection: the `type` field. -/
def TreeNode.type : TreeNode → NodeType
  | .node _ _ _ ty _ _ _ _ => ty

/-- Projection: the `size` field. -/
def TreeNode.size : TreeNode → Nat
  | .node _ _ _ _ sz _ _ _ => sz

/-- Projection: the `mtimeMs` field. -/
def TreeNode.mtimeMs : TreeNode → Nat
  | .node _ _ _ _ _ mt _ _ => mt

/-- Projection: the `depth` field. -/
def TreeNode.depth : TreeNode → Nat
  | .node _ _ _ _ _ _ d _ => d

/-- Projection: the `children` field. -/
def TreeNode.children : TreeNode → List TreeNode
  | .node _ _ _ _ _ _ _ cs => cs

/-- Functional update of the `children` field (the embedding of an in-place
mutation of a node's `children` array). -/
def TreeNode.withChildren : TreeNode → List TreeNode → TreeNode
  | .node i n rp ty sz mt d _, cs => .node i n rp ty sz mt d cs

/-- Functional update of the `mtimeMs` field (the embedding of the
`rootNode.mtimeMs = commitTimestampMs` assignment in `buildRepositoryTree`). -/
def TreeNode.withMtime : TreeNode → Nat → TreeNode
  | .node i n rp ty sz _ d cs, mt => .node i n rp ty sz mt d cs

/-- Rendering of a `NodeType` as the string used inside node ids. -/
def NodeType.render : NodeType → String
  | .file => "file"
  | .directory => "directory"

/-- The function `joinRelative` from `tree-node.ts`. -/
def joinRelative (parent segment : String) : String :=
  if parent = "." then segment else parent ++ "/" ++ segment

/-- The function `makeId` from `tree-node.ts`. -/
def makeId (relativePath : String) (type : NodeType) : String :=
  type.render ++ ":" ++ relativePath

/-- The function `createDirectoryNode` from `tree-node.ts`. -/
def createDirectoryNode (relativePath name : String) (depth mtimeMs : Nat) : TreeNode :=
  .node (makeId relativePath .directory) name relativePath .directory 0 mtimeMs depth []

/-- The function `createFileNode` from `tree-node.ts`. -/
def createFileNode (relativePath name : String) (depth size mtimeMs : Nat) : TreeNode :=
  .node (makeId relativePath .file) name relativePath .file size mtimeMs depth []

/-- Association-list lookup, the embedding of `Map.prototype.get`. -/
def lookupNode : List (String × TreeNode) → String → Option TreeNode
  | [], _ => none
  | (k, v) :: rest, key => if k = key then some v else lookupNode rest key

/-- Result of `ensureChild`: the updated children array of the parent, the
updated id map, and the node the source function returns. -/
structure EnsureChildResult where
  children : List TreeNode
  childIdMap : List (String × TreeNode)
  child : TreeNode

/-- The function `ensureChild` from `tree-node.ts`, in state-passing form:
if the id map already holds the child's id the parent's children and the map
are left unchanged and the recorded node is returned, otherwise the child is
pushed onto the parent's children and recorded in the map. -/
def ensureChild (parentChildren : List TreeNode) (child : TreeNode)
    (childIdMap : List (String × TreeNode)) : EnsureChildResult :=
  match lookupNode childIdMap child.id with
  | some existing => ⟨parentChildren, childIdMap, existing⟩
  | none => ⟨parentChildren ++ [child], (child.id, child) :: childIdMap, child⟩

/-- Realisation of the per-build `childIdMap` at one parent: the bindings of
the global map that concern this parent's children. -/
def childIdMapOf (children : List TreeNode) : List (String × TreeNode) :=
  children.map (fun c => (c.id, c))

/-- Replace the first child whose `relativePath` equals `p` by the result of
applying `f` to it. This is the embedding of mutating, in place, the node the
source fetched from its `nodeMap` by that path. -/
def updateChild : List TreeNode → String → (TreeNode → TreeNode) → List TreeNode
  | [], _, _ => []
  | c :: cs, p, f =>
      if c.relativePath = p then f c :: cs else c :: updateChild cs p f

/-- Lookup of `nodeMap.get(nextPath)` realised on the current parent's
children: the node previously created at that path is this parent's child
carrying that `relativePath`. -/
def findChild (children : List TreeNode) (p : String) : Option TreeNode :=
  children.find? (fun c => decide (c.relativePath = p))

/-- The segment-walking loop shared by `insertFileNode` (tree-builder.ts):
walk from `parent` (whose path is `currentPath`) along `segments`, creating a
directory node for every missing intermediate segment and attaching a file
node at the leaf via `ensureChild`. -/
def insertSegments : TreeNode → String → List String → Nat → Nat → TreeNode
  | parent, _, [], _, _ => parent
  | parent, currentPath, [segment], size, mtimeMs =>
      let nextPath := joinRelative currentPath segment
      let fileNode := createFileNode nextPath segment (parent.depth + 1) size mtimeMs
      parent.withChildren (ensureChild parent.children fileNode (childIdMapOf parent.children)).children
  | parent, currentPath, segment :: segment2 :: rest, size, mtimeMs =>
      let nextPath := joinRelative currentPath segment
      match findChild parent.children nextPath with
      | some _ =>
          parent.withChildren
            (updateChild parent.children nextPath
              (fun d => insertSegments d nextPath (segment2 :: rest) size mtimeMs))
      | none =>
          let directoryNode := createDirectoryNode nextPath segment (parent.depth + 1) mtimeMs
          let inserted := insertSegments directoryNode nextPath (segment2 :: rest) size mtimeMs
          parent.withChildren
            (ensureChild parent.children inserted (childIdMapOf parent.children)).children

/-- Split a character list at `'/'` characters, the semantics of
`String.prototype.split('/')`. -/
def splitChars : List Char → List Char → List String
  | [], acc => [⟨acc.reverse⟩]
  | c :: rest, acc =>
      if c = '/' then ⟨acc.reverse⟩ :: splitChars rest [] else splitChars rest (c :: acc)

/-- The expression `gitPath.split('/')` from `tree-builder.ts`. -/
def splitPath (s : String) : List String :=
  splitChars s.data []

/-- The function `insertFileNode` from `tree-builder.ts`. -/
def insertFileNode (rootNode : TreeNode) (gitPath : String) (size mtimeMs : Nat) : TreeNode :=
  insertSegments rootNode "." (splitPath gitPath) size mtimeMs

/-- Lexicographic code-point comparison of character lists; `lexLe a b` models
`a.localeCompare(b) <= 0`. -/
def lexLe : List Char → List Char → Bool
  | [], _ => true
  | _ :: _, [] => false
  | a :: as, b :: bs => if a < b then true else if b < a then false else lexLe as bs

/-- Name comparison used by the sort comparator. -/
def nameLe (a b : String) : Bool :=
  lexLe a.data b.data

/-- The comparator of `sortChildrenRecursively` (tree-node.ts): `nodeLe a b`
holds when the comparator does not order `a` strictly after `b` — same types
compare by name, otherwise directories come first. -/
def nodeLe (a b : TreeNode) : Bool :=
  if a.type = b.type then nameLe a.name b.name else decide (a.type = NodeType.directory)

/-- Propositional form of the comparator, used with `List.insertionSort`. -/
def nodeLeP (a b : TreeNode) : Prop :=
  nodeLe a b = true

instance : DecidableRel nodeLeP := fun _ _ => inferInstanceAs (Decidable (_ = true))

mutual

/-- The function `sortChildrenRecursively` from `tree-node.ts`: sort the
children with the directories-first / name comparator and recurse into every
child. In the source the children array is sorted and then each (sorted)
child is recursed into; here each child is recursed into and the results are
sorted, which produces the same tree because the recursion does not change
the `type` or `name` fields the comparator reads. -/
def sortChildrenRecursively : TreeNode → TreeNode
  | .node i n rp ty sz mt d cs =>
      .node i n rp ty sz mt d (List.insertionSort nodeLeP (sortForest cs))

/-- Pointwise recursive sorting of a children list. -/
def sortForest : List TreeNode → List TreeNode
  | [] => []
  | c :: cs => sortChildrenRecursively c :: sortForest cs

end

mutual

/-- The function `aggregateDirectoryMetadata` from `tree-node.ts`, returning
both the updated node and the `(size, mtimeMs)` metrics the source function
returns. A file returns its own authoritative values; a directory folds its
children with the loop of the source (`totalSize` starting at `0`,
`latestMtime` starting at the node's own `mtimeMs`). -/
def aggregateDirectoryMetadata : TreeNode → TreeNode × Nat × Nat
  | .node i n rp ty sz mt d cs =>
      match ty with
      | .file => (.node i n rp ty sz mt d cs, sz, mt)
      | .directory =>
          let result := aggregateLoop cs 0 mt
          (.node i n rp ty result.2.1 result.2.2 d result.1, result.2.1, result.2.2)

/-- The child loop of `aggregateDirectoryMetadata`, threading the
`totalSize` and `latestMtime` accumulators of the source. -/
def aggregateLoop : List TreeNode → Nat → Nat → List TreeNode × Nat × Nat
  | [], totalSize, latestMtime => ([], totalSize, latestMtime)
  | c :: cs, totalSize, latestMtime =>
      let childMetrics := aggregateDirectoryMetadata c
      let restMetrics := aggregateLoop cs (totalSize + childMetrics.2.1)
        (Nat.max latestMtime childMetrics.2.2)
      (childMetrics.1 :: restMetrics.1, restMetrics.2.1, restMetrics.2.2)

end

/-- One `(path, size, mtimeMs)` entry fed to the assembler. Commit builds use
one shared `mtimeMs` for every entry; working-tree builds use per-file stat
times. -/
structure FileEntry where
  path : String
  size : Nat
  mtimeMs : Nat
deriving DecidableEq, Repr

/-- Insertion of a list of entries, in order, into a root node: the assembly
loop of `buildTreeFromCommit` / `buildTreeFromWorkingTree`. -/
def insertEntries (rootNode : TreeNode) (entries : List FileEntry) : TreeNode :=
  entries.foldl (fun t e => insertFileNode t e.path e.size e.mtimeMs) rootNode

/-- Root creation plus assembly: `createDirectoryNode('.', repoName, 0)`
followed by inserting every entry, as in `buildRepositoryTree`. -/
def assembleTree (repoName : String) (entries : List FileEntry) : TreeNode :=
  insertEntries (createDirectoryNode "." repoName 0 0) entries

/-- The two post-assembly passes of `buildRepositoryTree`:
`sortChildrenRecursively(rootNode); aggregateDirectoryMetadata(rootNode)`. -/
def sortAndAggregate (t : TreeNode) : TreeNode :=
  (aggregateDirectoryMetadata (sortChildrenRecursively t)).1

mutual

/-- All `(size, mtimeMs)` pairs of the file nodes of a subtree, with files as
the leaves of the recursion (a file contributes its own pair and, per the
data model, has no children of its own to scan). -/
def filesUnder : TreeNode → List (Nat × Nat)
  | .node _ _ _ ty sz mt _ cs =>
      match ty with
      | .file => [(sz, mt)]
      | .directory => filesUnderForest cs

/-- File `(size, mtimeMs)` pairs of a children list. -/
def filesUnderForest : List TreeNode → List (Nat × Nat)
  | [] => []
  | c :: cs => filesUnder c ++ filesUnderForest cs

end

/-- Sum of the sizes of a file-metric list. -/
def sumSizes (l : List (Nat × Nat)) : Nat :=
  (l.map Prod.fst).sum

/-- Maximum of the mtimes of a file-metric list (0 when empty). -/
def maxMtime (l : List (Nat × Nat)) : Nat :=
  (l.map Prod.snd).foldr Nat.max 0

/-- Occurrence of a node inside a tree (the node itself, or recursively inside
one of its children). -/
inductive Occurs : TreeNode → TreeNode → Prop where
  | refl (t : TreeNode) : Occurs t t
  | child {s c t : TreeNode} : c ∈ t.children → Occurs s c → Occurs s t

/-- The record returned by `resolveRef` in `app.ts`. -/
structure RefResolution where
  key : String
  refForBuild : String
  allowFallback : Bool
deriving DecidableEq, Repr

/-- The semantics of `String.prototype.trim` on the character list of the
string. -/
def jsTrim (s : String) : String :=
  ⟨((s.data.dropWhile Char.isWhitespace).reverse.dropWhile Char.isWhitespace).reverse⟩

/-- The function `resolveRef` from `app.ts`: an explicit non-blank ref is
trimmed and used as the key with fallback disabled; otherwise the configured
default ref and configured fallback apply. `requestedRef?.trim()` is truthy
exactly when a ref was supplied and its trimmed value is non-empty. -/
def resolveRef (defaultRef : String) (allowFallbackToWorkingTree : Bool)
    (requestedRef : Option String) : RefResolution :=
  match requestedRef with
  | some requested =>
      if jsTrim requested ≠ "" then
        ⟨jsTrim requested, jsTrim requested, false⟩
      else
        ⟨defaultRef, defaultRef, allowFallbackToWorkingTree⟩
  | none => ⟨defaultRef, defaultRef, allowFallbackToWorkingTree⟩

/-- Error model of the core: the first three constructors model the
`GitRepositoryError` instances thrown by `runGitCommand`, the `catch` block of
`resolveGitRef`, and the unsupported-object-type branch; `otherError` models
any non-`GitRepositoryError` exception (for example a `spawn` failure). -/
inductive GitError where
  | commandFailed (message : String)
  | failedToResolveRef (ref : String)
  | unsupportedObjectType (ref objectType : String)
  | otherError (message : String)
deriving DecidableEq, Repr

/-- The `error instanceof GitRepositoryError` test. -/
def GitError.isGitRepositoryError : GitError → Bool
  | .otherError _ => false
  | _ => true

/-- Oracle describing the behaviour of the external `git` binary for the
commands the core issues: `rev-parse --verify <arg>`, `cat-file -t <id>`,
`ls-tree --full-tree --long -r <tree>` (already parsed into `(path, size)`
blob entries by `listFilesAtTree`), and `show -s --format=%ct <commit>`
(already parsed into milliseconds by `getCommitTimestampMs`, `none` when the
output is not a number). Successful outputs are the trimmed stdout. -/
structure GitOracle where
  revParseVerify : String → Except GitError String
  catFileType : String → Except GitError String
  lsTreeEntries : String → Except GitError (List (String × Nat))
  showCommitTimeMs : String → Except GitError (Option Nat)

/-- The record returned by `resolveGitRef` in `git.ts`. -/
structure ResolvedRef where
  treeHash : String
  commitHash : Option String
deriving DecidableEq, Repr

/-- The function `resolveGitRef` from `git.ts`: resolve the reference to an
object id, inspect its type, and classify — commit, tag, tree, or failure. -/
def resolveGitRef (git : GitOracle) (ref : String) : Except GitError ResolvedRef :=
  match git.revParseVerify ref with
  | .error e => .error e
  | .ok resolvedRef =>
      match git.catFileType resolvedRef with
      | .error e =>
          if e.isGitRepositoryError then .error (.failedToResolveRef ref) else .error e
      | .ok objectType =>
          if objectType = "commit" then
            match git.revParseVerify (resolvedRef ++ "^\x7btree\x7d") with
            | .error e => .error e
            | .ok treeHash => .ok ⟨treeHash, some resolvedRef⟩
          else if objectType = "tag" then
            match git.revParseVerify (resolvedRef ++ "^\x7bcommit\x7d") with
            | .error e => .error e
            | .ok commitHash =>
                match git.revParseVerify (resolvedRef ++ "^\x7btree\x7d") with
                | .error e => .error e
                | .ok treeHash => .ok ⟨treeHash, some commitHash⟩
          else if objectType = "tree" then
            .ok ⟨resolvedRef, none⟩
          else
            .error (.unsupportedObjectType ref objectType)

/-- The function `buildTreeFromCommit` from `tree-builder.ts`: resolve the
ref, list the blob entries of its tree, look the commit timestamp up only
when a commit hash is present (any timestamp failure is swallowed by the
`.catch(() => null)` at the call site), then insert every entry with the
shared fallback mtime `commitTimestampMs ?? 0`. Returns the updated root and
the `commitTimestampMs` value the source function returns. -/
def buildTreeFromCommit (git : GitOracle) (rootNode : TreeNode) (ref : String) :
    Except GitError (TreeNode × Option Nat) :=
  match resolveGitRef git ref with
  | .error e => .error e
  | .ok resolved =>
      match git.lsTreeEntries resolved.treeHash with
      | .error e => .error e
      | .ok entries =>
          let commitTimestampMs :=
            match resolved.commitHash with
            | some commitHash =>
                match git.showCommitTimeMs commitHash with
                | .ok v => v
                | .error _ => none
            | none => none
          let mtimeMs := commitTimestampMs.getD 0
          .ok (entries.foldl (fun t e => insertFileNode t e.1 e.2 mtimeMs) rootNode,
               commitTimestampMs)

/-- The function `buildTreeFromWorkingTree` from `tree-builder.ts`, modelled
on its post-stat file list: each surviving `(path, size, mtimeMs)` stat
result is inserted with the same walk as `insertFileNode` (files that
vanished between listing and stat have already been dropped from the list). -/
def buildTreeFromWorkingTree (rootNode : TreeNode) (workingEntries : List FileEntry) :
    TreeNode :=
  insertEntries rootNode workingEntries

/-- The function `buildRepositoryTree` from `index.ts`, downstream of path
normalisation: build from the commit path; on failure fall back to the
working tree only when the error is a `GitRepositoryError`, fallback is
allowed, and the target ref is exactly `'HEAD'`; afterwards run the sort and
aggregation passes and, when `commitTimestampMs` is truthy (non-null and
non-zero), overwrite the root's `mtimeMs` with it. -/
def buildRepositoryTree (git : GitOracle) (workingEntries : List FileEntry)
    (repoName : String) (ref : Option String) (allowFallbackToWorkingTree : Bool) :
    Except GitError TreeNode :=
  let targetRef := ref.getD "HEAD"
  let rootNode := createDirectoryNode "." repoName 0 0
  match buildTreeFromCommit git rootNode targetRef with
  | .ok (built, commitTimestampMs) =>
      let t := sortAndAggregate built
      .ok (match commitTimestampMs with
           | some ts => if ts = 0 then t else t.withMtime ts
           | none => t)
  | .error e =>
      if !e.isGitRepositoryError || !allowFallbackToWorkingTree || targetRef ≠ "HEAD" then
        .error e
      else
        .ok (sortAndAggregate (buildTreeFromWorkingTree rootNode workingEntries))

/-- Association-list lookup for the in-flight build map (`Map<string, Promise>`). -/
def lookupKey : List (String × Nat) → String → Option Nat
  | [], _ => none
  | (k, v) :: rest, key => if k = key then some v else lookupKey rest key

/-- Removal of a key from the in-flight build map (`Map.prototype.delete`). -/
def eraseKey (m : List (String × Nat)) (key : String) : List (String × Nat) :=
  m.filter (fun kv => !(kv.1 == key))

/-- State of the coalescing cache of `app.ts`. `buildPromises` is the
in-flight map (key to build id); `nextBuildId` counts the underlying builds
that were ever started (each `buildTree` invocation allocates a fresh id);
`waiters` records which callers are awaiting which build for which key;
`delivered` logs, per caller, the settled outcome of the build it awaited. -/
structure CacheState where
  buildPromises : List (String × Nat)
  nextBuildId : Nat
  waiters : List (Nat × String × Nat)
  nextCallerId : Nat
  delivered : List (Nat × Nat × Except String TreeNode)

/-- The initial cache state: no in-flight builds, no waiters. -/
def initCacheState : CacheState :=
  ⟨[], 0, [], 0, []⟩

/-- Labels of the cache transitions. -/
inductive CacheLabel where
  | getTreeCall (requestedRef : Option String)
  | settle (key : String) (buildId : Nat) (outcome : Except String TreeNode)
  | refreshCall (requestedRef : Option String)

/-- The key a call with the given requested ref operates on. -/
def cacheKeyOf (defaultRef : String) (allowFb : Bool) (requestedRef : Option String) : String :=
  (resolveRef defaultRef allowFb requestedRef).key

/-- Transition system of `buildTreeForRef` / `refreshTreeForRef` from
`app.ts`. The check-then-insert sequence of `buildTreeForRef` runs with no
intervening `await`, so a call is one atomic step: a hit joins the recorded
in-flight build, a miss starts a fresh build (fresh id) and records it.
When the promise of build `b` settles, every caller awaiting `b` resumes
within the same microtask drain before any new call can be dispatched;
each receives the one shared outcome and runs its
`finally { buildPromises.delete(key) }`, which deletes whatever binding the
key currently has — possibly the record of a build started later by
`refreshTreeForRef`. `settle` models that drain as one step, with the
precondition that some caller is still awaiting `b` (a promise settles once,
and its waiters are removed exactly then). `refreshTreeForRef` deletes the
key and re-runs `buildTreeForRef`, whose lookup then necessarily misses, so
`refreshCall` always starts a fresh build. No transition other than these
exists: the cache never starts a build spontaneously (no automatic retry). -/
inductive CacheStep (defaultRef : String) (allowFb : Bool) :
    CacheState → CacheLabel → CacheState → Prop where
  | getTreeHit (s : CacheState) (r : Option String) (b : Nat) :
      lookupKey s.buildPromises (cacheKeyOf defaultRef allowFb r) = some b →
      CacheStep defaultRef allowFb s (.getTreeCall r)
        ⟨s.buildPromises, s.nextBuildId,
         (s.nextCallerId, cacheKeyOf defaultRef allowFb r, b) :: s.waiters,
         s.nextCallerId + 1, s.delivered⟩
  | getTreeMiss (s : CacheState) (r : Option String) :
      lookupKey s.buildPromises (cacheKeyOf defaultRef allowFb r) = none →
      CacheStep defaultRef allowFb s (.getTreeCall r)
        ⟨(cacheKeyOf defaultRef allowFb r, s.nextBuildId) :: s.buildPromises,
         s.nextBuildId + 1,
         (s.nextCallerId, cacheKeyOf defaultRef allowFb r, s.nextBuildId) :: s.waiters,
         s.nextCallerId + 1, s.delivered⟩
  | settleStep (s : CacheState) (key : String) (b : Nat) (o : Except String TreeNode)
      (c₀ : Nat) :
      (c₀, key, b) ∈ s.waiters →
      CacheStep defaultRef allowFb s (.settle key b o)
        ⟨eraseKey s.buildPromises key, s.nextBuildId,
         s.waiters.filter (fun w => !(w.2.2 == b)), s.nextCallerId,
         (s.waiters.filter (fun w => w.2.2 == b)).map (fun w => (w.1, b, o)) ++ s.delivered⟩
  | refreshStep (s : CacheState) (r : Option String) :
      CacheStep defaultRef allowFb s (.refreshCall r)
        ⟨(cacheKeyOf defaultRef allowFb r, s.nextBuildId) ::
           eraseKey s.buildPromises (cacheKeyOf defaultRef allowFb r),
         s.nextBuildId + 1,
         (s.nextCallerId, cacheKeyOf defaultRef allowFb r, s.nextBuildId) :: s.waiters,
         s.nextCallerId + 1, s.delivered⟩

/-- Reachability of a cache state from the initial state. -/
def ReachableCache (defaultRef : String) (allowFb : Bool) (s : CacheState) : Prop :=
  Relation.ReflTransGen (fun a b => ∃ l, CacheStep defaultRef allowFb a l b) initCacheState s

/-- Path segments of an entry, as computed by the assembler. -/
def segmentsOf (e : FileEntry) : List String :=
  splitPath e.path

/-- A usable path segment: non-empty, not the root sentinel, and without a
slash (which is what splitting a path on `/` produces for the paths a git
listing can emit). -/
def validSegment (s : String) : Prop :=
  s ≠ "" ∧ s ≠ "." ∧ '/' ∉ s.data

/-- A usable segment list: non-empty with every segment usable. -/
def validSegments (l : List String) : Prop :=
  l ≠ [] ∧ ∀ s ∈ l, validSegment s

/-- One segment list starts with the other (equality included). -/
def isHeadOf (a b : List String) : Prop :=
  ∃ r, a ++ r = b

instance (a b : List String) : Decidable (isHeadOf a b) :=
  decidable_of_iff (b.take a.length = a)
    (by
      constructor
      · intro h
        refine ⟨b.drop a.length, ?_⟩
        have h2 : b.take a.length ++ b.drop a.length = b := List.take_append_drop _ _
        rw [h] at h2
        exact h2
      · rintro ⟨r, rfl⟩
        exact List.take_left a r)

/-- Neither of the two segment lists is a prefix of the other: the two paths
denote distinct, non-nested filesystem entries. -/
def conflictFree (a b : List String) : Prop :=
  ¬ isHeadOf a b ∧ ¬ isHeadOf b a

/-- A well-formed entry list, as produced by `git ls-tree -r` or
`git ls-files`: every path splits into usable segments and no two entry
paths coincide or nest. -/
def entriesWellFormed (L : List FileEntry) : Prop :=
  (∀ e ∈ L, validSegments (segmentsOf e)) ∧
  L.Pairwise (fun a b => conflictFree (segmentsOf a) (segmentsOf b))

instance (s : String) : Decidable (validSegment s) :=
  decidable_of_iff (s ≠ "" ∧ s ≠ "." ∧ '/' ∉ s.data) Iff.rfl

instance (l : List String) : Decidable (validSegments l) :=
  decidable_of_iff (l ≠ [] ∧ ∀ s ∈ l, validSegment s) Iff.rfl

instance (a b : List String) : Decidable (conflictFree a b) :=
  decidable_of_iff (¬ isHeadOf a b ∧ ¬ isHeadOf b a) Iff.rfl

instance (L : List FileEntry) : Decidable (entriesWellFormed L) :=
  decidable_of_iff ((∀ e ∈ L, validSegments (segmentsOf e)) ∧
    L.Pairwise (fun a b => conflictFree (segmentsOf a) (segmentsOf b))) Iff.rfl

/-- The path of the node reached by walking `segs` from a node at path `cp`. -/
def joinChain (cp : String) (segs : List String) : String :=
  segs.foldl joinRelative cp

/-- The paths of the intermediate directory nodes the walk for `segs`
traverses below `cp` (everything except the leaf itself). -/
def chainPaths : String → List String → List String
  | _, [] => []
  | _, [_] => []
  | cp, s :: s2 :: rest => joinRelative cp s :: chainPaths (joinRelative cp s) (s2 :: rest)

mutual

/-- Relative paths of the file nodes of a subtree (files as leaves of the
scan, per the data model). -/
def filePathsOf : TreeNode → List String
  | .node _ _ rp ty _ _ _ cs =>
      match ty with
      | .file => [rp]
      | .directory => filePathsForest cs

/-- File paths of a children list. -/
def filePathsForest : List TreeNode → List String
  | [] => []
  | c :: cs => filePathsOf c ++ filePathsForest cs

end

mutual

/-- Relative paths of the directory nodes of a subtree (files as leaves of
the scan). -/
def dirPathsOf : TreeNode → List String
  | .node _ _ rp ty _ _ _ cs =>
      match ty with
      | .file => []
      | .directory => rp :: dirPathsForest cs

/-- Directory paths of a children list. -/
def dirPathsForest : List TreeNode → List String
  | [] => []
  | c :: cs => dirPathsOf c ++ dirPathsForest cs

end

mutual

/-- The `mtimeMs` values of every file node anywhere in a subtree, scanning
even below file nodes. -/
def fileMtimesAll : TreeNode → List Nat
  | .node _ _ _ ty _ mt _ cs =>
      match ty with
      | .file => mt :: fileMtimesForest cs
      | .directory => fileMtimesForest cs

/-- File `mtimeMs` values of a children list, scanning everywhere. -/
def fileMtimesForest : List TreeNode → List Nat
  | [] => []
  | c :: cs => fileMtimesAll c ++ fileMtimesForest cs

end

mutual

/-- Structural well-formedness of a build tree: children carry pairwise
distinct names, every child's `relativePath` and `id` are derived from its
parent's path and its own name and type, file nodes have no children, and
all of this holds recursively. Assembly from a well-formed entry list
preserves this shape. -/
def WFShape : TreeNode → Prop
  | .node _ _ rp ty _ _ d cs =>
      (ty = NodeType.file → cs = []) ∧
      (cs.map TreeNode.name).Nodup ∧
      (∀ c ∈ cs, c.relativePath = joinRelative rp c.name ∧
        c.id = makeId c.relativePath c.type ∧ c.depth = d + 1) ∧
      WFShapeForest cs

/-- Well-formedness of every tree of a children list. -/
def WFShapeForest : List TreeNode → Prop
  | [] => True
  | c :: cs => WFShape c ∧ WFShapeForest cs

end

/-- Freedom of a walk target inside a tree: no intermediate directory of the
walk collides with an existing file node, and the leaf path collides with
neither an existing directory node nor an existing file node. An entry whose
path neither nests into nor is nested by any path already inserted satisfies
this. -/
def FreeFor (t : TreeNode) (cp : String) (segs : List String) : Prop :=
  (∀ p ∈ chainPaths cp segs, p ∉ filePathsOf t) ∧
  joinChain cp segs ∉ dirPathsOf t ∧
  joinChain cp segs ∉ filePathsOf t

/-- Every directory node's provisional `mtimeMs` is dominated by the file
mtimes below it. Assembly establishes this (directories are stamped with the
mtime of the entry that created them, whose file ends up below them), and it
is exactly what makes the aggregation pass insensitive to provisional
directory mtimes. -/
def DirsDominated (t : TreeNode) : Prop :=
  ∀ s, Occurs s t → s.type = NodeType.directory → s.mtimeMs ≤ maxMtime (filesUnder s)

mutual

/-- Equivalence of two build trees up to the order of children lists and up
to the provisional `mtimeMs` of directory nodes, as long as each directory's
provisional value is dominated by the file mtimes below it (so that the
aggregation pass absorbs it). Scalar fields, file values and the multiset of
children (matched by this very relation) must agree. -/
inductive BuildEquiv : TreeNode → TreeNode → Prop where
  | mk (i n rp : String) (ty : NodeType) (sz mt₁ mt₂ d : Nat)
      (cs₁ cs₂ : List TreeNode) :
      (ty = NodeType.file → mt₁ = mt₂) →
      (ty = NodeType.directory →
        mt₁ ≤ maxMtime (filesUnderForest cs₁) ∧ mt₂ ≤ maxMtime (filesUnderForest cs₂)) →
      BuildEquivForest cs₁ cs₂ →
      BuildEquiv (.node i n rp ty sz mt₁ d cs₁) (.node i n rp ty sz mt₂ d cs₂)

/-- Matching of two children lists as multisets: the second list is the
first with every element replaced by a `BuildEquiv`-related one and the
whole list arbitrarily reordered. -/
inductive BuildEquivForest : List TreeNode → List TreeNode → Prop where
  | nil : BuildEquivForest [] []
  | cons (a b : TreeNode) (l : List TreeNode) (u v : List TreeNode) :
      BuildEquiv a b → BuildEquivForest l (u ++ v) →
      BuildEquivForest (a :: l) (u ++ b :: v)

end

/-- The ordering the specification claims for the children of a directory:
directories strictly precede files, and inside one kind names are in
lexicographic order. -/
def childOrder (a b : TreeNode) : Prop :=
  (a.type = NodeType.directory ∧ b.type = NodeType.file) ∨
  (a.type = b.type ∧ nameLe a.name b.name = true)

/-- Character spelling of the continuation of a path: one slash before each
further segment. -/
def interTail : List String → List Char
  | [] => []
  | s :: rest => '/' :: (s.data ++ interTail rest)

/-! ## Infrastructure lemmas -/

/-- Strong induction over the nested tree type. -/
theorem TreeNode.inductionOn {P : TreeNode → Prop}
    (h : ∀ i n rp ty sz mt d cs, (∀ c ∈ cs, P c) → P (.node i n rp ty sz mt d cs)) :
    ∀ t, P t :=
  @TreeNode.rec P (fun l => ∀ c ∈ l, P c) h (by intro c hc; cases hc)
    (fun hd tl hh ht => by
      intro c hc
      rcases List.mem_cons.mp hc with rfl | hc
      · exact hh
      · exact ht c hc)

theorem lexLe_refl (l : List Char) : lexLe l l = true := by
  induction l with
  | nil => rfl
  | cons c cs ih => simp [lexLe, lt_irrefl, ih]

theorem lexLe_total (a b : List Char) : lexLe a b = true ∨ lexLe b a = true := by
  induction a generalizing b with
  | nil => exact Or.inl rfl
  | cons x xs ih =>
    cases b with
    | nil => exact Or.inr rfl
    | cons y ys =>
      rcases lt_trichotomy x y with hxy | hxy | hxy
      · exact Or.inl (by simp [lexLe, hxy])
      · subst hxy
        rcases ih ys with h | h
        · exact Or.inl (by simp [lexLe, lt_irrefl, h])
        · exact Or.inr (by simp [lexLe, lt_irrefl, h])
      · exact Or.inr (by simp [lexLe, hxy])

theorem lexLe_trans {a b c : List Char} (hab : lexLe a b = true) (hbc : lexLe b c = true) :
    lexLe a c = true := by
  induction a generalizing b c with
  | nil => rfl
  | cons x xs ih =>
    cases b with
    | nil => simp [lexLe] at hab
    | cons y ys =>
      cases c with
      | nil => simp [lexLe] at hbc
      | cons z zs =>
        by_cases hxy : x < y
        · by_cases hyz : y < z
          · simp [lexLe, lt_trans hxy hyz]
          · by_cases hzy : z < y
            · simp [lexLe, hyz, hzy] at hbc
            · have : y = z := le_antisymm (le_of_not_lt hzy) (le_of_not_lt hyz)
              subst this
              simp [lexLe, hxy]
        · by_cases hyx : y < x
          · simp [lexLe, hxy, hyx] at hab
          · have hxyeq : x = y := le_antisymm (le_of_not_lt hyx) (le_of_not_lt hxy)
            subst hxyeq
            simp only [lexLe, hxy, if_neg, if_false] at hab
            by_cases hyz : x < z
            · simp [lexLe, hyz]
            · by_cases hzy : z < x
              · simp [lexLe, hyz, hzy] at hbc
              · have : x = z := le_antisymm (le_of_not_lt hzy) (le_of_not_lt hyz)
                subst this
                simp only [lexLe, lt_irrefl, if_false] at hab hbc ⊢
                exact ih hab hbc

theorem lexLe_antisymm {a b : List Char} (hab : lexLe a b = true) (hba : lexLe b a = true) :
    a = b := by
  induction a generalizing b with
  | nil =>
    cases b with
    | nil => rfl
    | cons y ys => simp [lexLe] at hba
  | cons x xs ih =>
    cases b with
    | nil => simp [lexLe] at hab
    | cons y ys =>
      by_cases hxy : x < y
      · simp [lexLe, hxy, lt_asymm hxy] at hba
      · by_cases hyx : y < x
        · simp [lexLe, hxy, hyx] at hab
        · have hxyeq : x = y := le_antisymm (le_of_not_lt hyx) (le_of_not_lt hxy)
          subst hxyeq
          simp only [lexLe, lt_irrefl, if_false] at hab hba
          rw [ih hab hba]

theorem nameLe_total (a b : String) : nameLe a b = true ∨ nameLe b a = true :=
  lexLe_total a.data b.data

theorem nameLe_trans {a b c : String} (hab : nameLe a b = true) (hbc : nameLe b c = true) :
    nameLe a c = true :=
  lexLe_trans hab hbc

theorem nameLe_antisymm {a b : String} (hab : nameLe a b = true) (hba : nameLe b a = true) :
    a = b :=
  String.ext (lexLe_antisymm hab hba)

theorem nodeType_cases (ty : NodeType) : ty = NodeType.file ∨ ty = NodeType.directory := by
  cases ty
  · exact Or.inl rfl
  · exact Or.inr rfl

theorem nodeLe_total (a b : TreeNode) : nodeLeP a b ∨ nodeLeP b a := by
  unfold nodeLeP nodeLe
  by_cases h : a.type = b.type
  · rw [if_pos h, if_pos h.symm]
    exact nameLe_total a.name b.name
  · rw [if_neg h, if_neg (fun hh => h hh.symm)]
    rcases nodeType_cases a.type with ha | ha
    · rcases nodeType_cases b.type with hb | hb
      · exact absurd (ha.trans hb.symm) h
      · exact Or.inr (by rw [hb]; rfl)
    · exact Or.inl (by rw [ha]; rfl)

theorem nodeLe_trans {a b c : TreeNode} (hab : nodeLeP a b) (hbc : nodeLeP b c) :
    nodeLeP a c := by
  unfold nodeLeP nodeLe at hab hbc ⊢
  by_cases h1 : a.type = b.type
  · by_cases h2 : b.type = c.type
    · rw [if_pos h1] at hab
      rw [if_pos h2] at hbc
      rw [if_pos (h1.trans h2)]
      exact nameLe_trans hab hbc
    · rw [if_neg h2] at hbc
      rw [if_neg (fun hh => h2 (h1.symm.trans hh)), h1]
      exact hbc
  · rw [if_neg h1] at hab
    by_cases h2 : b.type = c.type
    · rw [if_neg (fun hh => h1 (hh.trans h2.symm))]
      exact hab
    · rw [if_neg h2] at hbc
      have ha : a.type = NodeType.directory := of_decide_eq_true hab
      have hb : b.type = NodeType.directory := of_decide_eq_true hbc
      exact absurd (ha.trans hb.symm) h1

theorem nodeLe_antisymm_keys {a b : TreeNode} (hab : nodeLeP a b) (hba : nodeLeP b a) :
    a.type = b.type ∧ a.name = b.name := by
  unfold nodeLeP nodeLe at hab hba
  by_cases h : a.type = b.type
  · refine ⟨h, ?_⟩
    rw [if_pos h] at hab
    rw [if_pos h.symm] at hba
    exact nameLe_antisymm hab hba
  · rw [if_neg h] at hab
    rw [if_neg (fun hh => h hh.symm)] at hba
    have ha : a.type = NodeType.directory := of_decide_eq_true hab
    have hb : b.type = NodeType.directory := of_decide_eq_true hba
    exact absurd (ha.trans hb.symm) h

theorem sorted_insertionSort_nodes (l : List TreeNode) :
    (List.insertionSort nodeLeP l).Sorted nodeLeP := by
  haveI : IsTotal TreeNode nodeLeP := ⟨nodeLe_total⟩
  haveI : IsTrans TreeNode nodeLeP := ⟨fun _ _ _ => nodeLe_trans⟩
  exact List.sorted_insertionSort nodeLeP l

theorem perm_insertionSort_nodes (l : List TreeNode) :
    (List.insertionSort nodeLeP l).Perm l :=
  List.perm_insertionSort nodeLeP l

/-- Two sorted lists that are permutations of each other and whose
comparator keys are pairwise distinct are equal. -/
theorem sorted_perm_unique :
    ∀ {l₁ l₂ : List TreeNode}, l₁.Perm l₂ → l₁.Sorted nodeLeP → l₂.Sorted nodeLeP →
      (l₁.map (fun c => (c.type, c.name))).Nodup → l₁ = l₂ := by
  intro l₁
  induction l₁ with
  | nil =>
    intro l₂ hp _ _ _
    exact (List.Perm.nil_eq hp).symm ▸ rfl
  | cons a l ih =>
    intro l₂ hp hs₁ hs₂ hnd
    cases l₂ with
    | nil => exact absurd hp.symm (by simp)
    | cons b l₂' =>
      have hab : a = b := by
        by_contra hne
        have hamem : a ∈ b :: l₂' := hp.mem_iff.mp (List.mem_cons_self a l)
        have ha2 : a ∈ l₂' := by
          rcases List.mem_cons.mp hamem with h | h
          · exact absurd h hne
          · exact h
        have hbmem : b ∈ a :: l := hp.mem_iff.mpr (List.mem_cons_self b l₂')
        have hb1 : b ∈ l := by
          rcases List.mem_cons.mp hbmem with h | h
          · exact absurd h.symm hne
          · exact h
        have h1 : nodeLeP a b := (List.pairwise_cons.mp hs₁).1 b hb1
        have h2 : nodeLeP b a := (List.pairwise_cons.mp hs₂).1 a ha2
        have hkeys := nodeLe_antisymm_keys h1 h2
        have : (a.type, a.name) ∈ l.map (fun c => (c.type, c.name)) := by
          refine List.mem_map.mpr ⟨b, hb1, ?_⟩
          exact Prod.ext hkeys.1.symm hkeys.2.symm
        exact (List.nodup_cons.mp hnd).1 this
      subst hab
      have hp' : l.Perm l₂' := (List.perm_cons a).mp hp
      have := ih hp' (List.pairwise_cons.mp hs₁).2 (List.pairwise_cons.mp hs₂).2
        (List.nodup_cons.mp hnd).2
      rw [this]

/-! ## Sorting pass lemmas and claim C3 -/

theorem childOrder_of_nodeLe {a b : TreeNode} (h : nodeLeP a b) : childOrder a b := by
  unfold nodeLeP nodeLe at h
  by_cases hty : a.type = b.type
  · rw [if_pos hty] at h
    exact Or.inr ⟨hty, h⟩
  · rw [if_neg hty] at h
    have ha : a.type = NodeType.directory := of_decide_eq_true h
    rcases nodeType_cases b.type with hb | hb
    · exact Or.inl ⟨ha, hb⟩
    · exact absurd (ha.trans hb.symm) hty

theorem mem_sortForest {c : TreeNode} {cs : List TreeNode} (h : c ∈ sortForest cs) :
    ∃ c₀ ∈ cs, c = sortChildrenRecursively c₀ := by
  induction cs with
  | nil => cases h
  | cons c₀ cs ih =>
    rcases List.mem_cons.mp h with heq | hmem
    · exact ⟨c₀, List.mem_cons_self _ _, heq⟩
    · obtain ⟨c₁, hc₁, heq⟩ := ih hmem
      exact ⟨c₁, List.mem_cons_of_mem _ hc₁, heq⟩

theorem aggregateLoop_fst (cs : List TreeNode) :
    ∀ a m, (aggregateLoop cs a m).1 = cs.map (fun c => (aggregateDirectoryMetadata c).1) := by
  induction cs with
  | nil => intro a m; rfl
  | cons c cs ih =>
    intro a m
    simp only [aggregateLoop, List.map_cons]
    rw [ih]

theorem aggregate_preserves_type (t : TreeNode) :
    (aggregateDirectoryMetadata t).1.type = t.type := by
  obtain ⟨i, n, rp, ty, sz, mt, d, cs⟩ := t
  cases ty <;> rfl

theorem aggregate_preserves_name (t : TreeNode) :
    (aggregateDirectoryMetadata t).1.name = t.name := by
  obtain ⟨i, n, rp, ty, sz, mt, d, cs⟩ := t
  cases ty <;> rfl

theorem childOrder_aggregate {a b : TreeNode} (h : childOrder a b) :
    childOrder (aggregateDirectoryMetadata a).1 (aggregateDirectoryMetadata b).1 := by
  unfold childOrder at h ⊢
  rw [aggregate_preserves_type, aggregate_preserves_type,
    aggregate_preserves_name, aggregate_preserves_name]
  exact h

/-- Every node of a recursively sorted tree has its children ordered by the
comparator. -/
theorem sortChildren_ordered (t : TreeNode) :
    ∀ s, Occurs s (sortChildrenRecursively t) → s.children.Pairwise childOrder := by
  induction t using TreeNode.inductionOn with
  | _ i n rp ty sz mt d cs ih =>
    intro s hocc
    cases hocc with
    | refl =>
      show (List.insertionSort nodeLeP (sortForest cs)).Pairwise childOrder
      exact (sorted_insertionSort_nodes (sortForest cs)).imp childOrder_of_nodeLe
    | child hc hocc =>
      rename_i c
      have hc' : c ∈ sortForest cs :=
        (perm_insertionSort_nodes (sortForest cs)).mem_iff.mp hc
      obtain ⟨c₀, hc₀, rfl⟩ := mem_sortForest hc'
      exact ih c₀ hc₀ _ hocc

/-- Aggregation preserves the children ordering at every node. -/
theorem aggregate_keeps_ordered (t : TreeNode)
    (h : ∀ s, Occurs s t → s.children.Pairwise childOrder) :
    ∀ s, Occurs s (aggregateDirectoryMetadata t).1 → s.children.Pairwise childOrder := by
  induction t using TreeNode.inductionOn with
  | _ i n rp ty sz mt d cs ih =>
    intro s hocc
    cases ty with
    | file =>
      have : (aggregateDirectoryMetadata (.node i n rp .file sz mt d cs)).1
          = .node i n rp .file sz mt d cs := rfl
      rw [this] at hocc
      exact h s hocc
    | directory =>
      have hchain : (aggregateDirectoryMetadata (.node i n rp .directory sz mt d cs)).1.children
          = cs.map (fun c => (aggregateDirectoryMetadata c).1) := by
        show (aggregateLoop cs 0 mt).1 = _
        exact aggregateLoop_fst cs 0 mt
      cases hocc with
      | refl =>
        show (aggregateDirectoryMetadata (.node i n rp .directory sz mt d cs)).1.children.Pairwise _
        rw [hchain]
        have hroot : (TreeNode.node i n rp .directory sz mt d cs).children.Pairwise childOrder :=
          h _ (Occurs.refl _)
        exact List.Pairwise.map _ (fun a b hab => childOrder_aggregate hab) hroot
      | child hc hocc =>
        rename_i c
        rw [hchain] at hc
        obtain ⟨c₀, hc₀, rfl⟩ := List.mem_map.mp hc
        refine ih c₀ hc₀ ?_ _ hocc
        intro s₀ hs₀
        exact h s₀ (Occurs.child hc₀ hs₀)

/-- C3: after the sort pass of a build (and the aggregation pass that
follows it, which does not reorder children), every node of the returned
tree — the root included — has its children sequence ordered with every
directory child before every file child and, inside each of the two groups,
in lexicographic order of the names. -/
theorem claim_C3_children_sorted (t : TreeNode) :
    ∀ s, Occurs s (sortAndAggregate t) → s.children.Pairwise childOrder := by
  intro s hocc
  exact aggregate_keeps_ordered _ (sortChildren_ordered t) s hocc

/-- Witness for C3: the ordering property instantiated at the root of the
tree built from the specification's worked example. -/
theorem claim_C3_witness :
    Occurs (sortAndAggregate (assembleTree "repo" [⟨"a.txt", 10, 5⟩, ⟨"sub/b.txt", 20, 9⟩]))
      (sortAndAggregate (assembleTree "repo" [⟨"a.txt", 10, 5⟩, ⟨"sub/b.txt", 20, 9⟩])) ∧
    (sortAndAggregate (assembleTree "repo"
      [⟨"a.txt", 10, 5⟩, ⟨"sub/b.txt", 20, 9⟩])).children.Pairwise childOrder :=
  ⟨Occurs.refl _,
   claim_C3_children_sorted (assembleTree "repo" [⟨"a.txt", 10, 5⟩, ⟨"sub/b.txt", 20, 9⟩])
     _ (Occurs.refl _)⟩

/-! ## File mtime tracking and claim C8 -/

theorem fileMtimesForest_append (cs ds : List TreeNode) :
    fileMtimesForest (cs ++ ds) = fileMtimesForest cs ++ fileMtimesForest ds := by
  induction cs with
  | nil => rfl
  | cons c cs ih =>
    show fileMtimesAll c ++ fileMtimesForest (cs ++ ds)
      = (fileMtimesAll c ++ fileMtimesForest cs) ++ fileMtimesForest ds
    rw [ih, List.append_assoc]

theorem mem_fileMtimesForest {x : Nat} {cs : List TreeNode} :
    x ∈ fileMtimesForest cs ↔ ∃ c ∈ cs, x ∈ fileMtimesAll c := by
  induction cs with
  | nil => simp [fileMtimesForest]
  | cons c cs ih =>
    simp only [fileMtimesForest, List.mem_append, ih]
    constructor
    · rintro (hx | ⟨c₀, hc₀, hx⟩)
      · exact ⟨c, List.mem_cons_self _ _, hx⟩
      · exact ⟨c₀, List.mem_cons_of_mem _ hc₀, hx⟩
    · rintro ⟨c₀, hc₀, hx⟩
      rcases List.mem_cons.mp hc₀ with rfl | hc₀
      · exact Or.inl hx
      · exact Or.inr ⟨c₀, hc₀, hx⟩

theorem fileMtimesForest_updateChild {x : Nat} {cs : List TreeNode} {p : String}
    {f : TreeNode → TreeNode} (hx : x ∈ fileMtimesForest (updateChild cs p f)) :
    x ∈ fileMtimesForest cs ∨ ∃ c ∈ cs, x ∈ fileMtimesAll (f c) := by
  induction cs with
  | nil => cases hx
  | cons c cs ih =>
    by_cases hp : c.relativePath = p
    · rw [show updateChild (c :: cs) p f = f c :: cs from by
        simp [updateChild, hp]] at hx
      rcases List.mem_append.mp hx with hx | hx
      · exact Or.inr ⟨c, List.mem_cons_self _ _, hx⟩
      · exact Or.inl (List.mem_append.mpr (Or.inr hx))
    · rw [show updateChild (c :: cs) p f = c :: updateChild cs p f from by
        simp [updateChild, hp]] at hx
      rcases List.mem_append.mp hx with hx | hx
      · exact Or.inl (List.mem_append.mpr (Or.inl hx))
      · rcases ih hx with hx | ⟨c₀, hc₀, hx⟩
        · exact Or.inl (List.mem_append.mpr (Or.inr hx))
        · exact Or.inr ⟨c₀, List.mem_cons_of_mem _ hc₀, hx⟩

theorem ensureChild_children_of_none {pc : List TreeNode} {child : TreeNode}
    {m : List (String × TreeNode)} (h : lookupNode m child.id = none) :
    (ensureChild pc child m).children = pc ++ [child] := by
  simp [ensureChild, h]

theorem ensureChild_children_of_some {pc : List TreeNode} {child existing : TreeNode}
    {m : List (String × TreeNode)} (h : lookupNode m child.id = some existing) :
    (ensureChild pc child m).children = pc := by
  simp [ensureChild, h]

/-- Head-normal form of a subtree scan: the node's own contribution followed
by the children's. -/
theorem fileMtimesAll_node (i n rp : String) (ty : NodeType) (sz mt d : Nat)
    (cs : List TreeNode) :
    fileMtimesAll (.node i n rp ty sz mt d cs)
      = (match ty with
         | NodeType.file => [mt]
         | NodeType.directory => []) ++ fileMtimesForest cs := by
  cases ty <;> rfl

theorem fileMtimesAll_insertSegments {segs : List String} :
    ∀ {t : TreeNode} {cp : String} {sz mt x : Nat},
      x ∈ fileMtimesAll (insertSegments t cp segs sz mt) →
      x = mt ∨ x ∈ fileMtimesAll t := by
  induction segs with
  | nil => exact fun hx => Or.inr hx
  | cons seg rest ih =>
    intro t cp sz mt x hx
    obtain ⟨i, n, rp, ty, sz0, mt0, d, cs⟩ := t
    cases rest with
    | nil =>
      simp only [insertSegments, TreeNode.children, TreeNode.depth,
        TreeNode.withChildren] at hx
      rcases hlook : lookupNode (childIdMapOf cs)
          (createFileNode (joinRelative cp seg) seg (d + 1) sz mt).id with _ | existing
      · rw [ensureChild_children_of_none hlook, fileMtimesAll_node,
          fileMtimesForest_append] at hx
        rw [fileMtimesAll_node]
        rcases List.mem_append.mp hx with hx | hx
        · exact Or.inr (List.mem_append.mpr (Or.inl hx))
        · rcases List.mem_append.mp hx with hx | hx
          · exact Or.inr (List.mem_append.mpr (Or.inr hx))
          · rcases List.mem_append.mp hx with hx | hx
            · rcases List.mem_singleton.mp hx with rfl
              exact Or.inl rfl
            · cases hx
      · rw [ensureChild_children_of_some hlook] at hx
        exact Or.inr hx
    | cons seg2 rest2 =>
      simp only [insertSegments, TreeNode.children, TreeNode.depth,
        TreeNode.withChildren] at hx
      rcases hfind : findChild cs (joinRelative cp seg) with _ | c
      · rw [hfind] at hx
        rcases hlook : lookupNode (childIdMapOf cs)
            (insertSegments (createDirectoryNode (joinRelative cp seg) seg (d + 1) mt)
              (joinRelative cp seg) (seg2 :: rest2) sz mt).id with _ | existing
        · rw [ensureChild_children_of_none hlook, fileMtimesAll_node,
            fileMtimesForest_append] at hx
          rw [fileMtimesAll_node]
          rcases List.mem_append.mp hx with hx | hx
          · exact Or.inr (List.mem_append.mpr (Or.inl hx))
          · rcases List.mem_append.mp hx with hx | hx
            · exact Or.inr (List.mem_append.mpr (Or.inr hx))
            · have hx' : x ∈ fileMtimesAll (insertSegments
                  (createDirectoryNode (joinRelative cp seg) seg (d + 1) mt)
                  (joinRelative cp seg) (seg2 :: rest2) sz mt) := by
                have : fileMtimesForest [insertSegments
                    (createDirectoryNode (joinRelative cp seg) seg (d + 1) mt)
                    (joinRelative cp seg) (seg2 :: rest2) sz mt]
                    = fileMtimesAll (insertSegments
                      (createDirectoryNode (joinRelative cp seg) seg (d + 1) mt)
                      (joinRelative cp seg) (seg2 :: rest2) sz mt) ++ [] := rfl
                rw [this, List.append_nil] at hx
                exact hx
              rcases ih hx' with rfl | hin
              · exact Or.inl rfl
              · cases hin
        · rw [ensureChild_children_of_some hlook] at hx
          exact Or.inr hx
      · rw [hfind] at hx
        rw [fileMtimesAll_node] at hx
        rw [fileMtimesAll_node]
        rcases List.mem_append.mp hx with hx | hx
        · exact Or.inr (List.mem_append.mpr (Or.inl hx))
        · rcases fileMtimesForest_updateChild hx with hx | ⟨c₀, hc₀, hx⟩
          · exact Or.inr (List.mem_append.mpr (Or.inr hx))
          · rcases ih hx with rfl | hin
            · exact Or.inl rfl
            · exact Or.inr (List.mem_append.mpr
                (Or.inr (mem_fileMtimesForest.mpr ⟨c₀, hc₀, hin⟩)))

theorem fileMtimesAll_sort {t : TreeNode} :
    ∀ {x : Nat}, x ∈ fileMtimesAll (sortChildrenRecursively t) → x ∈ fileMtimesAll t := by
  induction t using TreeNode.inductionOn with
  | _ i n rp ty sz mt d cs ih =>
    intro x hx
    have key : ∀ y, y ∈ fileMtimesForest (List.insertionSort nodeLeP (sortForest cs)) →
        y ∈ fileMtimesForest cs := by
      intro y hy
      obtain ⟨c, hc, hyc⟩ := mem_fileMtimesForest.mp hy
      have hc' : c ∈ sortForest cs :=
        (perm_insertionSort_nodes (sortForest cs)).mem_iff.mp hc
      obtain ⟨c₀, hc₀, rfl⟩ := mem_sortForest hc'
      exact mem_fileMtimesForest.mpr ⟨c₀, hc₀, ih c₀ hc₀ hyc⟩
    cases ty with
    | file =>
      rcases List.mem_cons.mp hx with rfl | hx
      · exact List.mem_cons_self _ _
      · exact List.mem_cons_of_mem _ (key _ hx)
    | directory => exact key _ hx

theorem fileMtimesAll_aggregate {t : TreeNode} :
    ∀ {x : Nat}, x ∈ fileMtimesAll (aggregateDirectoryMetadata t).1 → x ∈ fileMtimesAll t := by
  induction t using TreeNode.inductionOn with
  | _ i n rp ty sz mt d cs ih =>
    intro x hx
    cases ty with
    | file => exact hx
    | directory =>
      have hch : (aggregateDirectoryMetadata (TreeNode.node i n rp .directory sz mt d cs)).1.children
          = cs.map (fun c => (aggregateDirectoryMetadata c).1) := by
        show (aggregateLoop cs 0 mt).1 = _
        exact aggregateLoop_fst cs 0 mt
      have hx' : x ∈ fileMtimesForest (cs.map (fun c => (aggregateDirectoryMetadata c).1)) := by
        rw [← hch]
        exact hx
      obtain ⟨c, hc, hyc⟩ := mem_fileMtimesForest.mp hx'
      obtain ⟨c₀, hc₀, rfl⟩ := List.mem_map.mp hc
      exact mem_fileMtimesForest.mpr ⟨c₀, hc₀, ih c₀ hc₀ hyc⟩

theorem occurs_file_mtime_mem {s t : TreeNode} (hocc : Occurs s t)
    (hf : s.type = NodeType.file) : s.mtimeMs ∈ fileMtimesAll t := by
  induction hocc with
  | refl =>
    obtain ⟨i, n, rp, ty, sz, mt, d, cs⟩ := s
    cases ty with
    | file => exact List.mem_cons_self _ _
    | directory => cases hf
  | child hc hsub ih =>
    rename_i c t
    have hmem : s.mtimeMs ∈ fileMtimesForest t.children :=
      mem_fileMtimesForest.mpr ⟨c, hc, ih⟩
    obtain ⟨i, n, rp, ty, sz, mt, d, cs⟩ := t
    cases ty with
    | file => exact List.mem_cons_of_mem _ hmem
    | directory => exact hmem

theorem fileMtimesAll_insertEntriesPairs {m : Nat} (entries : List (String × Nat)) :
    ∀ root x, x ∈ fileMtimesAll (entries.foldl (fun t e => insertFileNode t e.1 e.2 m) root) →
      x = m ∨ x ∈ fileMtimesAll root := by
  induction entries with
  | nil => exact fun root x hx => Or.inr hx
  | cons e rest ih =>
    intro root x hx
    simp only [List.foldl_cons] at hx
    rcases ih _ _ hx with rfl | hx
    · exact Or.inl rfl
    · exact fileMtimesAll_insertSegments hx

/-- C8: for a reference resolving to a tree object, the resolved ref carries
a null commit hash (hypothesis `hres`, established by the tree branch of
`resolveGitRef`); the whole build is independent of the commit-timestamp
oracle (no lookup is made — the result is the same for every
`showCommitTimeMs`); and every file node of the built tree has
`mtimeMs = 0`. -/
theorem claim_C8_raw_tree_mode
    (rv cf : String → Except GitError String)
    (ls : String → Except GitError (List (String × Nat)))
    (f f' : String → Except GitError (Option Nat))
    (workingEntries : List FileEntry) (repoName ref treeHash : String)
    (allowFb : Bool) (entries : List (String × Nat))
    (hres : resolveGitRef (GitOracle.mk rv cf ls f) ref = .ok ⟨treeHash, none⟩)
    (hls : ls treeHash = .ok entries) :
    buildRepositoryTree (GitOracle.mk rv cf ls f) workingEntries repoName (some ref) allowFb
      = .ok (sortAndAggregate (entries.foldl (fun t e => insertFileNode t e.1 e.2 0)
          (createDirectoryNode "." repoName 0 0))) ∧
    buildRepositoryTree (GitOracle.mk rv cf ls f') workingEntries repoName (some ref) allowFb
      = buildRepositoryTree (GitOracle.mk rv cf ls f) workingEntries repoName (some ref) allowFb ∧
    (∀ s, Occurs s (sortAndAggregate (entries.foldl (fun t e => insertFileNode t e.1 e.2 0)
        (createDirectoryNode "." repoName 0 0))) →
      s.type = NodeType.file → s.mtimeMs = 0) := by
  have hbuild : ∀ g : String → Except GitError (Option Nat),
      buildTreeFromCommit (GitOracle.mk rv cf ls g)
        (createDirectoryNode "." repoName 0 0) ref
      = .ok (entries.foldl (fun t e => insertFileNode t e.1 e.2 0)
          (createDirectoryNode "." repoName 0 0), none) := by
    intro g
    have hres' : resolveGitRef (GitOracle.mk rv cf ls g) ref = .ok ⟨treeHash, none⟩ := by
      rw [show resolveGitRef (GitOracle.mk rv cf ls g) ref
          = resolveGitRef (GitOracle.mk rv cf ls f) ref from rfl]
      exact hres
    simp [buildTreeFromCommit, hres', hls]
  refine ⟨?_, ?_, ?_⟩
  · simp [buildRepositoryTree, hbuild f]
  · simp [buildRepositoryTree, hbuild f, hbuild f']
  · intro s hocc hf
    have hx := occurs_file_mtime_mem hocc hf
    unfold sortAndAggregate at hx
    have hx2 := fileMtimesAll_sort (fileMtimesAll_aggregate hx)
    rcases fileMtimesAll_insertEntriesPairs entries _ _ hx2 with h0 | h0
    · exact h0
    · cases h0

/-- Witness for C8: a concrete raw-tree oracle; the resulting single file
node carries mtime 0. -/
theorem claim_C8_witness :
    resolveGitRef (GitOracle.mk
        (fun s => if s = "t1" then .ok "t1" else .error (.commandFailed "no"))
        (fun _ => .ok "tree")
        (fun _ => .ok [("a.txt", 7)])
        (fun _ => .ok (some 99))) "t1" = .ok ⟨"t1", none⟩ ∧
    buildRepositoryTree (GitOracle.mk
        (fun s => if s = "t1" then .ok "t1" else .error (.commandFailed "no"))
        (fun _ => .ok "tree")
        (fun _ => .ok [("a.txt", 7)])
        (fun _ => .ok (some 99))) [] "repo" (some "t1") false
      = .ok (sortAndAggregate ([("a.txt", 7)].foldl
          (fun t e => insertFileNode t e.1 e.2 0) (createDirectoryNode "." "repo" 0 0))) := by
  refine ⟨rfl, ?_⟩
  exact (claim_C8_raw_tree_mode
    (fun s => if s = "t1" then .ok "t1" else .error (.commandFailed "no"))
    (fun _ => .ok "tree")
    (fun _ => .ok [("a.txt", 7)])
    (fun _ => .ok (some 99)) (fun _ => .ok (some 99))
    [] "repo" "t1" "t1" false [("a.txt", 7)] rfl rfl).1

/-! ## Claim C10: idempotent child insertion -/

/-- C10: insertion into a directory's children is idempotent on node ids.
First conjunct: `ensureChild` on a child whose id is already recorded leaves
the children and the map unchanged and returns the recorded node. Second
conjunct: re-inserting an already present file path (here `sub/a.txt`, which
also re-walks the already created directory `sub`) leaves the assembled tree
unchanged, keeping the node of the first insertion with its original size
and mtime. -/
theorem claim_C10_ensureChild_idempotent :
    (∀ (parentChildren : List TreeNode) (child : TreeNode)
        (childIdMap : List (String × TreeNode)) (existing : TreeNode),
        lookupNode childIdMap child.id = some existing →
        ensureChild parentChildren child childIdMap =
          ⟨parentChildren, childIdMap, existing⟩) ∧
    insertFileNode (insertFileNode (insertFileNode
        (createDirectoryNode "." "repo" 0 0) "sub/a.txt" 5 7) "sub/b.txt" 3 9)
        "sub/a.txt" 11 13
      = insertFileNode (insertFileNode (createDirectoryNode "." "repo" 0 0)
          "sub/a.txt" 5 7) "sub/b.txt" 3 9 := by
  constructor
  · intro parentChildren child childIdMap existing h
    simp [ensureChild, h]
  · rfl

/-- Witness for C10: the general conjunct applied at a concrete map that
already holds the child's id. -/
theorem claim_C10_witness :
    lookupNode [("file:a", createFileNode "a" "a" 1 2 3)]
        (createFileNode "a" "a" 1 4 5).id = some (createFileNode "a" "a" 1 2 3) ∧
    ensureChild [createFileNode "a" "a" 1 2 3] (createFileNode "a" "a" 1 4 5)
        [("file:a", createFileNode "a" "a" 1 2 3)] =
      ⟨[createFileNode "a" "a" 1 2 3], [("file:a", createFileNode "a" "a" 1 2 3)],
        createFileNode "a" "a" 1 2 3⟩ :=
  ⟨rfl, claim_C10_ensureChild_idempotent.1 [createFileNode "a" "a" 1 2 3]
    (createFileNode "a" "a" 1 4 5) [("file:a", createFileNode "a" "a" 1 2 3)]
    (createFileNode "a" "a" 1 2 3) rfl⟩

/-! ## Claim C9: cache key derivation -/

/-- C9 counterexample: the claim says the key is the supplied ref string
verbatim and that fallback is disabled whenever an explicit ref is supplied;
the code trims the supplied ref (`" main"` keys as `"main"`) and treats a
supplied blank ref like an absent one (fallback stays as configured). -/
theorem claim_C9_counterexample :
    (resolveRef "HEAD" true (some " main")).key ≠ " main" ∧
    (resolveRef "HEAD" true (some " ")).allowFallback = true := by
  constructor
  · decide
  · decide

/-- C9 amended: if the caller supplies a ref whose trimmed value is
non-empty, the cache key and build ref are that trimmed value and fallback
is disabled for the call; if the supplied ref trims to empty, or no ref is
supplied, the key is the configured default reference and fallback is
allowed exactly as configured at construction time. -/
theorem claim_C9_key_derivation (defaultRef : String) (fb : Bool) :
    (∀ r : String, jsTrim r ≠ "" →
      resolveRef defaultRef fb (some r) = ⟨jsTrim r, jsTrim r, false⟩) ∧
    (∀ r : String, jsTrim r = "" →
      resolveRef defaultRef fb (some r) = ⟨defaultRef, defaultRef, fb⟩) ∧
    resolveRef defaultRef fb none = ⟨defaultRef, defaultRef, fb⟩ := by
  refine ⟨?_, ?_, rfl⟩
  · intro r h
    simp [resolveRef, h]
  · intro r h
    simp [resolveRef, h]

/-- Witness for C9: the amended key derivation evaluated on a padded ref and
on a blank ref. -/
theorem claim_C9_witness :
    jsTrim " main" ≠ "" ∧
    resolveRef "HEAD" true (some " main") = ⟨"main", "main", false⟩ ∧
    jsTrim " " = "" ∧
    resolveRef "HEAD" true (some " ") = ⟨"HEAD", "HEAD", true⟩ :=
  ⟨by decide, (claim_C9_key_derivation "HEAD" true).1 " main" (by decide),
   by decide, (claim_C9_key_derivation "HEAD" true).2.1 " " (by decide)⟩

/-! ## Claim C7: classification of ref resolution -/

/-- C7: for every oracle behaviour and reference string, `resolveGitRef`
classifies the named object in exactly one of four ways. A commit returns
the tree id derived from it (the output of `rev-parse <id>^{tree}`) with
`commitHash` the object id. A tag is dereferenced (`<id>^{commit}` /
`<id>^{tree}`) and returns that commit id and tree id. A tree object returns
its own id with `commitHash` null. Any other object type fails with the
unsupported-object-type `GitRepositoryError`; and when the reference names
no object at all (`rev-parse --verify` fails) that resolver failure — the
spec's `UnresolvableRef` — propagates. -/
theorem claim_C7_ref_classification (git : GitOracle) (ref : String) :
    (∀ e, git.revParseVerify ref = .error e → resolveGitRef git ref = .error e) ∧
    (∀ oid, git.revParseVerify ref = .ok oid →
      (∀ th, git.catFileType oid = .ok "commit" →
        git.revParseVerify (oid ++ "^\x7btree\x7d") = .ok th →
        resolveGitRef git ref = .ok ⟨th, some oid⟩) ∧
      (∀ ch th, git.catFileType oid = .ok "tag" →
        git.revParseVerify (oid ++ "^\x7bcommit\x7d") = .ok ch →
        git.revParseVerify (oid ++ "^\x7btree\x7d") = .ok th →
        resolveGitRef git ref = .ok ⟨th, some ch⟩) ∧
      (git.catFileType oid = .ok "tree" →
        resolveGitRef git ref = .ok ⟨oid, none⟩) ∧
      (∀ ty, git.catFileType oid = .ok ty →
        ty ≠ "commit" → ty ≠ "tag" → ty ≠ "tree" →
        resolveGitRef git ref = .error (.unsupportedObjectType ref ty))) := by
  constructor
  · intro e h
    simp [resolveGitRef, h]
  · intro oid h
    refine ⟨?_, ?_, ?_, ?_⟩
    · intro th hty htree
      simp [resolveGitRef, h, hty, htree]
    · intro ch th hty hcommit htree
      simp [resolveGitRef, h, hty, hcommit, htree]
    · intro hty
      simp [resolveGitRef, h, hty]
    · intro ty hty h1 h2 h3
      simp [resolveGitRef, h, hty, h1, h2, h3]

/-- Witness for C7: a concrete oracle hitting the tag branch. -/
theorem claim_C7_witness :
    (GitOracle.mk
        (fun s => if s = "v1" then .ok "tagid" else
          if s = "tagid^\x7bcommit\x7d" then .ok "c9" else
          if s = "tagid^\x7btree\x7d" then .ok "t9" else .error (.commandFailed "no"))
        (fun s => if s = "tagid" then .ok "tag" else .error (.commandFailed "no"))
        (fun _ => .ok []) (fun _ => .ok none)).revParseVerify "v1" = .ok "tagid" ∧
    resolveGitRef
      (GitOracle.mk
        (fun s => if s = "v1" then .ok "tagid" else
          if s = "tagid^\x7bcommit\x7d" then .ok "c9" else
          if s = "tagid^\x7btree\x7d" then .ok "t9" else .error (.commandFailed "no"))
        (fun s => if s = "tagid" then .ok "tag" else .error (.commandFailed "no"))
        (fun _ => .ok []) (fun _ => .ok none)) "v1" = .ok ⟨"t9", some "c9"⟩ :=
  ⟨rfl,
   ((claim_C7_ref_classification
      (GitOracle.mk
        (fun s => if s = "v1" then .ok "tagid" else
          if s = "tagid^\x7bcommit\x7d" then .ok "c9" else
          if s = "tagid^\x7btree\x7d" then .ok "t9" else .error (.commandFailed "no"))
        (fun s => if s = "tagid" then .ok "tag" else .error (.commandFailed "no"))
        (fun _ => .ok []) (fun _ => .ok none)) "v1").2 "tagid" rfl).2.1
      "c9" "t9" rfl rfl rfl⟩

/-! ## Claim C5: fallback gating -/

/-- C5 counterexample: with fallback allowed and the default `HEAD`
reference, an oracle for which ref resolution succeeds but the recursive
listing fails with a `GitRepositoryError` still triggers the working-tree
fallback, although the failure is not a "repository has no commits yet"
resolution failure. The first conjunct shows resolution succeeding; the
second shows the returned tree is the working-tree build. -/
theorem claim_C5_counterexample :
    resolveGitRef
        (GitOracle.mk
          (fun s => if s = "HEAD" then .ok "c1" else
            if s = "c1^\x7btree\x7d" then .ok "t1" else .error (.commandFailed "no"))
          (fun _ => .ok "commit")
          (fun _ => .error (.commandFailed "fatal: listing failed"))
          (fun _ => .ok (some 1))) "HEAD" = .ok ⟨"t1", some "c1"⟩ ∧
    buildRepositoryTree
        (GitOracle.mk
          (fun s => if s = "HEAD" then .ok "c1" else
            if s = "c1^\x7btree\x7d" then .ok "t1" else .error (.commandFailed "no"))
          (fun _ => .ok "commit")
          (fun _ => .error (.commandFailed "fatal: listing failed"))
          (fun _ => .ok (some 1)))
        [⟨"w.txt", 4, 2⟩] "repo" none true
      = .ok (sortAndAggregate
          (buildTreeFromWorkingTree (createDirectoryNode "." "repo" 0 0) [⟨"w.txt", 4, 2⟩])) := by
  constructor
  · rfl
  · rfl

/-- C5 amended: when the commit-path build fails, `buildRepositoryTree`
falls back to listing the working tree exactly when the caller allowed
fallback, the target reference is exactly `HEAD`, and the failure is a
`GitRepositoryError` — of any kind, not only the no-commits resolution
failure (the code cannot distinguish why the git pipeline failed); every
non-`GitRepositoryError` failure, and every failure outside that gate,
propagates to the caller unchanged. -/
theorem claim_C5_fallback_gating (git : GitOracle) (workingEntries : List FileEntry)
    (repoName : String) (ref : Option String) (allowFallbackToWorkingTree : Bool)
    (e : GitError)
    (h : buildTreeFromCommit git (createDirectoryNode "." repoName 0 0) (ref.getD "HEAD")
      = .error e) :
    buildRepositoryTree git workingEntries repoName ref allowFallbackToWorkingTree =
      (if e.isGitRepositoryError = true ∧ allowFallbackToWorkingTree = true ∧
          ref.getD "HEAD" = "HEAD" then
        .ok (sortAndAggregate
          (buildTreeFromWorkingTree (createDirectoryNode "." repoName 0 0) workingEntries))
      else .error e) := by
  simp only [buildRepositoryTree, h]
  by_cases h1 : e.isGitRepositoryError = true
  · by_cases h2 : allowFallbackToWorkingTree = true
    · by_cases h3 : ref.getD "HEAD" = "HEAD"
      · simp [h1, h2, h3]
      · simp [h1, h2, h3]
    · simp [h1, h2]
  · simp [h1]

/-- Witness for C5: the amended gate evaluated at a concrete non-git error
(which propagates even though fallback is allowed and the ref is `HEAD`). -/
theorem claim_C5_witness :
    buildTreeFromCommit
        (GitOracle.mk (fun _ => .error (.otherError "spawn failure"))
          (fun _ => .ok "commit") (fun _ => .ok []) (fun _ => .ok none))
        (createDirectoryNode "." "repo" 0 0) ((none : Option String).getD "HEAD")
      = .error (.otherError "spawn failure") ∧
    buildRepositoryTree
        (GitOracle.mk (fun _ => .error (.otherError "spawn failure"))
          (fun _ => .ok "commit") (fun _ => .ok []) (fun _ => .ok none))
        [] "repo" none true
      = .error (.otherError "spawn failure") := by
  refine ⟨rfl, ?_⟩
  have := claim_C5_fallback_gating
    (GitOracle.mk (fun _ => .error (.otherError "spawn failure"))
      (fun _ => .ok "commit") (fun _ => .ok []) (fun _ => .ok none))
    [] "repo" none true (.otherError "spawn failure") rfl
  simpa using this

/-! ## Cache machine invariants, claims C1 and C6 -/

theorem lookupKey_mem {m : List (String × Nat)} {k : String} {b : Nat}
    (h : lookupKey m k = some b) : (k, b) ∈ m := by
  induction m with
  | nil => exact absurd h (by simp [lookupKey])
  | cons kv rest ih =>
    obtain ⟨k', b'⟩ := kv
    simp only [lookupKey] at h
    by_cases hk : k' = k
    · rw [if_pos hk] at h
      injection h with h
      subst hk
      subst h
      exact List.mem_cons_self _ _
    · rw [if_neg hk] at h
      exact List.mem_cons_of_mem _ (ih h)

theorem lookupKey_none_of_notMem {m : List (String × Nat)} {k : String}
    (h : k ∉ m.map Prod.fst) : lookupKey m k = none := by
  induction m with
  | nil => rfl
  | cons kv rest ih =>
    obtain ⟨k', b'⟩ := kv
    simp only [List.map_cons, List.mem_cons] at h
    push_neg at h
    simp only [lookupKey]
    rw [if_neg (fun hh => h.1 hh.symm)]
    exact ih h.2

theorem notMem_of_lookupKey_none {m : List (String × Nat)} {k : String}
    (h : lookupKey m k = none) : k ∉ m.map Prod.fst := by
  induction m with
  | nil => simp
  | cons kv rest ih =>
    obtain ⟨k', b'⟩ := kv
    by_cases hk : k' = k
    · subst hk
      simp [lookupKey] at h
    · simp only [lookupKey, if_neg hk] at h
      simp only [List.map_cons, List.mem_cons]
      push_neg
      exact ⟨fun hh => hk hh.symm, ih h⟩

theorem lookupKey_erase_self (m : List (String × Nat)) (k : String) :
    lookupKey (eraseKey m k) k = none := by
  apply lookupKey_none_of_notMem
  intro h
  rcases List.mem_map.mp h with ⟨kv, hmem, hfst⟩
  have := List.of_mem_filter hmem
  rw [hfst] at this
  simp at this

theorem eraseKey_subset {m : List (String × Nat)} {k : String} {kv : String × Nat}
    (h : kv ∈ eraseKey m k) : kv ∈ m :=
  List.mem_of_mem_filter h

theorem eraseKey_keys_nodup {m : List (String × Nat)} {k : String}
    (h : (m.map Prod.fst).Nodup) : ((eraseKey m k).map Prod.fst).Nodup :=
  List.Nodup.sublist (List.Sublist.map Prod.fst (List.filter_sublist m)) h

theorem key_notMem_eraseKey (m : List (String × Nat)) (k : String) :
    k ∉ (eraseKey m k).map Prod.fst := by
  intro h
  rcases List.mem_map.mp h with ⟨kv, hmem, hfst⟩
  have := List.of_mem_filter hmem
  rw [hfst] at this
  simp at this

/-- Invariants of every reachable cache state: the in-flight map binds each
key at most once, and every build id appearing in the map or among the
waiters is strictly below the counter of started builds. -/
theorem cacheInv {d : String} {fb : Bool} {s : CacheState}
    (h : ReachableCache d fb s) :
    (s.buildPromises.map Prod.fst).Nodup ∧
    (∀ k b, (k, b) ∈ s.buildPromises → b < s.nextBuildId) ∧
    (∀ c k b, (c, k, b) ∈ s.waiters → b < s.nextBuildId) := by
  induction h with
  | refl =>
    refine ⟨List.nodup_nil, ?_, ?_⟩
    · intro k b hb
      simp [initCacheState] at hb
    · intro c k b hb
      simp [initCacheState] at hb
  | tail _ hstep ih =>
    obtain ⟨hnd, hmap, hwait⟩ := ih
    obtain ⟨l, hstep⟩ := hstep
    cases hstep with
    | getTreeHit r b hl =>
      refine ⟨hnd, hmap, ?_⟩
      intro c k bb hb
      rcases List.mem_cons.mp hb with heq | hb
      · cases heq
        exact hmap _ _ (lookupKey_mem hl)
      · exact hwait _ _ _ hb
    | getTreeMiss r hl =>
      refine ⟨?_, ?_, ?_⟩
      · exact List.nodup_cons.mpr ⟨notMem_of_lookupKey_none hl, hnd⟩
      · intro k b hb
        rcases List.mem_cons.mp hb with heq | hb
        · cases heq
          exact Nat.lt_succ_self _
        · exact Nat.lt_succ_of_lt (hmap _ _ hb)
      · intro c k b hb
        rcases List.mem_cons.mp hb with heq | hb
        · cases heq
          exact Nat.lt_succ_self _
        · exact Nat.lt_succ_of_lt (hwait _ _ _ hb)
    | settleStep key b o c₀ hc₀ =>
      refine ⟨eraseKey_keys_nodup hnd, ?_, ?_⟩
      · intro k bb hb
        exact hmap _ _ (eraseKey_subset hb)
      · intro c k bb hb
        exact hwait _ _ _ (List.mem_of_mem_filter hb)
    | refreshStep r =>
      refine ⟨?_, ?_, ?_⟩
      · exact List.nodup_cons.mpr ⟨key_notMem_eraseKey _ _, eraseKey_keys_nodup hnd⟩
      · intro k b hb
        rcases List.mem_cons.mp hb with heq | hb
        · cases heq
          exact Nat.lt_succ_self _
        · exact Nat.lt_succ_of_lt (hmap _ _ (eraseKey_subset hb))
      · intro c k b hb
        rcases List.mem_cons.mp hb with heq | hb
        · cases heq
          exact Nat.lt_succ_self _
        · exact Nat.lt_succ_of_lt (hwait _ _ _ hb)

/-- C1 counterexample: a build can still be in flight (a caller is awaiting
it and it has never settled) while the in-flight map no longer records it,
and a `getTree` arriving in that window starts a second underlying build.
Trace: caller 0 misses and starts build 0; a refresh deletes that record and
starts build 1; build 0 settles, and caller 0's
`finally { buildPromises.delete(key) }` evicts build 1's record while
build 1 is still in flight (caller 1 still awaits it, nothing about build 1
is delivered); the next `getTree` then misses and starts build 2. -/
theorem claim_C1_counterexample :
    ReachableCache "HEAD" false
      ⟨[], 2, [(1, "HEAD", 1)], 2, [(0, 0, Except.error "boom")]⟩ ∧
    ((1, "HEAD", 1) ∈
      ([(1, "HEAD", 1)] : List (Nat × String × Nat))) ∧
    (∀ x ∈ ([(0, 0, Except.error "boom")] : List (Nat × Nat × Except String TreeNode)),
      x.2.1 ≠ 1) ∧
    CacheStep "HEAD" false
      ⟨[], 2, [(1, "HEAD", 1)], 2, [(0, 0, Except.error "boom")]⟩
      (.getTreeCall none)
      ⟨[("HEAD", 2)], 3, [(2, "HEAD", 2), (1, "HEAD", 1)], 3,
        [(0, 0, Except.error "boom")]⟩ := by
  refine ⟨?_, ?_, ?_, ?_⟩
  · have h1 : CacheStep "HEAD" false initCacheState (.getTreeCall none)
        ⟨[("HEAD", 0)], 1, [(0, "HEAD", 0)], 1, []⟩ :=
      CacheStep.getTreeMiss initCacheState none rfl
    have h2 : CacheStep "HEAD" false
        ⟨[("HEAD", 0)], 1, [(0, "HEAD", 0)], 1, []⟩ (.refreshCall none)
        ⟨[("HEAD", 1)], 2, [(1, "HEAD", 1), (0, "HEAD", 0)], 2, []⟩ :=
      CacheStep.refreshStep _ none
    have h3 : CacheStep "HEAD" false
        ⟨[("HEAD", 1)], 2, [(1, "HEAD", 1), (0, "HEAD", 0)], 2, []⟩
        (.settle "HEAD" 0 (Except.error "boom"))
        ⟨[], 2, [(1, "HEAD", 1)], 2, [(0, 0, Except.error "boom")]⟩ :=
      CacheStep.settleStep _ "HEAD" 0 (Except.error "boom") 0 (by simp)
    exact Relation.ReflTransGen.head ⟨_, h1⟩
      (Relation.ReflTransGen.head ⟨_, h2⟩ (Relation.ReflTransGen.single ⟨_, h3⟩))
  · simp
  · intro x hx
    simp at hx
    subst hx
    simp
  · exact CacheStep.getTreeMiss _ none rfl

/-- C1 amended: for every cache key, the in-flight map binds the key at most
once, and every `getTree` call that arrives while the map records an
in-flight build for its key starts no new underlying build (map and build
counter unchanged), is registered on exactly the recorded build, and when
that build settles receives its outcome. (As stated the claim is false: a
stale `finally`-delete from a settled earlier build can evict a live record
installed by `refreshTree`, after which a `getTree` starts a second build
during the evicted build's window — see the counterexample.) -/
theorem claim_C1_coalescing {d : String} {fb : Bool} {s : CacheState}
    (hreach : ReachableCache d fb s) :
    (s.buildPromises.map Prod.fst).Nodup ∧
    (∀ r b s', lookupKey s.buildPromises (cacheKeyOf d fb r) = some b →
      CacheStep d fb s (.getTreeCall r) s' →
      s'.buildPromises = s.buildPromises ∧ s'.nextBuildId = s.nextBuildId ∧
      s'.waiters = (s.nextCallerId, cacheKeyOf d fb r, b) :: s.waiters ∧
      (∀ k₂ o s'', CacheStep d fb s' (.settle k₂ b o) s'' →
        (s.nextCallerId, b, o) ∈ s''.delivered)) := by
  refine ⟨(cacheInv hreach).1, ?_⟩
  intro r b s' hl hstep
  revert hl
  cases hstep with
  | getTreeHit r2 b2 hl2 =>
    intro hl
    have hb : b2 = b := by
      rw [hl] at hl2
      exact (Option.some.injEq _ _).mp hl2.symm
    subst hb
    refine ⟨rfl, rfl, rfl, ?_⟩
    intro k₂ o s'' hstep₂
    cases hstep₂ with
    | settleStep key3 b3 o3 c3 hc3 =>
      have hmem : (s.nextCallerId, cacheKeyOf d fb r, b2) ∈
          List.filter (fun w => w.2.2 == b2)
            ((s.nextCallerId, cacheKeyOf d fb r, b2) :: s.waiters) := by
        apply List.mem_filter.mpr
        exact ⟨List.mem_cons_self _ _, by simp⟩
      apply List.mem_append.mpr
      exact Or.inl (List.mem_map.mpr
        ⟨(s.nextCallerId, cacheKeyOf d fb r, b2), hmem, rfl⟩)
  | getTreeMiss r2 hl2 =>
    intro hl
    rw [hl] at hl2
    cases hl2

/-- Witness for C1: one miss starts build 0; a second `getTree` for the same
key joins build 0 without starting a build, and on settlement receives the
outcome. -/
theorem claim_C1_witness :
    lookupKey [("HEAD", 0)] "HEAD" = some 0 ∧
    ((1 : Nat), (0 : Nat), (Except.error "boom" : Except String TreeNode)) ∈
      ([(1, 0, Except.error "boom"), (0, 0, Except.error "boom")] :
        List (Nat × Nat × Except String TreeNode)) := by
  constructor
  · rfl
  · have hreach : ReachableCache "HEAD" false
        ⟨[("HEAD", 0)], 1, [(0, "HEAD", 0)], 1, []⟩ :=
      Relation.ReflTransGen.single ⟨_, CacheStep.getTreeMiss initCacheState none rfl⟩
    have h := (claim_C1_coalescing hreach).2 none 0
      ⟨[("HEAD", 0)], 1, [(1, "HEAD", 0), (0, "HEAD", 0)], 2, []⟩
      rfl (CacheStep.getTreeHit _ none 0 rfl)
    have h2 := h.2.2.2 "HEAD" (Except.error "boom") _
      (CacheStep.settleStep _ "HEAD" 0 (Except.error "boom") 1 (by simp))
    exact h2

/-- C6: when the recorded in-flight build for a key settles with a failure,
every caller awaiting that build (the original and every coalesced caller)
receives that same failure, the entry is removed from the in-flight map,
and the next `getTree` for that key misses and starts a fresh build (a build
id never used before, in particular not the failed one); the machine has no
other build-starting transition, so no automatic retry happens in between. -/
theorem claim_C6_failure_propagation {d : String} {fb : Bool} {s : CacheState}
    (hreach : ReachableCache d fb s) {k : String} {b : Nat}
    (hrec : lookupKey s.buildPromises k = some b)
    {e : String} {s' : CacheState}
    (hstep : CacheStep d fb s (.settle k b (Except.error e)) s') :
    (∀ c k', (c, k', b) ∈ s.waiters →
      (c, b, (Except.error e : Except String TreeNode)) ∈ s'.delivered) ∧
    lookupKey s'.buildPromises k = none ∧
    (∀ r s'', cacheKeyOf d fb r = k → CacheStep d fb s' (.getTreeCall r) s'' →
      lookupKey s''.buildPromises k = some s'.nextBuildId ∧ s'.nextBuildId ≠ b ∧
      s''.nextBuildId = s'.nextBuildId + 1) := by
  cases hstep with
  | settleStep key2 b2 o2 c2 hc2 =>
    refine ⟨?_, ?_, ?_⟩
    · intro c k' hmem
      apply List.mem_append.mpr
      refine Or.inl (List.mem_map.mpr ⟨(c, k', b), ?_, rfl⟩)
      exact List.mem_filter.mpr ⟨hmem, by simp⟩
    · exact lookupKey_erase_self _ _
    · intro r s'' hkey hstep₂
      cases hstep₂ with
      | getTreeHit r4 b4 hl4 =>
        rw [hkey, lookupKey_erase_self] at hl4
        cases hl4
      | getTreeMiss r4 hl4 =>
        have hblt : b < s.nextBuildId :=
          (cacheInv hreach).2.1 _ _ (lookupKey_mem hrec)
        refine ⟨?_, ?_, rfl⟩
        · rw [hkey]
          simp [lookupKey]
        · intro hh
          have hh2 : s.nextBuildId = b := hh
          omega

/-- Witness for C6: two coalesced callers await build 0 for `HEAD`; the
build fails, both receive the same failure, the entry is gone, and the next
`getTree` starts fresh build 1. -/
theorem claim_C6_witness :
    lookupKey [("HEAD", 0)] "HEAD" = some 0 ∧
    ((0 : Nat), (0 : Nat), (Except.error "fatal" : Except String TreeNode)) ∈
      ([(1, 0, Except.error "fatal"), (0, 0, Except.error "fatal")] :
        List (Nat × Nat × Except String TreeNode)) ∧
    lookupKey (eraseKey [("HEAD", 0)] "HEAD") "HEAD" = none := by
  have hreach1 : ReachableCache "HEAD" false
      ⟨[("HEAD", 0)], 1, [(0, "HEAD", 0)], 1, []⟩ :=
    Relation.ReflTransGen.single ⟨_, CacheStep.getTreeMiss initCacheState none rfl⟩
  have hreach2 : ReachableCache "HEAD" false
      ⟨[("HEAD", 0)], 1, [(1, "HEAD", 0), (0, "HEAD", 0)], 2, []⟩ :=
    Relation.ReflTransGen.tail hreach1 ⟨_, CacheStep.getTreeHit _ none 0 rfl⟩
  have h := @claim_C6_failure_propagation "HEAD" false
    ⟨[("HEAD", 0)], 1, [(1, "HEAD", 0), (0, "HEAD", 0)], 2, []⟩ hreach2 "HEAD" 0 rfl
    "fatal" _
    (CacheStep.settleStep _ "HEAD" 0 (Except.error "fatal") 1 (by simp))
  exact ⟨rfl, h.1 0 "HEAD" (by simp), h.2.1⟩

/-! ## Path string infrastructure: joins of slash-free segments are injective -/

theorem slash_mem_append_cons (u : List Char) (x : List Char) :
    '/' ∈ u ++ '/' :: x :=
  List.mem_append.mpr (Or.inr (List.mem_cons_self _ _))

/-- Splitting a character list at its first slash is unambiguous when the
parts before the slash are slash-free. -/
theorem headSplit : ∀ {u v : List Char} {x y : List String},
    '/' ∉ u → '/' ∉ v → u ++ interTail x = v ++ interTail y → u = v ∧ interTail x = interTail y := by
  intro u
  induction u with
  | nil =>
    intro v x y _ hv h
    cases v with
    | nil => exact ⟨rfl, h⟩
    | cons c v' =>
      cases x with
      | nil => cases h
      | cons x0 x' =>
        rw [List.nil_append] at h
        have hc : c = '/' := by
          have := congrArg (fun l => l.head?) h
          simp [interTail] at this
          exact this.symm
        exact absurd (hc ▸ List.mem_cons_self c v') hv
  | cons c u' ih =>
    intro v x y hu hv h
    cases v with
    | nil =>
      cases y with
      | nil => cases h
      | cons y0 y' =>
        rw [List.nil_append] at h
        have hc : c = '/' := by
          have := congrArg (fun l => l.head?) h
          simp [interTail] at this
          exact this
        exact absurd (hc ▸ List.mem_cons_self c u') hu
    | cons d v' =>
      have hcd : c = d ∧ u' ++ interTail x = v' ++ interTail y := by
        rw [List.cons_append, List.cons_append] at h
        exact ⟨(List.cons.injEq _ _ _ _).mp h |>.1, (List.cons.injEq _ _ _ _).mp h |>.2⟩
      obtain ⟨rfl, h'⟩ := hcd
      have := ih (fun hm => hu (List.mem_cons_of_mem _ hm))
        (fun hm => hv (List.mem_cons_of_mem _ hm)) h'
      exact ⟨by rw [this.1], this.2⟩

theorem interTail_inj : ∀ {x y : List String},
    (∀ s ∈ x, '/' ∉ s.data) → (∀ s ∈ y, '/' ∉ s.data) →
    interTail x = interTail y → x = y := by
  intro x
  induction x with
  | nil =>
    intro y _ _ h
    cases y with
    | nil => rfl
    | cons y0 y' => cases h
  | cons x0 x' ih =>
    intro y hx hy h
    cases y with
    | nil => cases h
    | cons y0 y' =>
      simp only [interTail, List.cons.injEq] at h
      obtain ⟨hd, hsplit⟩ := headSplit (hx x0 (List.mem_cons_self _ _))
        (hy y0 (List.mem_cons_self _ _)) h.2
      have hxy : x0 = y0 := String.ext hd
      have := ih (fun s hs => hx s (List.mem_cons_of_mem _ hs))
        (fun s hs => hy s (List.mem_cons_of_mem _ hs)) hsplit
      rw [hxy, this]

theorem joinRelative_ne_dot {p x : String} (hp : p ≠ ".") : joinRelative p x ≠ "." := by
  unfold joinRelative
  rw [if_neg hp]
  intro h
  have : '/' ∈ (p ++ "/" ++ x).data := by
    rw [String.data_append, String.data_append]
    exact List.mem_append.mpr (Or.inl (List.mem_append.mpr (Or.inr (by simp [String.data]))))
  rw [h] at this
  simp [String.data] at this

theorem joinChain_data : ∀ (xs : List String) (p : String), p ≠ "." →
    (joinChain p xs).data = p.data ++ interTail xs := by
  intro xs
  induction xs with
  | nil => intro p _; simp [joinChain, interTail]
  | cons x xs ih =>
    intro p hp
    have hstep : joinChain p (x :: xs) = joinChain (joinRelative p x) xs := rfl
    rw [hstep, ih _ (joinRelative_ne_dot hp)]
    unfold joinRelative
    rw [if_neg hp]
    rw [String.data_append, String.data_append]
    simp [interTail, String.data]

theorem joinChain_dot_cons (s : String) (rest : List String) :
    joinChain "." (s :: rest) = joinChain s rest := by
  show joinChain (joinRelative "." s) rest = joinChain s rest
  rw [show joinRelative "." s = s from by unfold joinRelative; rw [if_pos rfl]]

theorem joinChain_dot_inj {a b : List String}
    (ha : validSegments a) (hb : validSegments b)
    (h : joinChain "." a = joinChain "." b) : a = b := by
  obtain ⟨hane, haseg⟩ := ha
  obtain ⟨hbne, hbseg⟩ := hb
  cases a with
  | nil => exact absurd rfl hane
  | cons a0 a' =>
    cases b with
    | nil => exact absurd rfl hbne
    | cons b0 b' =>
      rw [joinChain_dot_cons, joinChain_dot_cons] at h
      have hdata : a0.data ++ interTail a' = b0.data ++ interTail b' := by
        have h1 := joinChain_data a' a0 (haseg a0 (List.mem_cons_self _ _)).2.1
        have h2 := joinChain_data b' b0 (hbseg b0 (List.mem_cons_self _ _)).2.1
        rw [← h1, ← h2, h]
      obtain ⟨hd, hsplit⟩ := headSplit (haseg a0 (List.mem_cons_self _ _)).2.2
        (hbseg b0 (List.mem_cons_self _ _)).2.2 hdata
      have h0 : a0 = b0 := String.ext hd
      have h' : a' = b' := interTail_inj
        (fun s hs => (haseg s (List.mem_cons_of_mem _ hs)).2.2)
        (fun s hs => (hbseg s (List.mem_cons_of_mem _ hs)).2.2) hsplit
      rw [h0, h']

theorem chainPaths_mem : ∀ {segs : List String} {cp p : String},
    p ∈ chainPaths cp segs →
    ∃ j, 0 < j ∧ j < segs.length ∧ p = joinChain cp (segs.take j) := by
  intro segs
  induction segs with
  | nil => intro cp p h; cases h
  | cons s rest ih =>
    intro cp p h
    cases rest with
    | nil => cases h
    | cons s2 rest2 =>
      rcases List.mem_cons.mp h with rfl | h
      · exact ⟨1, Nat.one_pos, by simp, rfl⟩
      · obtain ⟨j, hj0, hjl, hp⟩ := ih h
        refine ⟨j + 1, Nat.succ_pos _, by simpa using Nat.succ_lt_succ hjl, ?_⟩
        rw [hp]
        rfl

theorem take_isHeadOf (l : List String) (j : Nat) : isHeadOf (l.take j) l :=
  ⟨l.drop j, List.take_append_drop _ _⟩

/-! ## Shape of insertion and childless files under well-formed entries -/

theorem occurs_node_iff {s : TreeNode} {i n rp : String} {ty : NodeType}
    {sz mt d : Nat} {cs : List TreeNode} :
    Occurs s (.node i n rp ty sz mt d cs) ↔
      s = .node i n rp ty sz mt d cs ∨ ∃ c ∈ cs, Occurs s c := by
  constructor
  · intro h
    cases h with
    | refl => exact Or.inl rfl
    | child hc hsub => exact Or.inr ⟨_, hc, hsub⟩
  · rintro (rfl | ⟨c, hc, hsub⟩)
    · exact Occurs.refl _
    · exact Occurs.child hc hsub

theorem mem_updateChild {cs : List TreeNode} {p : String} {f : TreeNode → TreeNode}
    {c' : TreeNode} (h : c' ∈ updateChild cs p f) :
    c' ∈ cs ∨ ∃ c ∈ cs, c.relativePath = p ∧ c' = f c := by
  induction cs with
  | nil => cases h
  | cons c cs ih =>
    by_cases hp : c.relativePath = p
    · rw [show updateChild (c :: cs) p f = f c :: cs from by simp [updateChild, hp]] at h
      rcases List.mem_cons.mp h with rfl | h
      · exact Or.inr ⟨c, List.mem_cons_self _ _, hp, rfl⟩
      · exact Or.inl (List.mem_cons_of_mem _ h)
    · rw [show updateChild (c :: cs) p f = c :: updateChild cs p f from by
        simp [updateChild, hp]] at h
      rcases List.mem_cons.mp h with rfl | h
      · exact Or.inl (List.mem_cons_self _ _)
      · rcases ih h with h | ⟨c₀, hc₀, hpc₀, hfc₀⟩
        · exact Or.inl (List.mem_cons_of_mem _ h)
        · exact Or.inr ⟨c₀, List.mem_cons_of_mem _ hc₀, hpc₀, hfc₀⟩

theorem findChild_eq_some {cs : List TreeNode} {p : String} {c : TreeNode}
    (h : findChild cs p = some c) : c ∈ cs ∧ c.relativePath = p := by
  unfold findChild at h
  refine ⟨List.mem_of_find?_eq_some h, ?_⟩
  have h2 := List.find?_some h
  exact of_decide_eq_true h2

theorem insertSegments_shape (segs : List String) (t : TreeNode) (cp : String)
    (sz mt : Nat) :
    ∃ cs', insertSegments t cp segs sz mt = t.withChildren cs' := by
  obtain ⟨i, n, rp, ty, sz0, mt0, d, cs⟩ := t
  cases segs with
  | nil => exact ⟨cs, rfl⟩
  | cons seg rest =>
    cases rest with
    | nil =>
      exact ⟨_, rfl⟩
    | cons seg2 rest2 =>
      simp only [insertSegments]
      rcases hfind : findChild (TreeNode.node i n rp ty sz0 mt0 d cs).children
          (joinRelative cp seg) with _ | c
      · exact ⟨_, rfl⟩
      · exact ⟨_, rfl⟩

theorem insertSegments_type (segs : List String) (t : TreeNode) (cp : String)
    (sz mt : Nat) : (insertSegments t cp segs sz mt).type = t.type := by
  obtain ⟨cs', hs⟩ := insertSegments_shape segs t cp sz mt
  rw [hs]
  obtain ⟨i, n, rp, ty, sz0, mt0, d, cs⟩ := t
  rfl

theorem insertSegments_relativePath (segs : List String) (t : TreeNode) (cp : String)
    (sz mt : Nat) : (insertSegments t cp segs sz mt).relativePath = t.relativePath := by
  obtain ⟨cs', hs⟩ := insertSegments_shape segs t cp sz mt
  rw [hs]
  obtain ⟨i, n, rp, ty, sz0, mt0, d, cs⟩ := t
  rfl

theorem filePathsForest_append (cs ds : List TreeNode) :
    filePathsForest (cs ++ ds) = filePathsForest cs ++ filePathsForest ds := by
  induction cs with
  | nil => rfl
  | cons c cs ih =>
    show filePathsOf c ++ filePathsForest (cs ++ ds)
      = (filePathsOf c ++ filePathsForest cs) ++ filePathsForest ds
    rw [ih, List.append_assoc]

theorem mem_filePathsForest {x : String} {cs : List TreeNode} :
    x ∈ filePathsForest cs ↔ ∃ c ∈ cs, x ∈ filePathsOf c := by
  induction cs with
  | nil => simp [filePathsForest]
  | cons c cs ih =>
    simp only [filePathsForest, List.mem_append, ih]
    constructor
    · rintro (hx | ⟨c₀, hc₀, hx⟩)
      · exact ⟨c, List.mem_cons_self _ _, hx⟩
      · exact ⟨c₀, List.mem_cons_of_mem _ hc₀, hx⟩
    · rintro ⟨c₀, hc₀, hx⟩
      rcases List.mem_cons.mp hc₀ with rfl | hc₀
      · exact Or.inl hx
      · exact Or.inr ⟨c₀, hc₀, hx⟩

theorem filePathsForest_updateChild {x : String} {cs : List TreeNode} {p : String}
    {f : TreeNode → TreeNode} (hx : x ∈ filePathsForest (updateChild cs p f)) :
    x ∈ filePathsForest cs ∨ ∃ c ∈ cs, x ∈ filePathsOf (f c) := by
  induction cs with
  | nil => cases hx
  | cons c cs ih =>
    by_cases hp : c.relativePath = p
    · rw [show updateChild (c :: cs) p f = f c :: cs from by simp [updateChild, hp]] at hx
      rcases List.mem_append.mp hx with hx | hx
      · exact Or.inr ⟨c, List.mem_cons_self _ _, hx⟩
      · exact Or.inl (List.mem_append.mpr (Or.inr hx))
    · rw [show updateChild (c :: cs) p f = c :: updateChild cs p f from by
        simp [updateChild, hp]] at hx
      rcases List.mem_append.mp hx with hx | hx
      · exact Or.inl (List.mem_append.mpr (Or.inl hx))
      · rcases ih hx with hx | ⟨c₀, hc₀, hx⟩
        · exact Or.inl (List.mem_append.mpr (Or.inr hx))
        · exact Or.inr ⟨c₀, List.mem_cons_of_mem _ hc₀, hx⟩

theorem filePathsOf_insertSegments {segs : List String} :
    ∀ {t : TreeNode} {cp : String} {sz mt : Nat} {x : String},
      x ∈ filePathsOf (insertSegments t cp segs sz mt) →
      x = joinChain cp segs ∨ x ∈ filePathsOf t := by
  induction segs with
  | nil => exact fun hx => Or.inr hx
  | cons seg rest ih =>
    intro t cp sz mt x hx
    obtain ⟨i, n, rp, ty, sz0, mt0, d, cs⟩ := t
    cases ty with
    | file =>
      obtain ⟨cs', hs⟩ := insertSegments_shape (seg :: rest)
        (.node i n rp .file sz0 mt0 d cs) cp sz mt
      rw [hs] at hx
      exact Or.inr hx
    | directory =>
      cases rest with
      | nil =>
        simp only [insertSegments, TreeNode.children, TreeNode.depth,
          TreeNode.withChildren] at hx
        rcases hlook : lookupNode (childIdMapOf cs)
            (createFileNode (joinRelative cp seg) seg (d + 1) sz mt).id with _ | existing
        · rw [ensureChild_children_of_none hlook] at hx
          have hx' : x ∈ filePathsForest cs ++ [joinRelative cp seg] := by
            have : filePathsForest (cs ++ [createFileNode (joinRelative cp seg) seg (d + 1) sz mt])
                = filePathsForest cs ++ [joinRelative cp seg] := by
              rw [filePathsForest_append]
              rfl
            rw [← this]
            exact hx
          rcases List.mem_append.mp hx' with hx' | hx'
          · exact Or.inr hx'
          · rcases List.mem_singleton.mp hx' with rfl
            exact Or.inl rfl
        · rw [ensureChild_children_of_some hlook] at hx
          exact Or.inr hx
      | cons seg2 rest2 =>
        simp only [insertSegments, TreeNode.children, TreeNode.depth,
          TreeNode.withChildren] at hx
        rcases hfind : findChild cs (joinRelative cp seg) with _ | c
        · rw [hfind] at hx
          rcases hlook : lookupNode (childIdMapOf cs)
              (insertSegments (createDirectoryNode (joinRelative cp seg) seg (d + 1) mt)
                (joinRelative cp seg) (seg2 :: rest2) sz mt).id with _ | existing
          · rw [ensureChild_children_of_none hlook] at hx
            have hx2 : x ∈ filePathsForest cs ++ filePathsOf (insertSegments
                (createDirectoryNode (joinRelative cp seg) seg (d + 1) mt)
                (joinRelative cp seg) (seg2 :: rest2) sz mt) := by
              have : filePathsForest (cs ++ [insertSegments
                  (createDirectoryNode (joinRelative cp seg) seg (d + 1) mt)
                  (joinRelative cp seg) (seg2 :: rest2) sz mt])
                  = filePathsForest cs ++ filePathsOf (insertSegments
                    (createDirectoryNode (joinRelative cp seg) seg (d + 1) mt)
                    (joinRelative cp seg) (seg2 :: rest2) sz mt) := by
                rw [filePathsForest_append]
                show _ ++ filePathsForest [_] = _
                rw [show ∀ z, filePathsForest [z] = filePathsOf z ++ [] from fun z => rfl,
                  List.append_nil]
              rw [← this]
              exact hx
            rcases List.mem_append.mp hx2 with hx2 | hx2
            · exact Or.inr hx2
            · rcases ih hx2 with rfl | hin
              · exact Or.inl rfl
              · cases hin
          · rw [ensureChild_children_of_some hlook] at hx
            exact Or.inr hx
        · rw [hfind] at hx
          rcases filePathsForest_updateChild hx with hx | ⟨c₀, hc₀, hx⟩
          · exact Or.inr hx
          · rcases ih hx with rfl | hin
            · exact Or.inl rfl
            · exact Or.inr (mem_filePathsForest.mpr ⟨c₀, hc₀, hin⟩)

theorem filePathsOf_child_subset {c t : TreeNode} (hc : c ∈ t.children)
    {x : String} (hx : x ∈ filePathsOf c) : x ∈ filePathsOf t ∨ t.type = NodeType.file := by
  obtain ⟨i, n, rp, ty, sz, mt, d, cs⟩ := t
  cases ty with
  | file => exact Or.inr rfl
  | directory => exact Or.inl (mem_filePathsForest.mpr ⟨c, hc, hx⟩)

/-- Insertion cannot give children to a file node as long as no intermediate
directory of the walk collides with an existing file path. -/
theorem fc_insertSegments : ∀ {segs : List String} {t : TreeNode} {cp : String}
    {sz mt : Nat},
    t.type = NodeType.directory →
    (∀ s, Occurs s t → s.type = NodeType.file → s.children = []) →
    (∀ p ∈ chainPaths cp segs, p ∉ filePathsOf t) →
    ∀ s, Occurs s (insertSegments t cp segs sz mt) →
      s.type = NodeType.file → s.children = [] := by
  intro segs
  induction segs with
  | nil => exact fun _ hfc _ s hocc hf => hfc s hocc hf
  | cons seg rest ih =>
    intro t cp sz mt htd hfc hfree s hocc hf
    obtain ⟨i, n, rp, ty, sz0, mt0, d, cs⟩ := t
    have hty : ty = NodeType.directory := htd
    subst hty
    cases rest with
    | nil =>
      simp only [insertSegments, TreeNode.children, TreeNode.depth,
        TreeNode.withChildren] at hocc
      rcases hlook : lookupNode (childIdMapOf cs)
          (createFileNode (joinRelative cp seg) seg (d + 1) sz mt).id with _ | existing
      · rw [ensureChild_children_of_none hlook] at hocc
        rcases occurs_node_iff.mp hocc with rfl | ⟨c, hc, hsub⟩
        · cases hf
        · rcases List.mem_append.mp hc with hc | hc
          · exact hfc s (Occurs.child hc hsub) hf
          · rcases List.mem_singleton.mp hc with rfl
            cases hsub with
            | refl => rfl
            | child hcc _ => cases hcc
      · rw [ensureChild_children_of_some hlook] at hocc
        exact hfc s hocc hf
    | cons seg2 rest2 =>
      simp only [insertSegments, TreeNode.children, TreeNode.depth,
        TreeNode.withChildren] at hocc
      have hfree_head : joinRelative cp seg ∉ filePathsOf (TreeNode.node i n rp
          NodeType.directory sz0 mt0 d cs) := by
        apply hfree
        exact List.mem_cons_self _ _
      have hfree_tail : ∀ p ∈ chainPaths (joinRelative cp seg) (seg2 :: rest2),
          p ∉ filePathsOf (TreeNode.node i n rp NodeType.directory sz0 mt0 d cs) := by
        intro p hp
        exact hfree p (List.mem_cons_of_mem _ hp)
      rcases hfind : findChild cs (joinRelative cp seg) with _ | c
      · rw [hfind] at hocc
        rcases hlook : lookupNode (childIdMapOf cs)
            (insertSegments (createDirectoryNode (joinRelative cp seg) seg (d + 1) mt)
              (joinRelative cp seg) (seg2 :: rest2) sz mt).id with _ | existing
        · rw [ensureChild_children_of_none hlook] at hocc
          rcases occurs_node_iff.mp hocc with rfl | ⟨c, hc, hsub⟩
          · cases hf
          · rcases List.mem_append.mp hc with hc | hc
            · exact hfc s (Occurs.child hc hsub) hf
            · rcases List.mem_singleton.mp hc with rfl
              refine ih ?_ ?_ ?_ s hsub hf
              · rfl
              · intro s₀ hocc₀ hf₀
                cases hocc₀ with
                | refl => cases hf₀
                | child hcc _ => cases hcc
              · intro p _ hpmem
                cases hpmem
        · rw [ensureChild_children_of_some hlook] at hocc
          exact hfc s hocc hf
      · rw [hfind] at hocc
        obtain ⟨hcmem, hcpath⟩ := findChild_eq_some hfind
        have hcdir : c.type = NodeType.directory := by
          rcases nodeType_cases c.type with hcf | hcd
          · exfalso
            apply hfree_head
            have : joinRelative cp seg ∈ filePathsOf c := by
              obtain ⟨ci, cn, crp, cty, csz, cmt, cd, ccs⟩ := c
              have : cty = NodeType.file := hcf
              subst this
              have : crp = joinRelative cp seg := hcpath
              subst this
              exact List.mem_singleton.mpr rfl
            exact mem_filePathsForest.mpr ⟨c, hcmem, this⟩
          · exact hcd
        rcases occurs_node_iff.mp hocc with rfl | ⟨c', hc', hsub⟩
        · cases hf
        · rcases mem_updateChild hc' with hc' | ⟨c₀, hc₀, hpath₀, rfl⟩
          · exact hfc s (Occurs.child hc' hsub) hf
          · have hc₀dir : c₀.type = NodeType.directory := by
              rcases nodeType_cases c₀.type with hcf | hcd
              · exfalso
                apply hfree_head
                have : joinRelative cp seg ∈ filePathsOf c₀ := by
                  obtain ⟨ci, cn, crp, cty, csz, cmt, cd, ccs⟩ := c₀
                  have : cty = NodeType.file := hcf
                  subst this
                  have : crp = joinRelative cp seg := hpath₀
                  subst this
                  exact List.mem_singleton.mpr rfl
                exact mem_filePathsForest.mpr ⟨c₀, hc₀, this⟩
              · exact hcd
            refine ih hc₀dir ?_ ?_ s hsub hf
            · intro s₀ hocc₀ hf₀
              exact hfc s₀ (Occurs.child hc₀ hocc₀) hf₀
            · intro p hp hpmem
              apply hfree_tail p hp
              exact mem_filePathsForest.mpr ⟨c₀, hc₀, hpmem⟩

/-- Assembly from a well-formed entry list yields a tree in which no file
node has children. -/
theorem filesChildless_assemble (repoName : String) (entries : List FileEntry)
    (hwf : entriesWellFormed entries) :
    ∀ s, Occurs s (assembleTree repoName entries) →
      s.type = NodeType.file → s.children = [] := by
  obtain ⟨hvalid, hpair⟩ := hwf
  have main : ∀ (L : List FileEntry) (t : TreeNode),
      t.type = NodeType.directory →
      (∀ s, Occurs s t → s.type = NodeType.file → s.children = []) →
      (∀ e ∈ L, validSegments (segmentsOf e)) →
      L.Pairwise (fun a b => conflictFree (segmentsOf a) (segmentsOf b)) →
      (∀ e ∈ L, ∀ p ∈ chainPaths "." (segmentsOf e), p ∉ filePathsOf t) →
      (∀ e ∈ L, ∀ x ∈ filePathsOf t,
        ∀ j, 0 < j → j < (segmentsOf e).length → x ≠ joinChain "." ((segmentsOf e).take j)) →
      ∀ s, Occurs s (L.foldl (fun t e => insertFileNode t e.path e.size e.mtimeMs) t) →
        s.type = NodeType.file → s.children = [] := by
    intro L
    induction L with
    | nil => exact fun t _ hfc _ _ _ _ s hocc hf => hfc s hocc hf
    | cons e rest ihL =>
      intro t htd hfc hval hpw hfree hfree2 s hocc hf
      rw [List.foldl_cons] at hocc
      have hins_type : (insertFileNode t e.path e.size e.mtimeMs).type = NodeType.directory := by
        rw [show insertFileNode t e.path e.size e.mtimeMs
            = insertSegments t "." (splitPath e.path) e.size e.mtimeMs from rfl]
        rw [insertSegments_type]
        exact htd
      have hins_fc : ∀ s, Occurs s (insertFileNode t e.path e.size e.mtimeMs) →
          s.type = NodeType.file → s.children = [] :=
        fc_insertSegments htd hfc (hfree e (List.mem_cons_self _ _))
      have hsubset : ∀ x, x ∈ filePathsOf (insertFileNode t e.path e.size e.mtimeMs) →
          x = joinChain "." (segmentsOf e) ∨ x ∈ filePathsOf t := by
        intro x hx
        exact filePathsOf_insertSegments hx
      refine ihL (insertFileNode t e.path e.size e.mtimeMs) hins_type hins_fc
        (fun e' he' => hval e' (List.mem_cons_of_mem _ he'))
        (List.pairwise_cons.mp hpw).2 ?_ ?_ s hocc hf
      · intro e' he' p hp hpmem
        rcases hsubset p hpmem with rfl | hpmem'
        · obtain ⟨j, hj0, hjl, hpj⟩ := chainPaths_mem hp
          have hval_e : validSegments (segmentsOf e) := hval e (List.mem_cons_self _ _)
          have hval_e' : validSegments (segmentsOf e') := hval e' (List.mem_cons_of_mem _ he')
          have hval_take : validSegments ((segmentsOf e').take j) := by
            refine ⟨?_, ?_⟩
            · intro hnil
              have : (segmentsOf e').length ≤ j := by
                by_contra hlt
                push_neg at hlt
                have : ((segmentsOf e').take j).length = j := by
                  rw [List.length_take]
                  omega
                rw [hnil] at this
                simp at this
                omega
              omega
            · intro x hx
              exact hval_e'.2 x (List.mem_of_mem_take hx)
          have heq : segmentsOf e = (segmentsOf e').take j :=
            joinChain_dot_inj hval_e hval_take hpj
          have hconf : conflictFree (segmentsOf e) (segmentsOf e') :=
            (List.pairwise_cons.mp hpw).1 e' he'
          exact hconf.1 (heq ▸ take_isHeadOf (segmentsOf e') j)
        · exact hfree e' (List.mem_cons_of_mem _ he') p hp hpmem'
      · intro e' he' x hx j hj0 hjl
        rcases hsubset x hx with rfl | hx'
        · intro hcontra
          have hval_e : validSegments (segmentsOf e) := hval e (List.mem_cons_self _ _)
          have hval_e' : validSegments (segmentsOf e') := hval e' (List.mem_cons_of_mem _ he')
          have hval_take : validSegments ((segmentsOf e').take j) := by
            refine ⟨?_, ?_⟩
            · intro hnil
              have : ((segmentsOf e').take j).length = j := by
                rw [List.length_take]
                omega
              rw [hnil] at this
              simp at this
              omega
            · intro y hy
              exact hval_e'.2 y (List.mem_of_mem_take hy)
          have heq : segmentsOf e = (segmentsOf e').take j :=
            joinChain_dot_inj hval_e hval_take hcontra
          have hconf : conflictFree (segmentsOf e) (segmentsOf e') :=
            (List.pairwise_cons.mp hpw).1 e' he'
          exact hconf.1 (heq ▸ take_isHeadOf (segmentsOf e') j)
        · exact hfree2 e' (List.mem_cons_of_mem _ he') x hx' j hj0 hjl
  intro s hocc hf
  refine main entries (createDirectoryNode "." repoName 0 0) rfl ?_ hvalid hpair ?_ ?_ s hocc hf
  · intro s₀ hocc₀ hf₀
    cases hocc₀ with
    | refl => cases hf₀
    | child hcc _ => cases hcc
  · intro e _ p _ hpmem
    cases hpmem
  · intro e _ x hx
    cases hx

/-! ## Maximum and sum bookkeeping for file metrics -/

theorem foldr_max_init (l : List Nat) (x : Nat) :
    l.foldr Nat.max x = Nat.max (l.foldr Nat.max 0) x := by
  induction l with
  | nil => simp
  | cons a l ih =>
    show Nat.max a (l.foldr Nat.max x) = Nat.max (Nat.max a (l.foldr Nat.max 0)) x
    rw [ih]
    exact (Nat.max_assoc a (l.foldr Nat.max 0) x).symm

theorem maxMtime_append (a b : List (Nat × Nat)) :
    maxMtime (a ++ b) = Nat.max (maxMtime a) (maxMtime b) := by
  unfold maxMtime
  rw [List.map_append, List.foldr_append, foldr_max_init]

theorem sumSizes_append (a b : List (Nat × Nat)) :
    sumSizes (a ++ b) = sumSizes a + sumSizes b := by
  unfold sumSizes
  rw [List.map_append, List.sum_append]

theorem maxMtime_le_iff {l : List (Nat × Nat)} {m : Nat} :
    maxMtime l ≤ m ↔ ∀ x ∈ l, x.2 ≤ m := by
  induction l with
  | nil => simp [maxMtime]
  | cons a l ih =>
    show Nat.max a.2 (maxMtime l) ≤ m ↔ _
    rw [Nat.max_le]
    constructor
    · rintro ⟨h1, h2⟩ x hx
      rcases List.mem_cons.mp hx with rfl | hx
      · exact h1
      · exact ih.mp h2 x hx
    · intro h
      exact ⟨h a (List.mem_cons_self _ _), ih.mpr (fun x hx => h x (List.mem_cons_of_mem _ hx))⟩

theorem le_maxMtime_of_mem {l : List (Nat × Nat)} {x : Nat × Nat} (hx : x ∈ l) :
    x.2 ≤ maxMtime l :=
  maxMtime_le_iff.mp (le_refl _) x hx

theorem maxMtime_perm {l l' : List (Nat × Nat)} (h : l.Perm l') :
    maxMtime l = maxMtime l' := by
  apply le_antisymm
  · exact maxMtime_le_iff.mpr (fun x hx => le_maxMtime_of_mem (h.mem_iff.mp hx))
  · exact maxMtime_le_iff.mpr (fun x hx => le_maxMtime_of_mem (h.mem_iff.mpr hx))

theorem sumSizes_perm {l l' : List (Nat × Nat)} (h : l.Perm l') :
    sumSizes l = sumSizes l' :=
  List.Perm.sum_eq (h.map Prod.fst)

theorem filesUnderForest_append (cs ds : List TreeNode) :
    filesUnderForest (cs ++ ds) = filesUnderForest cs ++ filesUnderForest ds := by
  induction cs with
  | nil => rfl
  | cons c cs ih =>
    show filesUnder c ++ filesUnderForest (cs ++ ds)
      = (filesUnder c ++ filesUnderForest cs) ++ filesUnderForest ds
    rw [ih, List.append_assoc]

theorem mem_filesUnderForest {x : Nat × Nat} {cs : List TreeNode} :
    x ∈ filesUnderForest cs ↔ ∃ c ∈ cs, x ∈ filesUnder c := by
  induction cs with
  | nil => simp [filesUnderForest]
  | cons c cs ih =>
    simp only [filesUnderForest, List.mem_append, ih]
    constructor
    · rintro (hx | ⟨c₀, hc₀, hx⟩)
      · exact ⟨c, List.mem_cons_self _ _, hx⟩
      · exact ⟨c₀, List.mem_cons_of_mem _ hc₀, hx⟩
    · rintro ⟨c₀, hc₀, hx⟩
      rcases List.mem_cons.mp hc₀ with rfl | hc₀
      · exact Or.inl hx
      · exact Or.inr ⟨c₀, hc₀, hx⟩

theorem filesUnder_node (i n rp : String) (ty : NodeType) (sz mt d : Nat)
    (cs : List TreeNode) :
    filesUnder (.node i n rp ty sz mt d cs)
      = (match ty with
         | NodeType.file => [(sz, mt)]
         | NodeType.directory => filesUnderForest cs) := by
  cases ty <;> rfl

theorem natMax_le_natMax {a b c d : Nat} (h1 : a ≤ b) (h2 : c ≤ d) :
    Nat.max a c ≤ Nat.max b d :=
  Nat.max_le.mpr
    ⟨le_trans h1 (Nat.le_max_left _ _), le_trans h2 (Nat.le_max_right _ _)⟩

theorem maxMtime_forest_updateChild {cs : List TreeNode} {p : String}
    {f : TreeNode → TreeNode}
    (hmono : ∀ c, maxMtime (filesUnder c) ≤ maxMtime (filesUnder (f c))) :
    maxMtime (filesUnderForest cs) ≤ maxMtime (filesUnderForest (updateChild cs p f)) := by
  induction cs with
  | nil => exact le_refl _
  | cons c cs ih =>
    by_cases hp : c.relativePath = p
    · rw [show updateChild (c :: cs) p f = f c :: cs from by simp [updateChild, hp]]
      show maxMtime (filesUnder c ++ filesUnderForest cs)
        ≤ maxMtime (filesUnder (f c) ++ filesUnderForest cs)
      rw [maxMtime_append, maxMtime_append]
      exact natMax_le_natMax (hmono c) (le_refl _)
    · rw [show updateChild (c :: cs) p f = c :: updateChild cs p f from by
        simp [updateChild, hp]]
      show maxMtime (filesUnder c ++ filesUnderForest cs)
        ≤ maxMtime (filesUnder c ++ filesUnderForest (updateChild cs p f))
      rw [maxMtime_append, maxMtime_append]
      exact natMax_le_natMax (le_refl _) ih

/-- Inserting an entry never lowers the maximal file mtime of a subtree. -/
theorem maxMtime_insertSegments_mono : ∀ {segs : List String} {t : TreeNode}
    {cp : String} {sz mt : Nat},
    maxMtime (filesUnder t) ≤ maxMtime (filesUnder (insertSegments t cp segs sz mt)) := by
  intro segs
  induction segs with
  | nil => exact le_refl _
  | cons seg rest ih =>
    intro t cp sz mt
    obtain ⟨i, n, rp, ty, sz0, mt0, d, cs⟩ := t
    cases ty with
    | file =>
      obtain ⟨cs', hs⟩ := insertSegments_shape (seg :: rest)
        (.node i n rp .file sz0 mt0 d cs) cp sz mt
      rw [hs]
      exact le_refl _
    | directory =>
      cases rest with
      | nil =>
        simp only [insertSegments, TreeNode.children, TreeNode.depth, TreeNode.withChildren]
        rcases hlook : lookupNode (childIdMapOf cs)
            (createFileNode (joinRelative cp seg) seg (d + 1) sz mt).id with _ | existing
        · rw [ensureChild_children_of_none hlook]
          show maxMtime (filesUnderForest cs) ≤ maxMtime (filesUnderForest (cs ++ [_]))
          rw [filesUnderForest_append]
          rw [maxMtime_append]
          exact Nat.le_max_left _ _
        · rw [ensureChild_children_of_some hlook]
      | cons seg2 rest2 =>
        simp only [insertSegments, TreeNode.children, TreeNode.depth, TreeNode.withChildren]
        rcases hfind : findChild cs (joinRelative cp seg) with _ | c
        · rcases hlook : lookupNode (childIdMapOf cs)
              (insertSegments (createDirectoryNode (joinRelative cp seg) seg (d + 1) mt)
                (joinRelative cp seg) (seg2 :: rest2) sz mt).id with _ | existing
          · rw [ensureChild_children_of_none hlook]
            show maxMtime (filesUnderForest cs) ≤ maxMtime (filesUnderForest (cs ++ [_]))
            rw [filesUnderForest_append, maxMtime_append]
            exact Nat.le_max_left _ _
          · rw [ensureChild_children_of_some hlook]
        · show maxMtime (filesUnderForest cs)
            ≤ maxMtime (filesUnderForest (updateChild cs (joinRelative cp seg) _))
          exact maxMtime_forest_updateChild (fun c₀ => ih)

/-- Inserting a single segment below a freshly created (childless) directory
attaches exactly the one file node. -/
theorem chain_singleton_eq (q nm seg : String) (dep sz mt : Nat) :
    insertSegments (createDirectoryNode q nm dep mt) q [seg] sz mt
      = TreeNode.node (makeId q .directory) nm q .directory 0 mt dep
          [createFileNode (joinRelative q seg) seg (dep + 1) sz mt] := rfl

/-- Inserting two or more segments below a freshly created (childless)
directory attaches exactly one child: the recursively built chain. -/
theorem chain_cons_eq (q nm seg seg2 : String) (rest2 : List String)
    (dep sz mt : Nat) :
    insertSegments (createDirectoryNode q nm dep mt) q (seg :: seg2 :: rest2) sz mt
      = TreeNode.node (makeId q .directory) nm q .directory 0 mt dep
          [insertSegments (createDirectoryNode (joinRelative q seg) seg (dep + 1) mt)
            (joinRelative q seg) (seg2 :: rest2) sz mt] := rfl

theorem filesUnderForest_singleton (c : TreeNode) :
    filesUnderForest [c] = filesUnder c := by
  show filesUnder c ++ filesUnderForest [] = filesUnder c
  rw [show filesUnderForest [] = [] from rfl, List.append_nil]

/-- Fresh chains: inserting below a just-created directory produces a subtree
whose maximal file mtime is at least the inserted mtime, and in which every
directory node has `mtimeMs` dominated by the file mtimes below it. -/
theorem chain_dml : ∀ {segs : List String}, segs ≠ [] →
    ∀ {q nm : String} {dep sz mt : Nat},
    mt ≤ maxMtime (filesUnder (insertSegments (createDirectoryNode q nm dep mt) q segs sz mt)) ∧
    (∀ s, Occurs s (insertSegments (createDirectoryNode q nm dep mt) q segs sz mt) →
      s.type = NodeType.directory → s.mtimeMs ≤ maxMtime (filesUnder s)) := by
  intro segs
  induction segs with
  | nil => exact fun h => absurd rfl h
  | cons seg rest ih =>
    intro _ q nm dep sz mt
    cases rest with
    | nil =>
      constructor
      · rw [chain_singleton_eq]
        show mt ≤ maxMtime [(sz, mt)]
        exact Nat.le_max_left _ _
      · intro s hocc hdir
        rw [chain_singleton_eq] at hocc
        rcases occurs_node_iff.mp hocc with rfl | ⟨c, hc, hsub⟩
        · show mt ≤ maxMtime [(sz, mt)]
          exact Nat.le_max_left _ _
        · have hc2 : c ∈ [createFileNode (joinRelative q seg) seg (dep + 1) sz mt] := hc
          rcases List.mem_singleton.mp hc2 with rfl
          cases hsub with
          | refl => exact absurd hdir (by intro h; cases h)
          | child hcc _ => exact absurd hcc (List.not_mem_nil _)
    | cons seg2 rest2 =>
      have hne : (seg2 :: rest2) ≠ ([] : List String) := by simp
      have hinner := @ih hne (joinRelative q seg) seg (dep + 1) sz mt
      constructor
      · rw [chain_cons_eq]
        show mt ≤ maxMtime (filesUnderForest
          [insertSegments (createDirectoryNode (joinRelative q seg) seg (dep + 1) mt)
            (joinRelative q seg) (seg2 :: rest2) sz mt])
        rw [filesUnderForest_singleton]
        exact hinner.1
      · intro s hocc hdir
        rw [chain_cons_eq] at hocc
        rcases occurs_node_iff.mp hocc with rfl | ⟨c, hc, hsub⟩
        · show mt ≤ maxMtime (filesUnderForest
            [insertSegments (createDirectoryNode (joinRelative q seg) seg (dep + 1) mt)
              (joinRelative q seg) (seg2 :: rest2) sz mt])
          rw [filesUnderForest_singleton]
          exact hinner.1
        · have hc2 : c ∈ [insertSegments
              (createDirectoryNode (joinRelative q seg) seg (dep + 1) mt)
              (joinRelative q seg) (seg2 :: rest2) sz mt] := hc
          rcases List.mem_singleton.mp hc2 with rfl
          exact hinner.2 s hsub hdir

/-- Insertion preserves the invariant that every directory node's `mtimeMs`
is bounded by the maximal file mtime below it. -/
theorem dml_insertSegments : ∀ {segs : List String} {t : TreeNode} {cp : String}
    {sz mt : Nat},
    (∀ s, Occurs s t → s.type = NodeType.directory →
      s.mtimeMs ≤ maxMtime (filesUnder s)) →
    ∀ s, Occurs s (insertSegments t cp segs sz mt) →
      s.type = NodeType.directory → s.mtimeMs ≤ maxMtime (filesUnder s) := by
  intro segs
  induction segs with
  | nil => exact fun hdml s hocc hdir => hdml s hocc hdir
  | cons seg rest ih =>
    intro t cp sz mt hdml s hocc hdir
    obtain ⟨i, n, rp, ty, sz0, mt0, d, cs⟩ := t
    cases rest with
    | nil =>
      simp only [insertSegments, TreeNode.children, TreeNode.depth,
        TreeNode.withChildren] at hocc
      rcases hlook : lookupNode (childIdMapOf cs)
          (createFileNode (joinRelative cp seg) seg (d + 1) sz mt).id with _ | existing
      · rw [ensureChild_children_of_none hlook] at hocc
        rcases occurs_node_iff.mp hocc with rfl | ⟨c, hc, hsub⟩
        · have hty : ty = NodeType.directory := hdir
          subst hty
          have hroot : mt0 ≤ maxMtime (filesUnderForest cs) :=
            hdml (TreeNode.node i n rp NodeType.directory sz0 mt0 d cs) (Occurs.refl _) rfl
          show mt0 ≤ maxMtime (filesUnderForest
            (cs ++ [createFileNode (joinRelative cp seg) seg (d + 1) sz mt]))
          rw [filesUnderForest_append, maxMtime_append]
          exact le_trans hroot (Nat.le_max_left _ _)
        · rcases List.mem_append.mp hc with hc | hc
          · exact hdml s (Occurs.child hc hsub) hdir
          · rcases List.mem_singleton.mp hc with rfl
            cases hsub with
            | refl => exact absurd hdir (by intro h; cases h)
            | child hcc _ => exact absurd hcc (List.not_mem_nil _)
      · rw [ensureChild_children_of_some hlook] at hocc
        exact hdml s hocc hdir
    | cons seg2 rest2 =>
      simp only [insertSegments, TreeNode.children, TreeNode.depth,
        TreeNode.withChildren] at hocc
      rcases hfind : findChild cs (joinRelative cp seg) with _ | c
      · rw [hfind] at hocc
        rcases hlook : lookupNode (childIdMapOf cs)
            (insertSegments (createDirectoryNode (joinRelative cp seg) seg (d + 1) mt)
              (joinRelative cp seg) (seg2 :: rest2) sz mt).id with _ | existing
        · rw [ensureChild_children_of_none hlook] at hocc
          rcases occurs_node_iff.mp hocc with rfl | ⟨c, hc, hsub⟩
          · have hty : ty = NodeType.directory := hdir
            subst hty
            have hroot : mt0 ≤ maxMtime (filesUnderForest cs) :=
              hdml (TreeNode.node i n rp NodeType.directory sz0 mt0 d cs) (Occurs.refl _) rfl
            show mt0 ≤ maxMtime (filesUnderForest (cs ++
              [insertSegments (createDirectoryNode (joinRelative cp seg) seg (d + 1) mt)
                (joinRelative cp seg) (seg2 :: rest2) sz mt]))
            rw [filesUnderForest_append, maxMtime_append]
            exact le_trans hroot (Nat.le_max_left _ _)
          · rcases List.mem_append.mp hc with hc | hc
            · exact hdml s (Occurs.child hc hsub) hdir
            · rcases List.mem_singleton.mp hc with rfl
              exact (chain_dml (by simp)).2 s hsub hdir
        · rw [ensureChild_children_of_some hlook] at hocc
          exact hdml s hocc hdir
      · rw [hfind] at hocc
        rcases occurs_node_iff.mp hocc with rfl | ⟨c', hc', hsub⟩
        · have hty : ty = NodeType.directory := hdir
          subst hty
          have hroot : mt0 ≤ maxMtime (filesUnderForest cs) :=
            hdml (TreeNode.node i n rp NodeType.directory sz0 mt0 d cs) (Occurs.refl _) rfl
          show mt0 ≤ maxMtime (filesUnderForest (updateChild cs (joinRelative cp seg)
            (fun d0 => insertSegments d0 (joinRelative cp seg) (seg2 :: rest2) sz mt)))
          exact le_trans hroot
            (maxMtime_forest_updateChild (fun c₀ => maxMtime_insertSegments_mono))
        · rcases mem_updateChild hc' with hc' | ⟨c₀, hc₀, hpath₀, rfl⟩
          · exact hdml s (Occurs.child hc' hsub) hdir
          · refine ih ?_ s hsub hdir
            intro s₀ hocc₀ hd₀
            exact hdml s₀ (Occurs.child hc₀ hocc₀) hd₀

/-- Every directory of an assembled tree has `mtimeMs` dominated by the file
mtimes below it (the root starts at mtime 0). -/
theorem dml_assemble (repoName : String) (entries : List FileEntry) :
    ∀ s, Occurs s (assembleTree repoName entries) →
      s.type = NodeType.directory → s.mtimeMs ≤ maxMtime (filesUnder s) := by
  have main : ∀ (L : List FileEntry) (t : TreeNode),
      (∀ s, Occurs s t → s.type = NodeType.directory →
        s.mtimeMs ≤ maxMtime (filesUnder s)) →
      ∀ s, Occurs s (L.foldl (fun t e => insertFileNode t e.path e.size e.mtimeMs) t) →
        s.type = NodeType.directory → s.mtimeMs ≤ maxMtime (filesUnder s) := by
    intro L
    induction L with
    | nil => exact fun t hdml s hocc hdir => hdml s hocc hdir
    | cons e rest ihL =>
      intro t hdml s hocc hdir
      rw [List.foldl_cons] at hocc
      refine ihL _ ?_ s hocc hdir
      exact dml_insertSegments hdml
  intro s hocc hdir
  refine main entries (createDirectoryNode "." repoName 0 0) ?_ s hocc hdir
  intro s₀ hocc₀ hdir₀
  cases hocc₀ with
  | refl => exact Nat.zero_le _
  | child hcc _ => exact absurd hcc (List.not_mem_nil _)

/-! ## The sort pass preserves the file metrics and the two invariants -/

theorem sort_type (t : TreeNode) :
    (sortChildrenRecursively t).type = t.type := by
  obtain ⟨i, n, rp, ty, sz, mt, d, cs⟩ := t
  rfl

theorem sort_mtime (t : TreeNode) :
    (sortChildrenRecursively t).mtimeMs = t.mtimeMs := by
  obtain ⟨i, n, rp, ty, sz, mt, d, cs⟩ := t
  rfl

theorem sort_children_of_nil {t : TreeNode} (h : t.children = []) :
    (sortChildrenRecursively t).children = [] := by
  obtain ⟨i, n, rp, ty, sz, mt, d, cs⟩ := t
  have hcs : cs = [] := h
  subst hcs
  rfl

/-- Every node of the sorted tree is the recursive sort of a node of the
original tree. -/
theorem occ_sort : ∀ (t s : TreeNode), Occurs s (sortChildrenRecursively t) →
    ∃ s₀, Occurs s₀ t ∧ s = sortChildrenRecursively s₀ := by
  intro t
  induction t using TreeNode.inductionOn with
  | _ i n rp ty sz mt d cs ih =>
    intro s hocc
    cases hocc with
    | refl => exact ⟨_, Occurs.refl _, rfl⟩
    | child hc hocc =>
      rename_i c
      have hc2 : c ∈ sortForest cs :=
        (perm_insertionSort_nodes (sortForest cs)).mem_iff.mp hc
      obtain ⟨c₀, hc₀, rfl⟩ := mem_sortForest hc2
      obtain ⟨s₀, hs₀, rfl⟩ := ih c₀ hc₀ s hocc
      exact ⟨s₀, Occurs.child hc₀ hs₀, rfl⟩

theorem filesUnderForest_perm {l l' : List TreeNode} (h : l.Perm l') :
    (filesUnderForest l).Perm (filesUnderForest l') := by
  induction h with
  | nil => exact List.Perm.refl _
  | cons x _ ih =>
    show (filesUnder x ++ _).Perm (filesUnder x ++ _)
    exact ih.append_left _
  | swap x y l =>
    show (filesUnder y ++ (filesUnder x ++ filesUnderForest l)).Perm
      (filesUnder x ++ (filesUnder y ++ filesUnderForest l))
    rw [← List.append_assoc, ← List.append_assoc]
    exact List.Perm.append_right _ List.perm_append_comm
  | trans _ _ ih1 ih2 => exact ih1.trans ih2

theorem filesUnderForest_sortForest_perm {cs : List TreeNode}
    (h : ∀ c ∈ cs, (filesUnder (sortChildrenRecursively c)).Perm (filesUnder c)) :
    (filesUnderForest (sortForest cs)).Perm (filesUnderForest cs) := by
  induction cs with
  | nil => exact List.Perm.refl _
  | cons c cs ih =>
    show (filesUnder (sortChildrenRecursively c) ++ filesUnderForest (sortForest cs)).Perm
      (filesUnder c ++ filesUnderForest cs)
    exact (h c (List.mem_cons_self _ _)).append
      (ih (fun c hc => h c (List.mem_cons_of_mem _ hc)))

/-- The sort pass permutes (and in particular preserves, up to order) the file
metrics below any node. -/
theorem filesUnder_sort_perm : ∀ (t : TreeNode),
    (filesUnder (sortChildrenRecursively t)).Perm (filesUnder t) := by
  intro t
  induction t using TreeNode.inductionOn with
  | _ i n rp ty sz mt d cs ih =>
    cases ty with
    | file => exact List.Perm.refl _
    | directory =>
      show (filesUnderForest (List.insertionSort nodeLeP (sortForest cs))).Perm
        (filesUnderForest cs)
      exact (filesUnderForest_perm (perm_insertionSort_nodes (sortForest cs))).trans
        (filesUnderForest_sortForest_perm ih)

theorem fc_sort (t : TreeNode)
    (hfc : ∀ s, Occurs s t → s.type = NodeType.file → s.children = []) :
    ∀ s, Occurs s (sortChildrenRecursively t) →
      s.type = NodeType.file → s.children = [] := by
  intro s hocc hf
  obtain ⟨s₀, hs₀, rfl⟩ := occ_sort t s hocc
  have hf₀ : s₀.type = NodeType.file := by rw [← sort_type]; exact hf
  exact sort_children_of_nil (hfc s₀ hs₀ hf₀)

theorem dml_sort (t : TreeNode)
    (hdml : ∀ s, Occurs s t → s.type = NodeType.directory →
      s.mtimeMs ≤ maxMtime (filesUnder s)) :
    ∀ s, Occurs s (sortChildrenRecursively t) → s.type = NodeType.directory →
      s.mtimeMs ≤ maxMtime (filesUnder s) := by
  intro s hocc hdir
  obtain ⟨s₀, hs₀, rfl⟩ := occ_sort t s hocc
  have hd₀ : s₀.type = NodeType.directory := by rw [← sort_type]; exact hdir
  rw [sort_mtime, maxMtime_perm (filesUnder_sort_perm s₀)]
  exact hdml s₀ hs₀ hd₀

/-! ## Correctness of the aggregation pass -/

theorem foldl_max_eq (l : List Nat) : ∀ m,
    l.foldl Nat.max m = Nat.max m (l.foldr Nat.max 0) := by
  induction l with
  | nil => intro m; exact (Nat.max_zero m).symm
  | cons a l ih =>
    intro m
    show l.foldl Nat.max (Nat.max m a) = Nat.max m (Nat.max a (l.foldr Nat.max 0))
    rw [ih]
    exact Nat.max_assoc m a (l.foldr Nat.max 0)

theorem map_congr_mem {α β : Type} {f g : α → β} : ∀ {l : List α},
    (∀ a ∈ l, f a = g a) → l.map f = l.map g := by
  intro l
  induction l with
  | nil => intro _; rfl
  | cons a l ih =>
    intro h
    show f a :: l.map f = g a :: l.map g
    rw [h a (List.mem_cons_self _ _), ih (fun a ha => h a (List.mem_cons_of_mem _ ha))]

theorem filesUnderForest_congr {cs : List TreeNode} {f : TreeNode → TreeNode}
    (h : ∀ c ∈ cs, filesUnder (f c) = filesUnder c) :
    filesUnderForest (cs.map f) = filesUnderForest cs := by
  induction cs with
  | nil => rfl
  | cons c cs ih =>
    show filesUnder (f c) ++ filesUnderForest (cs.map f)
      = filesUnder c ++ filesUnderForest cs
    rw [h c (List.mem_cons_self _ _), ih (fun c hc => h c (List.mem_cons_of_mem _ hc))]

theorem sumSizes_forest (cs : List TreeNode) :
    sumSizes (filesUnderForest cs)
      = (cs.map (fun c => sumSizes (filesUnder c))).sum := by
  induction cs with
  | nil => rfl
  | cons c cs ih =>
    show sumSizes (filesUnder c ++ filesUnderForest cs) = _
    rw [sumSizes_append, ih, List.map_cons, List.sum_cons]

theorem maxMtime_forest (cs : List TreeNode) :
    maxMtime (filesUnderForest cs)
      = (cs.map (fun c => maxMtime (filesUnder c))).foldr Nat.max 0 := by
  induction cs with
  | nil => rfl
  | cons c cs ih =>
    show maxMtime (filesUnder c ++ filesUnderForest cs) = _
    rw [maxMtime_append, ih, List.map_cons, List.foldr_cons]

theorem aggregateLoop_metrics (cs : List TreeNode) : ∀ a m,
    (aggregateLoop cs a m).2.1
      = a + (cs.map (fun c => (aggregateDirectoryMetadata c).2.1)).sum ∧
    (aggregateLoop cs a m).2.2
      = (cs.map (fun c => (aggregateDirectoryMetadata c).2.2)).foldl Nat.max m := by
  induction cs with
  | nil => intro a m; exact ⟨(Nat.add_zero a).symm, rfl⟩
  | cons c cs ih =>
    intro a m
    constructor
    · show (aggregateLoop cs (a + (aggregateDirectoryMetadata c).2.1)
        (Nat.max m (aggregateDirectoryMetadata c).2.2)).2.1 = _
      rw [(ih _ _).1, List.map_cons, List.sum_cons, Nat.add_assoc]
    · show (aggregateLoop cs (a + (aggregateDirectoryMetadata c).2.1)
        (Nat.max m (aggregateDirectoryMetadata c).2.2)).2.2 = _
      rw [(ih _ _).2]
      rfl

/-- Full correctness of `aggregateDirectoryMetadata` on trees whose file
nodes are childless and whose directory mtimes are dominated by the file
mtimes below them: the returned metrics are the file-metric sum/max, the file
metrics themselves are unchanged, and in the returned tree every directory
carries exactly the aggregated values. -/
theorem aggregate_correct : ∀ (t : TreeNode),
    (∀ s, Occurs s t → s.type = NodeType.file → s.children = []) →
    (∀ s, Occurs s t → s.type = NodeType.directory →
      s.mtimeMs ≤ maxMtime (filesUnder s)) →
    (aggregateDirectoryMetadata t).2.1 = sumSizes (filesUnder t) ∧
    (aggregateDirectoryMetadata t).2.2 = maxMtime (filesUnder t) ∧
    filesUnder (aggregateDirectoryMetadata t).1 = filesUnder t ∧
    (∀ s, Occurs s (aggregateDirectoryMetadata t).1 →
      s.type = NodeType.directory →
      s.size = sumSizes (filesUnder s) ∧ s.mtimeMs = maxMtime (filesUnder s)) := by
  intro t
  induction t using TreeNode.inductionOn with
  | _ i n rp ty sz mt d cs ih =>
    intro hfc hdml
    cases ty with
    | file =>
      have hcs : cs = [] := hfc _ (Occurs.refl _) rfl
      subst hcs
      refine ⟨?_, ?_, rfl, ?_⟩
      · show sz = sumSizes [(sz, mt)]
        simp [sumSizes]
      · show mt = maxMtime [(sz, mt)]
        simp [maxMtime]
      intro s hocc hdir
      have hocc2 : Occurs s (TreeNode.node i n rp .file sz mt d []) := hocc
      rcases occurs_node_iff.mp hocc2 with rfl | ⟨c, hc, hsub⟩
      · exact absurd hdir (by intro h; cases h)
      · exact absurd hc (List.not_mem_nil _)
    | directory =>
      have ihs : ∀ c ∈ cs,
          (aggregateDirectoryMetadata c).2.1 = sumSizes (filesUnder c) ∧
          (aggregateDirectoryMetadata c).2.2 = maxMtime (filesUnder c) ∧
          filesUnder (aggregateDirectoryMetadata c).1 = filesUnder c ∧
          (∀ s, Occurs s (aggregateDirectoryMetadata c).1 →
            s.type = NodeType.directory →
            s.size = sumSizes (filesUnder s) ∧ s.mtimeMs = maxMtime (filesUnder s)) := by
        intro c hc
        exact ih c hc
          (fun s hs hf => hfc s (Occurs.child hc hs) hf)
          (fun s hs hd => hdml s (Occurs.child hc hs) hd)
      have hsum : (aggregateLoop cs 0 mt).2.1 = sumSizes (filesUnderForest cs) := by
        rw [(aggregateLoop_metrics cs 0 mt).1, sumSizes_forest, Nat.zero_add]
        rw [map_congr_mem (fun c hc => (ihs c hc).1)]
      have hmax : (aggregateLoop cs 0 mt).2.2 = maxMtime (filesUnderForest cs) := by
        rw [(aggregateLoop_metrics cs 0 mt).2, foldl_max_eq]
        rw [map_congr_mem (fun c hc => (ihs c hc).2.1), ← maxMtime_forest]
        have hroot : mt ≤ maxMtime (filesUnderForest cs) :=
          hdml (TreeNode.node i n rp .directory sz mt d cs) (Occurs.refl _) rfl
        exact Nat.max_eq_right hroot
      have hforest : filesUnderForest ((aggregateLoop cs 0 mt).1) = filesUnderForest cs := by
        rw [aggregateLoop_fst]
        exact filesUnderForest_congr (fun c hc => (ihs c hc).2.2.1)
      refine ⟨hsum, hmax, hforest, ?_⟩
      intro s hocc hdir
      have hocc2 : Occurs s (TreeNode.node i n rp .directory
          (aggregateLoop cs 0 mt).2.1 (aggregateLoop cs 0 mt).2.2 d
          (aggregateLoop cs 0 mt).1) := hocc
      rcases occurs_node_iff.mp hocc2 with rfl | ⟨c', hc', hsub⟩
      · constructor
        · show (aggregateLoop cs 0 mt).2.1
            = sumSizes (filesUnderForest ((aggregateLoop cs 0 mt).1))
          rw [hforest]
          exact hsum
        · show (aggregateLoop cs 0 mt).2.2
            = maxMtime (filesUnderForest ((aggregateLoop cs 0 mt).1))
          rw [hforest]
          exact hmax
      · rw [aggregateLoop_fst] at hc'
        obtain ⟨c₀, hc₀, rfl⟩ := List.mem_map.mp hc'
        exact (ihs c₀ hc₀).2.2.2 s hsub hdir

/-- C2: After the aggregation pass of a build, for every directory node in the
returned tree, its `size` equals the sum of the sizes of all descendant file
nodes, and its `mtimeMs` equals the maximum `mtimeMs` over all descendant file
nodes (computed bottom-up, with files contributing their own authoritative
values), for every well-formed entry list fed to the assembler. -/
theorem claim_C2_aggregation (repoName : String) (entries : List FileEntry)
    (hwf : entriesWellFormed entries) :
    ∀ s, Occurs s (sortAndAggregate (assembleTree repoName entries)) →
      s.type = NodeType.directory →
      s.size = sumSizes (filesUnder s) ∧ s.mtimeMs = maxMtime (filesUnder s) := by
  intro s hocc hdir
  have hfc := filesChildless_assemble repoName entries hwf
  have hdml := dml_assemble repoName entries
  have hfc2 := fc_sort _ hfc
  have hdml2 := dml_sort _ hdml
  exact (aggregate_correct (sortChildrenRecursively (assembleTree repoName entries))
    hfc2 hdml2).2.2.2 s hocc hdir

/-- Witness for C2 at a concrete two-entry listing (one top-level file, one
file in a subdirectory). -/
theorem claim_C2_witness :
    entriesWellFormed [⟨"a.txt", 10, 5⟩, ⟨"sub/b.txt", 20, 9⟩] ∧
    (sortAndAggregate (assembleTree "repo"
        [⟨"a.txt", 10, 5⟩, ⟨"sub/b.txt", 20, 9⟩])).type = NodeType.directory ∧
    (sortAndAggregate (assembleTree "repo"
        [⟨"a.txt", 10, 5⟩, ⟨"sub/b.txt", 20, 9⟩])).size
      = sumSizes (filesUnder (sortAndAggregate (assembleTree "repo"
          [⟨"a.txt", 10, 5⟩, ⟨"sub/b.txt", 20, 9⟩]))) ∧
    (sortAndAggregate (assembleTree "repo"
        [⟨"a.txt", 10, 5⟩, ⟨"sub/b.txt", 20, 9⟩])).mtimeMs
      = maxMtime (filesUnder (sortAndAggregate (assembleTree "repo"
          [⟨"a.txt", 10, 5⟩, ⟨"sub/b.txt", 20, 9⟩]))) := by
  have hwf : entriesWellFormed [⟨"a.txt", 10, 5⟩, ⟨"sub/b.txt", 20, 9⟩] := by decide
  have h := claim_C2_aggregation "repo" [⟨"a.txt", 10, 5⟩, ⟨"sub/b.txt", 20, 9⟩] hwf
    (sortAndAggregate (assembleTree "repo" [⟨"a.txt", 10, 5⟩, ⟨"sub/b.txt", 20, 9⟩]))
    (Occurs.refl _) rfl
  exact ⟨hwf, rfl, h.1, h.2⟩

/-! ## Path and id injectivity, path accounting for insertion -/

theorem joinRelative_inj {p a b : String} (h : joinRelative p a = joinRelative p b) :
    a = b := by
  unfold joinRelative at h
  by_cases hp : p = "."
  · rw [if_pos hp, if_pos hp] at h
    exact h
  · rw [if_neg hp, if_neg hp] at h
    have hd := congrArg String.data h
    rw [String.data_append, String.data_append, String.data_append,
      String.data_append] at hd
    exact String.ext (List.append_cancel_left hd)

theorem joinChain_cons (cp s : String) (rest : List String) :
    joinChain cp (s :: rest) = joinChain (joinRelative cp s) rest := rfl

theorem makeId_file_data (p : String) :
    (makeId p NodeType.file).data = 'f' :: 'i' :: 'l' :: 'e' :: ':' :: p.data := by
  rw [show makeId p NodeType.file = "file" ++ ":" ++ p from rfl,
    String.data_append, String.data_append]
  rfl

theorem makeId_directory_data (p : String) :
    (makeId p NodeType.directory).data
      = 'd' :: 'i' :: 'r' :: 'e' :: 'c' :: 't' :: 'o' :: 'r' :: 'y' :: ':' :: p.data := by
  rw [show makeId p NodeType.directory = "directory" ++ ":" ++ p from rfl,
    String.data_append, String.data_append]
  rfl

theorem makeId_inj {p₁ p₂ : String} {ty₁ ty₂ : NodeType}
    (h : makeId p₁ ty₁ = makeId p₂ ty₂) : ty₁ = ty₂ ∧ p₁ = p₂ := by
  have hd := congrArg String.data h
  cases ty₁ with
  | file =>
    cases ty₂ with
    | file =>
      rw [makeId_file_data, makeId_file_data] at hd
      simp only [List.cons.injEq] at hd
      exact ⟨rfl, String.ext hd.2.2.2.2.2⟩
    | directory =>
      rw [makeId_file_data, makeId_directory_data] at hd
      simp at hd
  | directory =>
    cases ty₂ with
    | file =>
      rw [makeId_directory_data, makeId_file_data] at hd
      simp at hd
    | directory =>
      rw [makeId_directory_data, makeId_directory_data] at hd
      simp only [List.cons.injEq] at hd
      exact ⟨rfl, String.ext hd.2.2.2.2.2.2.2.2.2.2⟩

theorem validSegments_take {l : List String} (h : validSegments l) {j : Nat}
    (hj : 0 < j) (hl : l ≠ []) : validSegments (l.take j) := by
  obtain ⟨-, hseg⟩ := h
  refine ⟨?_, fun s hs => hseg s (List.mem_of_mem_take hs)⟩
  cases l with
  | nil => exact absurd rfl hl
  | cons a l =>
    cases j with
    | zero => exact absurd hj (by simp)
    | succ j => simp

theorem mem_chainPaths_take : ∀ {segs : List String} {cp : String} {j : Nat},
    0 < j → j < segs.length → joinChain cp (segs.take j) ∈ chainPaths cp segs := by
  intro segs
  induction segs with
  | nil => intro cp j _ hj; simp at hj
  | cons s rest ih =>
    intro cp j hj0 hjl
    cases rest with
    | nil =>
      simp at hjl
      omega
    | cons s2 rest2 =>
      cases j with
      | zero => exact absurd hj0 (by simp)
      | succ j =>
        cases j with
        | zero => exact List.mem_cons_self _ _
        | succ j =>
          refine List.mem_cons_of_mem _ ?_
          have := @ih (joinRelative cp s) (j + 1) (Nat.succ_pos _)
            (by simpa using Nat.lt_of_succ_lt_succ hjl)
          exact this

theorem chain_filePaths : ∀ {segs : List String}, segs ≠ [] →
    ∀ {q nm : String} {dep sz mt : Nat},
    filePathsOf (insertSegments (createDirectoryNode q nm dep mt) q segs sz mt)
      = [joinChain q segs] := by
  intro segs
  induction segs with
  | nil => exact fun h => absurd rfl h
  | cons seg rest ih =>
    intro _ q nm dep sz mt
    cases rest with
    | nil =>
      rw [chain_singleton_eq]
      show filePathsOf (createFileNode (joinRelative q seg) seg (dep + 1) sz mt) ++ [] = _
      rw [List.append_nil]
      rfl
    | cons seg2 rest2 =>
      rw [chain_cons_eq]
      show filePathsOf (insertSegments
        (createDirectoryNode (joinRelative q seg) seg (dep + 1) mt)
        (joinRelative q seg) (seg2 :: rest2) sz mt) ++ [] = _
      rw [List.append_nil, ih (by simp)]
      rfl

theorem chain_dirPaths : ∀ {segs : List String}, segs ≠ [] →
    ∀ {q nm : String} {dep sz mt : Nat},
    ∀ x ∈ dirPathsOf (insertSegments (createDirectoryNode q nm dep mt) q segs sz mt),
      x = q ∨ x ∈ chainPaths q segs := by
  intro segs
  induction segs with
  | nil => exact fun h => absurd rfl h
  | cons seg rest ih =>
    intro _ q nm dep sz mt x hx
    cases rest with
    | nil =>
      rw [chain_singleton_eq] at hx
      have hx2 : x ∈ q :: ([] ++ ([] : List String)) := hx
      rcases List.mem_cons.mp hx2 with rfl | hx2
      · exact Or.inl rfl
      · simp at hx2
    | cons seg2 rest2 =>
      rw [chain_cons_eq] at hx
      have hx2 : x ∈ q :: (dirPathsOf (insertSegments
          (createDirectoryNode (joinRelative q seg) seg (dep + 1) mt)
          (joinRelative q seg) (seg2 :: rest2) sz mt) ++ ([] : List String)) := hx
      rcases List.mem_cons.mp hx2 with rfl | hx2
      · exact Or.inl rfl
      · rw [List.append_nil] at hx2
        rcases ih (by simp) x hx2 with rfl | hx3
        · exact Or.inr (List.mem_cons_self _ _)
        · exact Or.inr (List.mem_cons_of_mem _ hx3)

theorem dirPathsForest_append (cs ds : List TreeNode) :
    dirPathsForest (cs ++ ds) = dirPathsForest cs ++ dirPathsForest ds := by
  induction cs with
  | nil => rfl
  | cons c cs ih =>
    show dirPathsOf c ++ dirPathsForest (cs ++ ds)
      = (dirPathsOf c ++ dirPathsForest cs) ++ dirPathsForest ds
    rw [ih, List.append_assoc]

theorem mem_dirPathsForest {x : String} {cs : List TreeNode} :
    x ∈ dirPathsForest cs ↔ ∃ c ∈ cs, x ∈ dirPathsOf c := by
  induction cs with
  | nil => simp [dirPathsForest]
  | cons c cs ih =>
    simp only [dirPathsForest, List.mem_append, ih]
    constructor
    · rintro (hx | ⟨c₀, hc₀, hx⟩)
      · exact ⟨c, List.mem_cons_self _ _, hx⟩
      · exact ⟨c₀, List.mem_cons_of_mem _ hc₀, hx⟩
    · rintro ⟨c₀, hc₀, hx⟩
      rcases List.mem_cons.mp hc₀ with rfl | hc₀
      · exact Or.inl hx
      · exact Or.inr ⟨c₀, hc₀, hx⟩

theorem dirPathsForest_updateChild {x : String} {cs : List TreeNode} {p : String}
    {f : TreeNode → TreeNode} (hx : x ∈ dirPathsForest (updateChild cs p f)) :
    x ∈ dirPathsForest cs ∨ ∃ c ∈ cs, x ∈ dirPathsOf (f c) := by
  induction cs with
  | nil => cases hx
  | cons c cs ih =>
    by_cases hp : c.relativePath = p
    · rw [show updateChild (c :: cs) p f = f c :: cs from by simp [updateChild, hp]] at hx
      rcases List.mem_append.mp hx with hx | hx
      · exact Or.inr ⟨c, List.mem_cons_self _ _, hx⟩
      · exact Or.inl (List.mem_append.mpr (Or.inr hx))
    · rw [show updateChild (c :: cs) p f = c :: updateChild cs p f from by
        simp [updateChild, hp]] at hx
      rcases List.mem_append.mp hx with hx | hx
      · exact Or.inl (List.mem_append.mpr (Or.inl hx))
      · rcases ih hx with hx | ⟨c₀, hc₀, hx⟩
        · exact Or.inl (List.mem_append.mpr (Or.inr hx))
        · exact Or.inr ⟨c₀, List.mem_cons_of_mem _ hc₀, hx⟩

theorem dirPathsOf_insertSegments : ∀ {segs : List String} {t : TreeNode}
    {cp : String} {sz mt : Nat} {x : String},
    x ∈ dirPathsOf (insertSegments t cp segs sz mt) →
    x ∈ dirPathsOf t ∨ x ∈ chainPaths cp segs := by
  intro segs
  induction segs with
  | nil => exact fun hx => Or.inl hx
  | cons seg rest ih =>
    intro t cp sz mt x hx
    obtain ⟨i, n, rp, ty, sz0, mt0, d, cs⟩ := t
    cases ty with
    | file =>
      obtain ⟨cs', hs⟩ := insertSegments_shape (seg :: rest)
        (.node i n rp .file sz0 mt0 d cs) cp sz mt
      rw [hs] at hx
      exact Or.inl hx
    | directory =>
      cases rest with
      | nil =>
        simp only [insertSegments, TreeNode.children, TreeNode.depth,
          TreeNode.withChildren] at hx
        rcases hlook : lookupNode (childIdMapOf cs)
            (createFileNode (joinRelative cp seg) seg (d + 1) sz mt).id with _ | existing
        · rw [ensureChild_children_of_none hlook] at hx
          have hx2 : x ∈ rp :: (dirPathsForest cs ++ ([] : List String)) := by
            have heq : dirPathsForest (cs ++
                [createFileNode (joinRelative cp seg) seg (d + 1) sz mt])
                = dirPathsForest cs ++ ([] : List String) := by
              rw [dirPathsForest_append]
              rfl
            have hx1 : x ∈ rp :: dirPathsForest (cs ++
                [createFileNode (joinRelative cp seg) seg (d + 1) sz mt]) := hx
            rw [heq] at hx1
            exact hx1
          rw [List.append_nil] at hx2
          exact Or.inl hx2
        · rw [ensureChild_children_of_some hlook] at hx
          exact Or.inl hx
      | cons seg2 rest2 =>
        simp only [insertSegments, TreeNode.children, TreeNode.depth,
          TreeNode.withChildren] at hx
        rcases hfind : findChild cs (joinRelative cp seg) with _ | c
        · rw [hfind] at hx
          rcases hlook : lookupNode (childIdMapOf cs)
              (insertSegments (createDirectoryNode (joinRelative cp seg) seg (d + 1) mt)
                (joinRelative cp seg) (seg2 :: rest2) sz mt).id with _ | existing
          · rw [ensureChild_children_of_none hlook] at hx
            have hx2 : x ∈ rp :: (dirPathsForest cs ++ (dirPathsOf (insertSegments
                (createDirectoryNode (joinRelative cp seg) seg (d + 1) mt)
                (joinRelative cp seg) (seg2 :: rest2) sz mt) ++ ([] : List String))) := by
              have heq : dirPathsForest (cs ++ [insertSegments
                  (createDirectoryNode (joinRelative cp seg) seg (d + 1) mt)
                  (joinRelative cp seg) (seg2 :: rest2) sz mt])
                  = dirPathsForest cs ++ (dirPathsOf (insertSegments
                    (createDirectoryNode (joinRelative cp seg) seg (d + 1) mt)
                    (joinRelative cp seg) (seg2 :: rest2) sz mt) ++ ([] : List String)) := by
                rw [dirPathsForest_append]
                rfl
              have hx1 : x ∈ rp :: dirPathsForest (cs ++ [insertSegments
                  (createDirectoryNode (joinRelative cp seg) seg (d + 1) mt)
                  (joinRelative cp seg) (seg2 :: rest2) sz mt]) := hx
              rw [heq] at hx1
              exact hx1
            rw [List.append_nil] at hx2
            rcases List.mem_cons.mp hx2 with rfl | hx2
            · exact Or.inl (List.mem_cons_self _ _)
            · rcases List.mem_append.mp hx2 with hx2 | hx2
              · exact Or.inl (List.mem_cons_of_mem _ hx2)
              · rcases chain_dirPaths (by simp) x hx2 with rfl | hx3
                · exact Or.inr (List.mem_cons_self _ _)
                · exact Or.inr (List.mem_cons_of_mem _ hx3)
          · rw [ensureChild_children_of_some hlook] at hx
            exact Or.inl hx
        · rw [hfind] at hx
          have hx1 : x ∈ rp :: dirPathsForest (updateChild cs (joinRelative cp seg)
            (fun d0 => insertSegments d0 (joinRelative cp seg) (seg2 :: rest2) sz mt)) := hx
          rcases List.mem_cons.mp hx1 with rfl | hx2
          · exact Or.inl (List.mem_cons_self _ _)
          · rcases dirPathsForest_updateChild hx2 with hx2 | ⟨c₀, hc₀, hx2⟩
            · exact Or.inl (List.mem_cons_of_mem _ hx2)
            · rcases ih hx2 with hx3 | hx3
              · exact Or.inl (List.mem_cons_of_mem _
                  (mem_dirPathsForest.mpr ⟨c₀, hc₀, hx3⟩))
              · exact Or.inr (List.mem_cons_of_mem _ hx3)

/-! ## Determinism of child lookup and update -/

theorem updateChild_eq_self : ∀ {cs : List TreeNode} {p : String}
    {f : TreeNode → TreeNode}, (∀ c ∈ cs, c.relativePath ≠ p) →
    updateChild cs p f = cs := by
  intro cs
  induction cs with
  | nil => intro p f _; rfl
  | cons c cs ih =>
    intro p f h
    rw [show updateChild (c :: cs) p f = c :: updateChild cs p f from by
      simp [updateChild, h c (List.mem_cons_self _ _)]]
    rw [ih (fun c hc => h c (List.mem_cons_of_mem _ hc))]

theorem updateChild_append_left : ∀ {u w : List TreeNode} {p : String}
    {f : TreeNode → TreeNode}, (∀ c ∈ u, c.relativePath ≠ p) →
    updateChild (u ++ w) p f = u ++ updateChild w p f := by
  intro u
  induction u with
  | nil => intro w p f _; rfl
  | cons c u ih =>
    intro w p f h
    show updateChild (c :: (u ++ w)) p f = _
    rw [show updateChild (c :: (u ++ w)) p f = c :: updateChild (u ++ w) p f from by
      simp [updateChild, h c (List.mem_cons_self _ _)]]
    rw [ih (fun c hc => h c (List.mem_cons_of_mem _ hc))]
    rfl

theorem updateChild_append_right : ∀ {u w : List TreeNode} {p : String}
    {f : TreeNode → TreeNode}, (∃ c ∈ u, c.relativePath = p) →
    updateChild (u ++ w) p f = updateChild u p f ++ w := by
  intro u
  induction u with
  | nil => rintro w p f ⟨c, hc, -⟩; cases hc
  | cons c u ih =>
    intro w p f h
    by_cases hp : c.relativePath = p
    · show updateChild (c :: (u ++ w)) p f = _
      rw [show updateChild (c :: (u ++ w)) p f = f c :: (u ++ w) from by
        simp [updateChild, hp]]
      rw [show updateChild (c :: u) p f = f c :: u from by simp [updateChild, hp]]
      rfl
    · obtain ⟨c₀, hc₀, hc₀p⟩ := h
      have hc₀u : c₀ ∈ u := by
        rcases List.mem_cons.mp hc₀ with rfl | h2
        · exact absurd hc₀p hp
        · exact h2
      show updateChild (c :: (u ++ w)) p f = _
      rw [show updateChild (c :: (u ++ w)) p f = c :: updateChild (u ++ w) p f from by
        simp [updateChild, hp]]
      rw [show updateChild (c :: u) p f = c :: updateChild u p f from by
        simp [updateChild, hp]]
      rw [ih ⟨c₀, hc₀u, hc₀p⟩]
      rfl

theorem updateChild_comm {p₁ p₂ : String} (hne : p₁ ≠ p₂)
    {f₁ f₂ : TreeNode → TreeNode}
    (hf₁ : ∀ c, (f₁ c).relativePath = c.relativePath)
    (hf₂ : ∀ c, (f₂ c).relativePath = c.relativePath) :
    ∀ {cs : List TreeNode},
    updateChild (updateChild cs p₁ f₁) p₂ f₂
      = updateChild (updateChild cs p₂ f₂) p₁ f₁ := by
  intro cs
  induction cs with
  | nil => rfl
  | cons c cs ih =>
    by_cases h1 : c.relativePath = p₁
    · have h2 : c.relativePath ≠ p₂ := h1 ▸ hne
      have h2' : (f₁ c).relativePath ≠ p₂ := by rw [hf₁]; exact h2
      have h1' : (f₂ c).relativePath = p₁ := by rw [hf₂]; exact h1
      rw [show updateChild (c :: cs) p₁ f₁ = f₁ c :: cs from by simp [updateChild, h1]]
      rw [show updateChild (c :: cs) p₂ f₂ = c :: updateChild cs p₂ f₂ from by
        simp [updateChild, h2]]
      rw [show updateChild (f₁ c :: cs) p₂ f₂ = f₁ c :: updateChild cs p₂ f₂ from by
        simp [updateChild, h2']]
      rw [show updateChild (c :: updateChild cs p₂ f₂) p₁ f₁
          = f₁ c :: updateChild cs p₂ f₂ from by simp [updateChild, h1]]
    · by_cases h2 : c.relativePath = p₂
      · have h1'' : (f₂ c).relativePath ≠ p₁ := by rw [hf₂]; exact h2 ▸ fun h => hne h.symm
        rw [show updateChild (c :: cs) p₁ f₁ = c :: updateChild cs p₁ f₁ from by
          simp [updateChild, h1]]
        rw [show updateChild (c :: cs) p₂ f₂ = f₂ c :: cs from by simp [updateChild, h2]]
        rw [show updateChild (c :: updateChild cs p₁ f₁) p₂ f₂
            = f₂ c :: updateChild cs p₁ f₁ from by simp [updateChild, h2]]
        rw [show updateChild (f₂ c :: cs) p₁ f₁ = f₂ c :: updateChild cs p₁ f₁ from by
          simp [updateChild, h1'']]
      · rw [show updateChild (c :: cs) p₁ f₁ = c :: updateChild cs p₁ f₁ from by
          simp [updateChild, h1]]
        rw [show updateChild (c :: cs) p₂ f₂ = c :: updateChild cs p₂ f₂ from by
          simp [updateChild, h2]]
        rw [show updateChild (c :: updateChild cs p₁ f₁) p₂ f₂
            = c :: updateChild (updateChild cs p₁ f₁) p₂ f₂ from by
          simp [updateChild, h2]]
        rw [show updateChild (c :: updateChild cs p₂ f₂) p₁ f₁
            = c :: updateChild (updateChild cs p₂ f₂) p₁ f₁ from by
          simp [updateChild, h1]]
        rw [ih]

theorem updateChild_updateChild_same {p : String} {f₁ f₂ : TreeNode → TreeNode}
    (hf₂ : ∀ c, (f₂ c).relativePath = c.relativePath) :
    ∀ {cs : List TreeNode},
    updateChild (updateChild cs p f₂) p f₁ = updateChild cs p (fun c => f₁ (f₂ c)) := by
  intro cs
  induction cs with
  | nil => rfl
  | cons c cs ih =>
    by_cases hp : c.relativePath = p
    · have hp' : (f₂ c).relativePath = p := by rw [hf₂]; exact hp
      rw [show updateChild (c :: cs) p f₂ = f₂ c :: cs from by simp [updateChild, hp]]
      rw [show updateChild (f₂ c :: cs) p f₁ = f₁ (f₂ c) :: cs from by
        simp [updateChild, hp']]
      rw [show updateChild (c :: cs) p (fun c => f₁ (f₂ c)) = f₁ (f₂ c) :: cs from by
        simp [updateChild, hp]]
    · rw [show updateChild (c :: cs) p f₂ = c :: updateChild cs p f₂ from by
        simp [updateChild, hp]]
      rw [show updateChild (c :: updateChild cs p f₂) p f₁
          = c :: updateChild (updateChild cs p f₂) p f₁ from by simp [updateChild, hp]]
      rw [show updateChild (c :: cs) p (fun c => f₁ (f₂ c))
          = c :: updateChild cs p (fun c => f₁ (f₂ c)) from by simp [updateChild, hp]]
      rw [ih]

theorem updateChild_map_path {p : String} {f : TreeNode → TreeNode}
    (hf : ∀ c, (f c).relativePath = c.relativePath) :
    ∀ {cs : List TreeNode},
    (updateChild cs p f).map TreeNode.relativePath = cs.map TreeNode.relativePath := by
  intro cs
  induction cs with
  | nil => rfl
  | cons c cs ih =>
    by_cases hp : c.relativePath = p
    · rw [show updateChild (c :: cs) p f = f c :: cs from by simp [updateChild, hp]]
      show (f c).relativePath :: _ = c.relativePath :: _
      rw [hf]
    · rw [show updateChild (c :: cs) p f = c :: updateChild cs p f from by
        simp [updateChild, hp]]
      show c.relativePath :: _ = c.relativePath :: _
      rw [ih]

theorem findChild_eq_none {cs : List TreeNode} {p : String} :
    findChild cs p = none ↔ ∀ c ∈ cs, c.relativePath ≠ p := by
  unfold findChild
  rw [List.find?_eq_none]
  constructor
  · intro h c hc
    exact fun hp => h c hc (decide_eq_true hp)
  · intro h c hc hp
    exact h c hc (of_decide_eq_true hp)

theorem findChild_some_of_mem : ∀ {cs : List TreeNode} {p : String} {c : TreeNode},
    (cs.map TreeNode.relativePath).Nodup → c ∈ cs → c.relativePath = p →
    findChild cs p = some c := by
  intro cs
  induction cs with
  | nil => intro p c _ hc; cases hc
  | cons c₀ cs ih =>
    intro p c hnd hc hp
    rcases List.mem_cons.mp hc with rfl | hc
    · exact List.find?_cons_of_pos _ (decide_eq_true hp)
    · have hne : c₀.relativePath ≠ p := by
        intro h0
        have : c.relativePath ∈ cs.map TreeNode.relativePath :=
          List.mem_map.mpr ⟨c, hc, rfl⟩
        rw [hp, ← h0] at this
        exact (List.nodup_cons.mp hnd).1 this
      exact (List.find?_cons_of_neg _ (by simpa using hne)).trans
        (ih (List.nodup_cons.mp hnd).2 hc hp)

theorem findChild_append_left {u w : List TreeNode} {p : String}
    (h : ∀ c ∈ u, c.relativePath ≠ p) :
    findChild (u ++ w) p = findChild w p := by
  induction u with
  | nil => rfl
  | cons c u ih =>
    exact (List.find?_cons_of_neg _
        (by simpa using h c (List.mem_cons_self _ _))).trans
      (ih (fun c hc => h c (List.mem_cons_of_mem _ hc)))

theorem lookupNode_childIdMapOf_none {cs : List TreeNode} {k : String} :
    lookupNode (childIdMapOf cs) k = none ↔ ∀ c ∈ cs, c.id ≠ k := by
  induction cs with
  | nil => simp [childIdMapOf, lookupNode]
  | cons c cs ih =>
    show (if c.id = k then some c else lookupNode (childIdMapOf cs) k) = none ↔ _
    by_cases hk : c.id = k
    · rw [if_pos hk]
      simp [hk]
    · rw [if_neg hk]
      rw [ih]
      constructor
      · intro h c₀ hc₀
        rcases List.mem_cons.mp hc₀ with rfl | hc₀
        · exact hk
        · exact h c₀ hc₀
      · intro h c₀ hc₀
        exact h c₀ (List.mem_cons_of_mem _ hc₀)

/-! ## Structural well-formedness: preservation by assembly -/

theorem insertSegments_name (segs : List String) (t : TreeNode) (cp : String)
    (sz mt : Nat) : (insertSegments t cp segs sz mt).name = t.name := by
  obtain ⟨cs', hs⟩ := insertSegments_shape segs t cp sz mt
  rw [hs]
  obtain ⟨i, n, rp, ty, sz0, mt0, d, cs⟩ := t
  rfl

theorem insertSegments_id (segs : List String) (t : TreeNode) (cp : String)
    (sz mt : Nat) : (insertSegments t cp segs sz mt).id = t.id := by
  obtain ⟨cs', hs⟩ := insertSegments_shape segs t cp sz mt
  rw [hs]
  obtain ⟨i, n, rp, ty, sz0, mt0, d, cs⟩ := t
  rfl

theorem insertSegments_depth (segs : List String) (t : TreeNode) (cp : String)
    (sz mt : Nat) : (insertSegments t cp segs sz mt).depth = t.depth := by
  obtain ⟨cs', hs⟩ := insertSegments_shape segs t cp sz mt
  rw [hs]
  obtain ⟨i, n, rp, ty, sz0, mt0, d, cs⟩ := t
  rfl

theorem insertSegments_size (segs : List String) (t : TreeNode) (cp : String)
    (sz mt : Nat) : (insertSegments t cp segs sz mt).size = t.size := by
  obtain ⟨cs', hs⟩ := insertSegments_shape segs t cp sz mt
  rw [hs]
  obtain ⟨i, n, rp, ty, sz0, mt0, d, cs⟩ := t
  rfl

theorem insertSegments_mtime (segs : List String) (t : TreeNode) (cp : String)
    (sz mt : Nat) : (insertSegments t cp segs sz mt).mtimeMs = t.mtimeMs := by
  obtain ⟨cs', hs⟩ := insertSegments_shape segs t cp sz mt
  rw [hs]
  obtain ⟨i, n, rp, ty, sz0, mt0, d, cs⟩ := t
  rfl

theorem updateChild_map_name {p : String} {f : TreeNode → TreeNode}
    (hf : ∀ c, (f c).name = c.name) :
    ∀ {cs : List TreeNode},
    (updateChild cs p f).map TreeNode.name = cs.map TreeNode.name := by
  intro cs
  induction cs with
  | nil => rfl
  | cons c cs ih =>
    by_cases hp : c.relativePath = p
    · rw [show updateChild (c :: cs) p f = f c :: cs from by simp [updateChild, hp]]
      show (f c).name :: _ = c.name :: _
      rw [hf]
    · rw [show updateChild (c :: cs) p f = c :: updateChild cs p f from by
        simp [updateChild, hp]]
      show c.name :: _ = c.name :: _
      rw [ih]

theorem nodup_paths_of_names {rp : String} : ∀ {cs : List TreeNode},
    (∀ c ∈ cs, c.relativePath = joinRelative rp c.name) →
    (cs.map TreeNode.name).Nodup → (cs.map TreeNode.relativePath).Nodup := by
  intro cs
  induction cs with
  | nil => intro _ _; simp
  | cons c cs ih =>
    intro hder hnd
    rw [List.map_cons, List.nodup_cons]
    refine ⟨?_, ih (fun c hc => hder c (List.mem_cons_of_mem _ hc))
      (List.nodup_cons.mp (by simpa using hnd)).2⟩
    intro hmem
    obtain ⟨c', hc', hpath⟩ := List.mem_map.mp hmem
    have h1 := hder c (List.mem_cons_self _ _)
    have h2 := hder c' (List.mem_cons_of_mem _ hc')
    have : c'.name = c.name := joinRelative_inj (by rw [← h1, ← h2, hpath])
    have : c.name ∈ cs.map TreeNode.name := List.mem_map.mpr ⟨c', hc', this⟩
    exact (List.nodup_cons.mp (by simpa using hnd)).1 this

theorem wfshapeForest_mem : ∀ {cs : List TreeNode}, WFShapeForest cs →
    ∀ {c : TreeNode}, c ∈ cs → WFShape c := by
  intro cs
  induction cs with
  | nil => intro _ c hc; cases hc
  | cons c₀ cs ih =>
    intro h c hc
    rcases List.mem_cons.mp hc with rfl | hc
    · exact h.1
    · exact ih h.2 hc

theorem wfshapeForest_append : ∀ {u v : List TreeNode},
    WFShapeForest u → WFShapeForest v → WFShapeForest (u ++ v) := by
  intro u
  induction u with
  | nil => intro v _ hv; exact hv
  | cons c u ih =>
    intro v hu hv
    exact ⟨hu.1, ih hu.2 hv⟩

theorem wfshapeForest_updateChild : ∀ {cs : List TreeNode} {p : String}
    {f : TreeNode → TreeNode}, WFShapeForest cs →
    (∀ c ∈ cs, c.relativePath = p → WFShape (f c)) →
    WFShapeForest (updateChild cs p f) := by
  intro cs
  induction cs with
  | nil => intro p f _ _; trivial
  | cons c cs ih =>
    intro p f h hf
    by_cases hp : c.relativePath = p
    · rw [show updateChild (c :: cs) p f = f c :: cs from by simp [updateChild, hp]]
      exact ⟨hf c (List.mem_cons_self _ _) hp, h.2⟩
    · rw [show updateChild (c :: cs) p f = c :: updateChild cs p f from by
        simp [updateChild, hp]]
      exact ⟨h.1, ih h.2 (fun c hc hcp => hf c (List.mem_cons_of_mem _ hc) hcp)⟩

theorem freeFor_descend {i n rp : String} {sz0 mt0 d : Nat} {cs : List TreeNode}
    {cp seg seg2 : String} {rest2 : List String}
    (hfree : FreeFor (.node i n rp .directory sz0 mt0 d cs) cp (seg :: seg2 :: rest2))
    {c : TreeNode} (hc : c ∈ cs) :
    FreeFor c (joinRelative cp seg) (seg2 :: rest2) := by
  obtain ⟨h1, h2, h3⟩ := hfree
  refine ⟨?_, ?_, ?_⟩
  · intro p hp hpf
    exact h1 p (List.mem_cons_of_mem _ hp) (mem_filePathsForest.mpr ⟨c, hc, hpf⟩)
  · intro hd
    exact h2 (List.mem_cons_of_mem _ (mem_dirPathsForest.mpr ⟨c, hc, hd⟩))
  · intro hf
    exact h3 (mem_filePathsForest.mpr ⟨c, hc, hf⟩)

/-- A freshly built chain is well-shaped. -/
theorem wfshape_chain : ∀ {segs : List String}, segs ≠ [] →
    ∀ {q nm : String} {dep sz mt : Nat},
    WFShape (insertSegments (createDirectoryNode q nm dep mt) q segs sz mt) := by
  intro segs
  induction segs with
  | nil => exact fun h => absurd rfl h
  | cons seg rest ih =>
    intro _ q nm dep sz mt
    cases rest with
    | nil =>
      rw [chain_singleton_eq]
      refine And.intro (fun h => by cases h) (And.intro (by simp) (And.intro ?_ ?_))
      · intro c hc
        have hc2 : c ∈ [createFileNode (joinRelative q seg) seg (dep + 1) sz mt] := hc
        rcases List.mem_singleton.mp hc2 with rfl
        exact ⟨rfl, rfl, rfl⟩
      · exact ⟨⟨fun _ => rfl, by simp, fun c hc => absurd hc (List.not_mem_nil _),
          trivial⟩, trivial⟩
    | cons seg2 rest2 =>
      rw [chain_cons_eq]
      refine And.intro (fun h => by cases h) (And.intro ?_ (And.intro ?_ ?_))
      · have hname : (insertSegments
            (createDirectoryNode (joinRelative q seg) seg (dep + 1) mt)
            (joinRelative q seg) (seg2 :: rest2) sz mt).name = seg := by
          rw [insertSegments_name]
          rfl
        show ([insertSegments (createDirectoryNode (joinRelative q seg) seg (dep + 1) mt)
          (joinRelative q seg) (seg2 :: rest2) sz mt].map TreeNode.name).Nodup
        rw [List.map_cons, hname]
        simp
      · intro c hc
        have hc2 : c ∈ [insertSegments
            (createDirectoryNode (joinRelative q seg) seg (dep + 1) mt)
            (joinRelative q seg) (seg2 :: rest2) sz mt] := hc
        rcases List.mem_singleton.mp hc2 with rfl
        refine ⟨?_, ?_, ?_⟩
        · rw [insertSegments_relativePath, insertSegments_name]
          rfl
        · rw [insertSegments_id, insertSegments_relativePath, insertSegments_type]
          rfl
        · rw [insertSegments_depth]
          rfl
      · exact ⟨ih (by simp), trivial⟩

/-- Insertion of a free path into a well-shaped directory keeps the tree
well-shaped. -/
theorem wfshape_insertSegments : ∀ {segs : List String} {t : TreeNode}
    {cp : String} {sz mt : Nat},
    WFShape t → t.type = NodeType.directory → cp = t.relativePath →
    FreeFor t cp segs →
    WFShape (insertSegments t cp segs sz mt) := by
  intro segs
  induction segs with
  | nil => exact fun hwf _ _ _ => hwf
  | cons seg rest ih =>
    intro t cp sz mt hwf htd hcp hfree
    obtain ⟨i, n, rp, ty, sz0, mt0, d, cs⟩ := t
    have hty : ty = NodeType.directory := htd
    subst hty
    have hcp2 : cp = rp := hcp
    subst hcp2
    obtain ⟨hwf1, hwf2, hwf3, hwf4⟩ := hwf
    obtain ⟨hfree1, hfree2, hfree3⟩ := hfree
    cases rest with
    | nil =>
      have hlook : lookupNode (childIdMapOf cs)
          (createFileNode (joinRelative cp seg) seg (d + 1) sz mt).id = none := by
        rw [lookupNode_childIdMapOf_none]
        intro c hc hid
        have hid2 : makeId c.relativePath c.type
            = makeId (joinRelative cp seg) NodeType.file := by
          rw [← (hwf3 c hc).2.1]
          exact hid
        obtain ⟨hcty, hcpath⟩ := makeId_inj hid2
        apply hfree3
        refine mem_filePathsForest.mpr ⟨c, hc, ?_⟩
        obtain ⟨ci, cn, crp, cty, csz, cmt, cd, ccs⟩ := c
        have : cty = NodeType.file := hcty
        subst this
        have : crp = joinRelative cp seg := hcpath
        subst this
        exact List.mem_singleton.mpr rfl
      simp only [insertSegments, TreeNode.children, TreeNode.depth, TreeNode.withChildren]
      rw [ensureChild_children_of_none hlook]
      refine And.intro (fun h => by cases h) (And.intro ?_ (And.intro ?_ ?_))
      · rw [List.map_append]
        refine List.Nodup.append hwf2 (by simp) ?_
        intro a ha hamem
        have ha2 : a ∈ [seg] := hamem
        rcases List.mem_singleton.mp ha2 with rfl
        obtain ⟨c, hc, hcname⟩ := List.mem_map.mp ha
        have hcpath : c.relativePath = joinRelative cp a := by
          rw [(hwf3 c hc).1, hcname]
        rcases nodeType_cases c.type with hcty | hcty
        · apply hfree3
          refine mem_filePathsForest.mpr ⟨c, hc, ?_⟩
          obtain ⟨ci, cn, crp, cty, csz, cmt, cd, ccs⟩ := c
          have : cty = NodeType.file := hcty
          subst this
          have : crp = joinRelative cp a := hcpath
          subst this
          exact List.mem_singleton.mpr rfl
        · apply hfree2
          refine List.mem_cons_of_mem _ (mem_dirPathsForest.mpr ⟨c, hc, ?_⟩)
          obtain ⟨ci, cn, crp, cty, csz, cmt, cd, ccs⟩ := c
          have : cty = NodeType.directory := hcty
          subst this
          have : crp = joinRelative cp a := hcpath
          subst this
          exact List.mem_cons_self _ _
      · intro c hc
        rcases List.mem_append.mp hc with hc | hc
        · exact hwf3 c hc
        · rcases List.mem_singleton.mp hc with rfl
          exact ⟨rfl, rfl, rfl⟩
      · exact wfshapeForest_append hwf4
          ⟨⟨fun _ => rfl, by simp, fun c hc => absurd hc (List.not_mem_nil _), trivial⟩,
            trivial⟩
    | cons seg2 rest2 =>
      simp only [insertSegments, TreeNode.children, TreeNode.depth, TreeNode.withChildren]
      rcases hfind : findChild cs (joinRelative cp seg) with _ | c
      · have hnone := findChild_eq_none.mp hfind
        have hchainid : (insertSegments
            (createDirectoryNode (joinRelative cp seg) seg (d + 1) mt)
            (joinRelative cp seg) (seg2 :: rest2) sz mt).id
            = makeId (joinRelative cp seg) NodeType.directory := by
          rw [insertSegments_id]
          rfl
        have hlook : lookupNode (childIdMapOf cs) (insertSegments
            (createDirectoryNode (joinRelative cp seg) seg (d + 1) mt)
            (joinRelative cp seg) (seg2 :: rest2) sz mt).id = none := by
          rw [lookupNode_childIdMapOf_none]
          intro c hc hid
          have hid2 : makeId c.relativePath c.type
              = makeId (joinRelative cp seg) NodeType.directory := by
            rw [← (hwf3 c hc).2.1, hid, hchainid]
          exact hnone c hc (makeId_inj hid2).2
        rw [ensureChild_children_of_none hlook]
        refine And.intro (fun h => by cases h) (And.intro ?_ (And.intro ?_ ?_))
        · rw [List.map_append]
          have hchn : (insertSegments
              (createDirectoryNode (joinRelative cp seg) seg (d + 1) mt)
              (joinRelative cp seg) (seg2 :: rest2) sz mt).name = seg := by
            rw [insertSegments_name]
            rfl
          rw [show ([insertSegments
              (createDirectoryNode (joinRelative cp seg) seg (d + 1) mt)
              (joinRelative cp seg) (seg2 :: rest2) sz mt].map TreeNode.name)
              = [seg] from by rw [List.map_cons, hchn]; rfl]
          refine List.Nodup.append hwf2 (by simp) ?_
          intro a ha hamem
          rcases List.mem_singleton.mp hamem with rfl
          obtain ⟨c, hc, hcname⟩ := List.mem_map.mp ha
          apply hnone c hc
          rw [(hwf3 c hc).1, hcname]
        · intro c hc
          rcases List.mem_append.mp hc with hc | hc
          · exact hwf3 c hc
          · rcases List.mem_singleton.mp hc with rfl
            refine ⟨?_, ?_, ?_⟩
            · rw [insertSegments_relativePath, insertSegments_name]
              rfl
            · rw [insertSegments_id, insertSegments_relativePath, insertSegments_type]
              rfl
            · rw [insertSegments_depth]
              rfl
        · exact wfshapeForest_append hwf4 ⟨wfshape_chain (by simp), trivial⟩
      · obtain ⟨hcmem, hcpath⟩ := findChild_eq_some hfind
        have hcdir : c.type = NodeType.directory := by
          rcases nodeType_cases c.type with hcty | hcty
          · exfalso
            apply hfree1 (joinRelative cp seg) (List.mem_cons_self _ _)
            refine mem_filePathsForest.mpr ⟨c, hcmem, ?_⟩
            obtain ⟨ci, cn, crp, cty, csz, cmt, cd, ccs⟩ := c
            have : cty = NodeType.file := hcty
            subst this
            have : crp = joinRelative cp seg := hcpath
            subst this
            exact List.mem_singleton.mpr rfl
          · exact hcty
        refine And.intro (fun h => by cases h) (And.intro ?_ (And.intro ?_ ?_))
        · rw [updateChild_map_name (fun c₀ => insertSegments_name _ c₀ _ _ _)]
          exact hwf2
        · intro c' hc'
          rcases mem_updateChild hc' with hc' | ⟨c₀, hc₀, hp₀, rfl⟩
          · exact hwf3 c' hc'
          · refine ⟨?_, ?_, ?_⟩
            · rw [insertSegments_relativePath, insertSegments_name]
              exact (hwf3 c₀ hc₀).1
            · rw [insertSegments_id, insertSegments_relativePath, insertSegments_type]
              exact (hwf3 c₀ hc₀).2.1
            · rw [insertSegments_depth]
              exact (hwf3 c₀ hc₀).2.2
        · refine wfshapeForest_updateChild hwf4 ?_
          intro c₀ hc₀ hp₀
          have hc₀dir : c₀.type = NodeType.directory := by
            rcases nodeType_cases c₀.type with hcty | hcty
            · exfalso
              apply hfree1 (joinRelative cp seg) (List.mem_cons_self _ _)
              refine mem_filePathsForest.mpr ⟨c₀, hc₀, ?_⟩
              obtain ⟨ci, cn, crp, cty, csz, cmt, cd, ccs⟩ := c₀
              have : cty = NodeType.file := hcty
              subst this
              have : crp = joinRelative cp seg := hp₀
              subst this
              exact List.mem_singleton.mpr rfl
            · exact hcty
          exact ih (wfshapeForest_mem hwf4 hc₀) hc₀dir hp₀.symm
            (freeFor_descend ⟨hfree1, hfree2, hfree3⟩ hc₀)

/-- Inserting one entry keeps the walk of any conflict-free other entry free. -/
theorem freeFor_insert {t : TreeNode} {segsE segsE' : List String} {sz mt : Nat}
    (hvalid : validSegments segsE) (hvalid' : validSegments segsE')
    (hcf : conflictFree segsE segsE')
    (hfree' : FreeFor t "." segsE') :
    FreeFor (insertSegments t "." segsE sz mt) "." segsE' := by
  obtain ⟨h1, h2, h3⟩ := hfree'
  refine ⟨?_, ?_, ?_⟩
  · intro p hp hpf
    rcases filePathsOf_insertSegments hpf with rfl | hpf
    · obtain ⟨j, hj0, hjl, hpeq⟩ := chainPaths_mem hp
      have heq : segsE = segsE'.take j :=
        joinChain_dot_inj hvalid (validSegments_take hvalid' hj0 hvalid'.1) hpeq
      exact hcf.1 (by rw [heq]; exact take_isHeadOf segsE' j)
    · exact h1 p hp hpf
  · intro hd
    rcases dirPathsOf_insertSegments hd with hd | hd
    · exact h2 hd
    · obtain ⟨j, hj0, hjl, hpeq⟩ := chainPaths_mem hd
      have heq : segsE' = segsE.take j :=
        joinChain_dot_inj hvalid' (validSegments_take hvalid hj0 hvalid.1) hpeq
      exact hcf.2 (by rw [heq]; exact take_isHeadOf segsE j)
  · intro hf
    rcases filePathsOf_insertSegments hf with heq | hf
    · have heq2 : segsE' = segsE := joinChain_dot_inj hvalid' hvalid heq
      exact hcf.2 (by rw [heq2]; exact ⟨[], List.append_nil _⟩)
    · exact h3 hf

/-! ## Infrastructure for build-tree equivalence -/

theorem buildEquivForest_cons_inv {a : TreeNode} {l x : List TreeNode}
    (h : BuildEquivForest (a :: l) x) :
    ∃ u b v, x = u ++ b :: v ∧ BuildEquiv a b ∧ BuildEquivForest l (u ++ v) := by
  cases h with
  | cons a b l u v hab hf => exact ⟨u, b, v, rfl, hab, hf⟩

theorem buildEquivForest_nil_inv {x : List TreeNode} (h : BuildEquivForest [] x) :
    x = [] := by
  cases h
  rfl

theorem buildEquiv_fields {t₁ t₂ : TreeNode} (h : BuildEquiv t₁ t₂) :
    t₁.id = t₂.id ∧ t₁.name = t₂.name ∧ t₁.relativePath = t₂.relativePath ∧
    t₁.type = t₂.type ∧ t₁.size = t₂.size ∧ t₁.depth = t₂.depth := by
  cases h with
  | mk i n rp ty sz mt₁ mt₂ d cs₁ cs₂ h1 h2 hf => exact ⟨rfl, rfl, rfl, rfl, rfl, rfl⟩

theorem buildEquivForest_refl : ∀ {cs : List TreeNode},
    (∀ c ∈ cs, BuildEquiv c c) → BuildEquivForest cs cs := by
  intro cs
  induction cs with
  | nil => exact fun _ => BuildEquivForest.nil
  | cons c cs ih =>
    intro h
    exact BuildEquivForest.cons c c cs [] cs (h c (List.mem_cons_self _ _))
      (ih (fun c hc => h c (List.mem_cons_of_mem _ hc)))

/-- Reflexivity of `BuildEquiv` on trees whose directory mtimes are dominated
by the file mtimes below them. -/
theorem buildEquiv_refl : ∀ (t : TreeNode), DirsDominated t → BuildEquiv t t := by
  intro t
  induction t using TreeNode.inductionOn with
  | _ i n rp ty sz mt d cs ih =>
    intro hdml
    refine BuildEquiv.mk i n rp ty sz mt mt d cs cs (fun _ => rfl) ?_ ?_
    · intro hty
      subst hty
      have h := hdml (TreeNode.node i n rp .directory sz mt d cs) (Occurs.refl _) rfl
      exact ⟨h, h⟩
    · exact buildEquivForest_refl
        (fun c hc => ih c hc (fun s hs hd => hdml s (Occurs.child hc hs) hd))

theorem buildEquivForest_append_single : ∀ {cs₁ cs₂ : List TreeNode} {x y : TreeNode},
    BuildEquivForest cs₁ cs₂ → BuildEquiv x y →
    BuildEquivForest (cs₁ ++ [x]) (cs₂ ++ [y]) := by
  intro cs₁
  induction cs₁ with
  | nil =>
    intro cs₂ x y h hxy
    rw [buildEquivForest_nil_inv h]
    exact BuildEquivForest.cons x y [] [] [] hxy BuildEquivForest.nil
  | cons a l ih =>
    intro cs₂ x y h hxy
    obtain ⟨u, b, v, rfl, hab, hf⟩ := buildEquivForest_cons_inv h
    have ih2 := ih hf hxy
    rw [List.append_assoc] at ih2
    have h3 := BuildEquivForest.cons a b (l ++ [x]) u (v ++ [y]) hab ih2
    rw [List.append_assoc]
    exact h3

theorem buildEquivForest_prefix_refl : ∀ {cs r₁ r₂ : List TreeNode},
    (∀ c ∈ cs, BuildEquiv c c) → BuildEquivForest r₁ r₂ →
    BuildEquivForest (cs ++ r₁) (cs ++ r₂) := by
  intro cs
  induction cs with
  | nil => exact fun _ h => h
  | cons c cs ih =>
    intro r₁ r₂ hrefl h
    exact BuildEquivForest.cons c c (cs ++ r₁) [] (cs ++ r₂)
      (hrefl c (List.mem_cons_self _ _))
      (ih (fun c hc => hrefl c (List.mem_cons_of_mem _ hc)) h)

theorem buildEquivForest_swap_two {cs : List TreeNode} {x y : TreeNode}
    (hcs : ∀ c ∈ cs, BuildEquiv c c) (hx : BuildEquiv x x) (hy : BuildEquiv y y) :
    BuildEquivForest (cs ++ [x, y]) (cs ++ [y, x]) :=
  buildEquivForest_prefix_refl hcs
    (BuildEquivForest.cons x x [y] [y] [] hx
      (BuildEquivForest.cons y y [] [] [] hy BuildEquivForest.nil))

theorem buildEquivForest_paths : ∀ {cs₁ cs₂ : List TreeNode},
    BuildEquivForest cs₁ cs₂ →
    (cs₁.map TreeNode.relativePath).Perm (cs₂.map TreeNode.relativePath) := by
  intro cs₁
  induction cs₁ with
  | nil =>
    intro cs₂ h
    rw [buildEquivForest_nil_inv h]
  | cons a l ih =>
    intro cs₂ h
    obtain ⟨u, b, v, rfl, hab, hf⟩ := buildEquivForest_cons_inv h
    have hpath := (buildEquiv_fields hab).2.2.1
    have ih2 := ih hf
    rw [List.map_append] at ih2
    rw [List.map_cons, List.map_append, List.map_cons, hpath]
    exact (ih2.cons _).trans List.perm_middle.symm

theorem buildEquivForest_ids : ∀ {cs₁ cs₂ : List TreeNode},
    BuildEquivForest cs₁ cs₂ →
    (cs₁.map TreeNode.id).Perm (cs₂.map TreeNode.id) := by
  intro cs₁
  induction cs₁ with
  | nil =>
    intro cs₂ h
    rw [buildEquivForest_nil_inv h]
  | cons a l ih =>
    intro cs₂ h
    obtain ⟨u, b, v, rfl, hab, hf⟩ := buildEquivForest_cons_inv h
    have hid := (buildEquiv_fields hab).1
    have ih2 := ih hf
    rw [List.map_append] at ih2
    rw [List.map_cons, List.map_append, List.map_cons, hid]
    exact (ih2.cons _).trans List.perm_middle.symm

theorem buildEquivForest_mem_left : ∀ {cs₁ cs₂ : List TreeNode},
    BuildEquivForest cs₁ cs₂ → ∀ {c₁ : TreeNode}, c₁ ∈ cs₁ →
    ∃ c₂ ∈ cs₂, BuildEquiv c₁ c₂ := by
  intro cs₁
  induction cs₁ with
  | nil => intro cs₂ _ c₁ hc; cases hc
  | cons a l ih =>
    intro cs₂ h c₁ hc
    obtain ⟨u, b, v, rfl, hab, hf⟩ := buildEquivForest_cons_inv h
    rcases List.mem_cons.mp hc with rfl | hc
    · exact ⟨b, List.mem_append.mpr (Or.inr (List.mem_cons_self _ _)), hab⟩
    · obtain ⟨c₂, hc₂, hrel⟩ := ih hf hc
      rcases List.mem_append.mp hc₂ with hc₂ | hc₂
      · exact ⟨c₂, List.mem_append.mpr (Or.inl hc₂), hrel⟩
      · exact ⟨c₂, List.mem_append.mpr (Or.inr (List.mem_cons_of_mem _ hc₂)), hrel⟩

theorem buildEquivForest_mem_right : ∀ {cs₁ cs₂ : List TreeNode},
    BuildEquivForest cs₁ cs₂ → ∀ {c₂ : TreeNode}, c₂ ∈ cs₂ →
    ∃ c₁ ∈ cs₁, BuildEquiv c₁ c₂ := by
  intro cs₁
  induction cs₁ with
  | nil =>
    intro cs₂ h c₂ hc
    rw [buildEquivForest_nil_inv h] at hc
    cases hc
  | cons a l ih =>
    intro cs₂ h c₂ hc
    obtain ⟨u, b, v, rfl, hab, hf⟩ := buildEquivForest_cons_inv h
    rcases List.mem_append.mp hc with hc | hc
    · obtain ⟨c₁, hc₁, hrel⟩ := ih hf (List.mem_append.mpr (Or.inl hc))
      exact ⟨c₁, List.mem_cons_of_mem _ hc₁, hrel⟩
    · rcases List.mem_cons.mp hc with rfl | hc
      · exact ⟨a, List.mem_cons_self _ _, hab⟩
      · obtain ⟨c₁, hc₁, hrel⟩ := ih hf (List.mem_append.mpr (Or.inr hc))
        exact ⟨c₁, List.mem_cons_of_mem _ hc₁, hrel⟩

theorem buildEquivForest_filesPerm : ∀ {cs₁ cs₂ : List TreeNode},
    BuildEquivForest cs₁ cs₂ →
    (∀ c₁ ∈ cs₁, ∀ c₂, BuildEquiv c₁ c₂ → (filesUnder c₁).Perm (filesUnder c₂)) →
    (filesUnderForest cs₁).Perm (filesUnderForest cs₂) := by
  intro cs₁
  induction cs₁ with
  | nil =>
    intro cs₂ h _
    rw [buildEquivForest_nil_inv h]
  | cons a l ih =>
    intro cs₂ h hpw
    obtain ⟨u, b, v, rfl, hab, hf⟩ := buildEquivForest_cons_inv h
    have h1 : (filesUnder a).Perm (filesUnder b) := hpw a (List.mem_cons_self _ _) b hab
    have h2 := ih hf (fun c₁ hc₁ => hpw c₁ (List.mem_cons_of_mem _ hc₁))
    rw [filesUnderForest_append] at h2
    show (filesUnder a ++ filesUnderForest l).Perm (filesUnderForest (u ++ b :: v))
    rw [filesUnderForest_append]
    have step2 : (filesUnder b ++ (filesUnderForest u ++ filesUnderForest v)).Perm
        (filesUnderForest u ++ (filesUnder b ++ filesUnderForest v)) := by
      rw [← List.append_assoc, ← List.append_assoc]
      exact List.Perm.append_right _ List.perm_append_comm
    exact ((h1.append h2).trans step2)

/-- Inversion of `BuildEquiv` at a node. -/
theorem buildEquiv_node_inv {i n rp : String} {ty : NodeType} {sz mt d : Nat}
    {cs : List TreeNode} {t₂ : TreeNode}
    (h : BuildEquiv (.node i n rp ty sz mt d cs) t₂) :
    ∃ mt₂ cs₂, t₂ = .node i n rp ty sz mt₂ d cs₂ ∧
      (ty = NodeType.file → mt = mt₂) ∧
      (ty = NodeType.directory →
        mt ≤ maxMtime (filesUnderForest cs) ∧ mt₂ ≤ maxMtime (filesUnderForest cs₂)) ∧
      BuildEquivForest cs cs₂ := by
  cases h
  rename_i mt₂ cs₂ h1 h2 hforest
  exact ⟨mt₂, cs₂, rfl, by assumption, by assumption, by assumption⟩

/-- Related trees carry the same multiset of file metrics. -/
theorem buildEquiv_filesPerm : ∀ (t₁ t₂ : TreeNode), BuildEquiv t₁ t₂ →
    (filesUnder t₁).Perm (filesUnder t₂) := by
  intro t₁
  induction t₁ using TreeNode.inductionOn with
  | _ i n rp ty sz mt d cs ih =>
    intro t₂ h
    obtain ⟨mt₂, cs₂, rfl, h1, h2, hforest⟩ := buildEquiv_node_inv h
    cases ty with
    | file =>
      have hmt : mt = mt₂ := h1 rfl
      subst hmt
      exact List.Perm.refl _
    | directory =>
      show (filesUnderForest cs).Perm (filesUnderForest cs₂)
      exact buildEquivForest_filesPerm hforest (fun c₁ hc₁ c₂ hrel => ih c₁ hc₁ c₂ hrel)

/-- Well-shaped trees have childless files, stated over occurrences. -/
theorem wfshape_fc : ∀ (t : TreeNode), WFShape t →
    ∀ s, Occurs s t → s.type = NodeType.file → s.children = [] := by
  intro t
  induction t using TreeNode.inductionOn with
  | _ i n rp ty sz mt d cs ih =>
    intro hwf s hocc hf
    rcases occurs_node_iff.mp hocc with rfl | ⟨c, hc, hsub⟩
    · exact hwf.1 hf
    · exact ih c hc (wfshapeForest_mem hwf.2.2.2 hc) s hsub hf

/-- Updating the child at one path on two related forests with the same
function keeps them related, as long as paths are duplicate-free on both
sides and the function maps related matched children to related results. -/
theorem buildEquivForest_update : ∀ {cs₁ cs₂ : List TreeNode} {p : String}
    {f : TreeNode → TreeNode},
    BuildEquivForest cs₁ cs₂ →
    (cs₁.map TreeNode.relativePath).Nodup →
    (cs₂.map TreeNode.relativePath).Nodup →
    (∀ c₁ ∈ cs₁, ∀ c₂ ∈ cs₂, BuildEquiv c₁ c₂ → c₁.relativePath = p →
      BuildEquiv (f c₁) (f c₂)) →
    BuildEquivForest (updateChild cs₁ p f) (updateChild cs₂ p f) := by
  intro cs₁
  induction cs₁ with
  | nil =>
    intro cs₂ p f h _ _ _
    rw [buildEquivForest_nil_inv h]
    exact BuildEquivForest.nil
  | cons a l ih =>
    intro cs₂ p f h hnd₁ hnd₂ hrel
    obtain ⟨u, b, v, rfl, hab, hf⟩ := buildEquivForest_cons_inv h
    have hbp : b.relativePath = a.relativePath := ((buildEquiv_fields hab).2.2.1).symm
    have hnd₂' : ((u ++ b :: v).map TreeNode.relativePath).Nodup := hnd₂
    rw [List.map_append] at hnd₂'
    have hnds := List.nodup_append.mp hnd₂'
    by_cases hap : a.relativePath = p
    · have hu : ∀ c ∈ u, c.relativePath ≠ p := by
        intro c hc hcp
        exact hnds.2.2 (List.mem_map.mpr ⟨c, hc, hcp⟩)
          (by rw [List.map_cons]
              rw [show b.relativePath = p from hbp.trans hap] at *
              exact List.mem_cons_self _ _)
      rw [show updateChild (a :: l) p f = f a :: l from by simp [updateChild, hap]]
      rw [updateChild_append_left hu]
      rw [show updateChild (b :: v) p f = f b :: v from by
        simp [updateChild, hbp.trans hap]]
      exact BuildEquivForest.cons (f a) (f b) l u v
        (hrel a (List.mem_cons_self _ _) b
          (List.mem_append.mpr (Or.inr (List.mem_cons_self _ _))) hab hap) hf
    · have hbp' : b.relativePath ≠ p := fun hc => hap (hbp.symm.trans hc)
      rw [show updateChild (a :: l) p f = a :: updateChild l p f from by
        simp [updateChild, hap]]
      have hndl : (l.map TreeNode.relativePath).Nodup :=
        (List.nodup_cons.mp (by simpa using hnd₁)).2
      have hnduv : ((u ++ v).map TreeNode.relativePath).Nodup := by
        rw [List.map_append]
        refine List.Nodup.sublist ?_ hnd₂'
        refine List.Sublist.append_left ?_ _
        rw [List.map_cons]
        exact List.sublist_cons_self _ _
      have hrel' : ∀ c₁ ∈ l, ∀ c₂ ∈ u ++ v, BuildEquiv c₁ c₂ → c₁.relativePath = p →
          BuildEquiv (f c₁) (f c₂) := by
        intro c₁ hc₁ c₂ hc₂ hr hp2
        refine hrel c₁ (List.mem_cons_of_mem _ hc₁) c₂ ?_ hr hp2
        rcases List.mem_append.mp hc₂ with hc₂ | hc₂
        · exact List.mem_append.mpr (Or.inl hc₂)
        · exact List.mem_append.mpr (Or.inr (List.mem_cons_of_mem _ hc₂))
      by_cases hex : ∃ c ∈ u, c.relativePath = p
      · rw [updateChild_append_right hex]
        have ih2 := ih hf hndl hnduv hrel'
        rw [updateChild_append_right hex] at ih2
        exact BuildEquivForest.cons a b (updateChild l p f) (updateChild u p f) v hab ih2
      · have hu : ∀ c ∈ u, c.relativePath ≠ p := by
          intro c hc hcp
          exact hex ⟨c, hc, hcp⟩
        rw [updateChild_append_left hu]
        rw [show updateChild (b :: v) p f = b :: updateChild v p f from by
          simp [updateChild, hbp']]
        have ih2 := ih hf hndl hnduv hrel'
        rw [updateChild_append_left hu] at ih2
        exact BuildEquivForest.cons a b (updateChild l p f) u (updateChild v p f) hab ih2

/-! ## Commuting two insertions: the fresh-chain cross case -/

theorem conflictFree_tail {a : String} {r₁ r₂ : List String}
    (h : conflictFree (a :: r₁) (a :: r₂)) : conflictFree r₁ r₂ := by
  constructor
  · rintro ⟨w, hw⟩
    exact h.1 ⟨w, by rw [show (a :: r₁) ++ w = a :: (r₁ ++ w) from rfl, hw]⟩
  · rintro ⟨w, hw⟩
    exact h.2 ⟨w, by rw [show (a :: r₂) ++ w = a :: (r₂ ++ w) from rfl, hw]⟩

theorem dirsDominated_createFileNode {p n : String} {d sz mt : Nat} :
    DirsDominated (createFileNode p n d sz mt) := by
  intro s hs hd
  rcases occurs_node_iff.mp hs with rfl | ⟨c, hc, hsub⟩
  · exact absurd hd (by intro h; cases h)
  · exact absurd hc (List.not_mem_nil _)

theorem le_maxMtime_createFileNode {p n : String} {d sz mt : Nat} :
    mt ≤ maxMtime (filesUnder (createFileNode p n d sz mt)) := by
  show mt ≤ Nat.max mt 0
  exact Nat.le_max_left _ _

theorem insert_miss_singleton_leaf {X : TreeNode} {i' n' q s : String}
    {mtR dep sz mt : Nat}
    (hid : X.id ≠ makeId (joinRelative q s) NodeType.file) :
    insertSegments (.node i' n' q .directory 0 mtR dep [X]) q [s] sz mt
      = .node i' n' q .directory 0 mtR dep
          [X, createFileNode (joinRelative q s) s (dep + 1) sz mt] := by
  simp only [insertSegments, TreeNode.children, TreeNode.depth, TreeNode.withChildren]
  rw [ensureChild_children_of_none (lookupNode_childIdMapOf_none.mpr (by
    intro c hc
    rcases List.mem_singleton.mp hc with rfl
    exact hid))]
  rfl

theorem insert_miss_singleton_chain {X : TreeNode} {i' n' q s s₂ : String}
    {r' : List String} {mtR dep sz mt : Nat}
    (hpath : X.relativePath ≠ joinRelative q s)
    (hid : X.id ≠ makeId (joinRelative q s) NodeType.directory) :
    insertSegments (.node i' n' q .directory 0 mtR dep [X]) q (s :: s₂ :: r') sz mt
      = .node i' n' q .directory 0 mtR dep
          [X, insertSegments (createDirectoryNode (joinRelative q s) s (dep + 1) mt)
            (joinRelative q s) (s₂ :: r') sz mt] := by
  simp only [insertSegments, TreeNode.children, TreeNode.depth, TreeNode.withChildren]
  rw [findChild_eq_none.mpr (by
    intro c hc
    rcases List.mem_singleton.mp hc with rfl
    exact hpath)]
  rw [ensureChild_children_of_none (lookupNode_childIdMapOf_none.mpr (by
    intro c hc
    rcases List.mem_singleton.mp hc with rfl
    rw [insertSegments_id]
    exact hid))]
  rfl

theorem insert_found_singleton {X : TreeNode} {i' n' q s s₂ : String}
    {r' : List String} {mtR dep sz mt : Nat}
    (hpath : X.relativePath = joinRelative q s) :
    insertSegments (.node i' n' q .directory 0 mtR dep [X]) q (s :: s₂ :: r') sz mt
      = .node i' n' q .directory 0 mtR dep
          [insertSegments X (joinRelative q s) (s₂ :: r') sz mt] := by
  simp only [insertSegments, TreeNode.children, TreeNode.depth, TreeNode.withChildren]
  rw [findChild_some_of_mem (by simp) (List.mem_cons_self _ _) hpath]
  rw [show updateChild [X] (joinRelative q s)
      (fun d0 => insertSegments d0 (joinRelative q s) (s₂ :: r') sz mt)
      = [insertSegments X (joinRelative q s) (s₂ :: r') sz mt] from by
    simp [updateChild, hpath]]

/-- Two conflict-free insertions below a fresh directory commute up to
`BuildEquiv` (the two orders stamp the fresh directory with different
provisional mtimes, each dominated by its own entry's file below). -/
theorem cross_swap : ∀ {tail₁ tail₂ : List String}, tail₁ ≠ [] → tail₂ ≠ [] →
    conflictFree tail₁ tail₂ →
    ∀ {q nm : String} {dep sz₁ mt₁ sz₂ mt₂ : Nat},
    BuildEquiv
      (insertSegments (insertSegments (createDirectoryNode q nm dep mt₂) q tail₂ sz₂ mt₂)
        q tail₁ sz₁ mt₁)
      (insertSegments (insertSegments (createDirectoryNode q nm dep mt₁) q tail₁ sz₁ mt₁)
        q tail₂ sz₂ mt₂) := by
  intro tail₁
  induction tail₁ with
  | nil => exact fun h => absurd rfl h
  | cons a r₁ ih =>
    intro tail₂ _ hne₂ hcf q nm dep sz₁ mt₁ sz₂ mt₂
    cases tail₂ with
    | nil => exact absurd rfl hne₂
    | cons b r₂ =>
      by_cases hab : a = b
      · subst hab
        have hr₁ : r₁ ≠ [] := by
          intro h
          subst h
          exact hcf.1 ⟨r₂, rfl⟩
        have hr₂ : r₂ ≠ [] := by
          intro h
          subst h
          exact hcf.2 ⟨r₁, rfl⟩
        cases r₁ with
        | nil => exact absurd rfl hr₁
        | cons a₂ r₁' =>
          cases r₂ with
          | nil => exact absurd rfl hr₂
          | cons b₂ r₂' =>
            have hcf2 : conflictFree (a₂ :: r₁') (b₂ :: r₂') := conflictFree_tail hcf
            have hD₂path : (insertSegments
                (createDirectoryNode (joinRelative q a) a (dep + 1) mt₂)
                (joinRelative q a) (b₂ :: r₂') sz₂ mt₂).relativePath
                = joinRelative q a := by
              rw [insertSegments_relativePath]
              rfl
            have hD₁path : (insertSegments
                (createDirectoryNode (joinRelative q a) a (dep + 1) mt₁)
                (joinRelative q a) (a₂ :: r₁') sz₁ mt₁).relativePath
                = joinRelative q a := by
              rw [insertSegments_relativePath]
              rfl
            rw [chain_cons_eq, chain_cons_eq,
              insert_found_singleton hD₂path, insert_found_singleton hD₁path]
            refine BuildEquiv.mk _ _ _ _ _ _ _ _ _ _ (fun h => by cases h) ?_ ?_
            · intro _
              constructor
              · rw [filesUnderForest_singleton]
                exact le_trans (chain_dml (by simp)).1 maxMtime_insertSegments_mono
              · rw [filesUnderForest_singleton]
                exact le_trans (chain_dml (by simp)).1 maxMtime_insertSegments_mono
            · exact BuildEquivForest.cons _ _ [] [] []
                (ih (by simp) (by simp) hcf2) BuildEquivForest.nil
      · have hpab : joinRelative q b ≠ joinRelative q a :=
          fun h => hab (joinRelative_inj h).symm
        have hpba : joinRelative q a ≠ joinRelative q b :=
          fun h => hab (joinRelative_inj h)
        cases r₁ with
        | nil =>
          cases r₂ with
          | nil =>
            have e₁ : insertSegments (TreeNode.node (makeId q NodeType.directory) nm q NodeType.directory 0 mt₂ dep
                [createFileNode (joinRelative q b) b (dep + 1) sz₂ mt₂]) q [a] sz₁ mt₁
                = TreeNode.node (makeId q NodeType.directory) nm q NodeType.directory 0 mt₂ dep
                [createFileNode (joinRelative q b) b (dep + 1) sz₂ mt₂,
                 createFileNode (joinRelative q a) a (dep + 1) sz₁ mt₁] :=
              insert_miss_singleton_leaf (fun h => hpab (makeId_inj h).2)
            have e₂ : insertSegments (TreeNode.node (makeId q NodeType.directory) nm q NodeType.directory 0 mt₁ dep
                [createFileNode (joinRelative q a) a (dep + 1) sz₁ mt₁]) q [b] sz₂ mt₂
                = TreeNode.node (makeId q NodeType.directory) nm q NodeType.directory 0 mt₁ dep
                [createFileNode (joinRelative q a) a (dep + 1) sz₁ mt₁,
                 createFileNode (joinRelative q b) b (dep + 1) sz₂ mt₂] :=
              insert_miss_singleton_leaf (fun h => hpba (makeId_inj h).2)
            rw [chain_singleton_eq, chain_singleton_eq, e₁, e₂]
            refine BuildEquiv.mk _ _ _ _ _ _ _ _ _ _ (fun h => by cases h) ?_ ?_
            · intro _
              constructor
              · rw [show filesUnderForest
                    [createFileNode (joinRelative q b) b (dep + 1) sz₂ mt₂,
                     createFileNode (joinRelative q a) a (dep + 1) sz₁ mt₁]
                    = filesUnder (createFileNode (joinRelative q b) b (dep + 1) sz₂ mt₂)
                      ++ filesUnderForest
                        [createFileNode (joinRelative q a) a (dep + 1) sz₁ mt₁]
                    from rfl, maxMtime_append]
                exact le_trans le_maxMtime_createFileNode (Nat.le_max_left _ _)
              · rw [show filesUnderForest
                    [createFileNode (joinRelative q a) a (dep + 1) sz₁ mt₁,
                     createFileNode (joinRelative q b) b (dep + 1) sz₂ mt₂]
                    = filesUnder (createFileNode (joinRelative q a) a (dep + 1) sz₁ mt₁)
                      ++ filesUnderForest
                        [createFileNode (joinRelative q b) b (dep + 1) sz₂ mt₂]
                    from rfl, maxMtime_append]
                exact le_trans le_maxMtime_createFileNode (Nat.le_max_left _ _)
            · exact @buildEquivForest_swap_two [] _ _
                (fun c hc => absurd hc (List.not_mem_nil _))
                (buildEquiv_refl _ dirsDominated_createFileNode)
                (buildEquiv_refl _ dirsDominated_createFileNode)
          | cons b₂ r₂' =>
            have e₁ : insertSegments (TreeNode.node (makeId q NodeType.directory) nm q NodeType.directory 0 mt₂ dep
                [insertSegments (createDirectoryNode (joinRelative q b) b (dep + 1) mt₂)
                (joinRelative q b) (b₂ :: r₂') sz₂ mt₂]) q [a] sz₁ mt₁
                = TreeNode.node (makeId q NodeType.directory) nm q NodeType.directory 0 mt₂ dep
                [insertSegments (createDirectoryNode (joinRelative q b) b (dep + 1) mt₂)
                (joinRelative q b) (b₂ :: r₂') sz₂ mt₂,
                 createFileNode (joinRelative q a) a (dep + 1) sz₁ mt₁] :=
              insert_miss_singleton_leaf (by
                rw [insertSegments_id]
                exact fun h => by cases (makeId_inj h).1)
            have e₂ : insertSegments (TreeNode.node (makeId q NodeType.directory) nm q NodeType.directory 0 mt₁ dep
                [createFileNode (joinRelative q a) a (dep + 1) sz₁ mt₁]) q (b :: b₂ :: r₂') sz₂ mt₂
                = TreeNode.node (makeId q NodeType.directory) nm q NodeType.directory 0 mt₁ dep
                [createFileNode (joinRelative q a) a (dep + 1) sz₁ mt₁,
                 insertSegments (createDirectoryNode (joinRelative q b) b (dep + 1) mt₂)
                (joinRelative q b) (b₂ :: r₂') sz₂ mt₂] :=
              insert_miss_singleton_chain hpba (fun h => by cases (makeId_inj h).1)
            rw [chain_cons_eq, chain_singleton_eq, e₁, e₂]
            refine BuildEquiv.mk _ _ _ _ _ _ _ _ _ _ (fun h => by cases h) ?_ ?_
            · intro _
              constructor
              · rw [show filesUnderForest
                    [insertSegments (createDirectoryNode (joinRelative q b) b (dep + 1) mt₂)
                (joinRelative q b) (b₂ :: r₂') sz₂ mt₂,
                     createFileNode (joinRelative q a) a (dep + 1) sz₁ mt₁]
                    = filesUnder (insertSegments (createDirectoryNode (joinRelative q b) b (dep + 1) mt₂)
                (joinRelative q b) (b₂ :: r₂') sz₂ mt₂)
                      ++ filesUnderForest
                        [createFileNode (joinRelative q a) a (dep + 1) sz₁ mt₁]
                    from rfl, maxMtime_append]
                exact le_trans (chain_dml (by simp)).1 (Nat.le_max_left _ _)
              · rw [show filesUnderForest
                    [createFileNode (joinRelative q a) a (dep + 1) sz₁ mt₁,
                     insertSegments (createDirectoryNode (joinRelative q b) b (dep + 1) mt₂)
                (joinRelative q b) (b₂ :: r₂') sz₂ mt₂]
                    = filesUnder (createFileNode (joinRelative q a) a (dep + 1) sz₁ mt₁)
                      ++ filesUnderForest
                        [insertSegments (createDirectoryNode (joinRelative q b) b (dep + 1) mt₂)
                (joinRelative q b) (b₂ :: r₂') sz₂ mt₂]
                    from rfl, maxMtime_append]
                exact le_trans le_maxMtime_createFileNode (Nat.le_max_left _ _)
            · exact @buildEquivForest_swap_two [] _ _
                (fun c hc => absurd hc (List.not_mem_nil _))
                (buildEquiv_refl _ (fun s hs hd => (chain_dml (by simp)).2 s hs hd))
                (buildEquiv_refl _ dirsDominated_createFileNode)
        | cons a₂ r₁' =>
          cases r₂ with
          | nil =>
            have e₁ : insertSegments (TreeNode.node (makeId q NodeType.directory) nm q NodeType.directory 0 mt₂ dep
                [createFileNode (joinRelative q b) b (dep + 1) sz₂ mt₂]) q (a :: a₂ :: r₁') sz₁ mt₁
                = TreeNode.node (makeId q NodeType.directory) nm q NodeType.directory 0 mt₂ dep
                [createFileNode (joinRelative q b) b (dep + 1) sz₂ mt₂,
                 insertSegments (createDirectoryNode (joinRelative q a) a (dep + 1) mt₁)
                (joinRelative q a) (a₂ :: r₁') sz₁ mt₁] :=
              insert_miss_singleton_chain hpab (fun h => by cases (makeId_inj h).1)
            have e₂ : insertSegments (TreeNode.node (makeId q NodeType.directory) nm q NodeType.directory 0 mt₁ dep
                [insertSegments (createDirectoryNode (joinRelative q a) a (dep + 1) mt₁)
                (joinRelative q a) (a₂ :: r₁') sz₁ mt₁]) q [b] sz₂ mt₂
                = TreeNode.node (makeId q NodeType.directory) nm q NodeType.directory 0 mt₁ dep
                [insertSegments (createDirectoryNode (joinRelative q a) a (dep + 1) mt₁)
                (joinRelative q a) (a₂ :: r₁') sz₁ mt₁,
                 createFileNode (joinRelative q b) b (dep + 1) sz₂ mt₂] :=
              insert_miss_singleton_leaf (by
                rw [insertSegments_id]
                exact fun h => by cases (makeId_inj h).1)
            rw [chain_singleton_eq, chain_cons_eq, e₁, e₂]
            refine BuildEquiv.mk _ _ _ _ _ _ _ _ _ _ (fun h => by cases h) ?_ ?_
            · intro _
              constructor
              · rw [show filesUnderForest
                    [createFileNode (joinRelative q b) b (dep + 1) sz₂ mt₂,
                     insertSegments (createDirectoryNode (joinRelative q a) a (dep + 1) mt₁)
                (joinRelative q a) (a₂ :: r₁') sz₁ mt₁]
                    = filesUnder (createFileNode (joinRelative q b) b (dep + 1) sz₂ mt₂)
                      ++ filesUnderForest
                        [insertSegments (createDirectoryNode (joinRelative q a) a (dep + 1) mt₁)
                (joinRelative q a) (a₂ :: r₁') sz₁ mt₁]
                    from rfl, maxMtime_append]
                exact le_trans le_maxMtime_createFileNode (Nat.le_max_left _ _)
              · rw [show filesUnderForest
                    [insertSegments (createDirectoryNode (joinRelative q a) a (dep + 1) mt₁)
                (joinRelative q a) (a₂ :: r₁') sz₁ mt₁,
                     createFileNode (joinRelative q b) b (dep + 1) sz₂ mt₂]
                    = filesUnder (insertSegments (createDirectoryNode (joinRelative q a) a (dep + 1) mt₁)
                (joinRelative q a) (a₂ :: r₁') sz₁ mt₁)
                      ++ filesUnderForest
                        [createFileNode (joinRelative q b) b (dep + 1) sz₂ mt₂]
                    from rfl, maxMtime_append]
                exact le_trans (chain_dml (by simp)).1 (Nat.le_max_left _ _)
            · exact @buildEquivForest_swap_two [] _ _
                (fun c hc => absurd hc (List.not_mem_nil _))
                (buildEquiv_refl _ dirsDominated_createFileNode)
                (buildEquiv_refl _ (fun s hs hd => (chain_dml (by simp)).2 s hs hd))
          | cons b₂ r₂' =>
            have e₁ : insertSegments (TreeNode.node (makeId q NodeType.directory) nm q NodeType.directory 0 mt₂ dep
                [insertSegments (createDirectoryNode (joinRelative q b) b (dep + 1) mt₂)
                (joinRelative q b) (b₂ :: r₂') sz₂ mt₂]) q (a :: a₂ :: r₁') sz₁ mt₁
                = TreeNode.node (makeId q NodeType.directory) nm q NodeType.directory 0 mt₂ dep
                [insertSegments (createDirectoryNode (joinRelative q b) b (dep + 1) mt₂)
                (joinRelative q b) (b₂ :: r₂') sz₂ mt₂,
                 insertSegments (createDirectoryNode (joinRelative q a) a (dep + 1) mt₁)
                (joinRelative q a) (a₂ :: r₁') sz₁ mt₁] :=
              insert_miss_singleton_chain
                (by rw [insertSegments_relativePath]; exact hpab)
                (by rw [insertSegments_id]; exact fun h => hpab (makeId_inj h).2)
            have e₂ : insertSegments (TreeNode.node (makeId q NodeType.directory) nm q NodeType.directory 0 mt₁ dep
                [insertSegments (createDirectoryNode (joinRelative q a) a (dep + 1) mt₁)
                (joinRelative q a) (a₂ :: r₁') sz₁ mt₁]) q (b :: b₂ :: r₂') sz₂ mt₂
                = TreeNode.node (makeId q NodeType.directory) nm q NodeType.directory 0 mt₁ dep
                [insertSegments (createDirectoryNode (joinRelative q a) a (dep + 1) mt₁)
                (joinRelative q a) (a₂ :: r₁') sz₁ mt₁,
                 insertSegments (createDirectoryNode (joinRelative q b) b (dep + 1) mt₂)
                (joinRelative q b) (b₂ :: r₂') sz₂ mt₂] :=
              insert_miss_singleton_chain
                (by rw [insertSegments_relativePath]; exact hpba)
                (by rw [insertSegments_id]; exact fun h => hpba (makeId_inj h).2)
            rw [chain_cons_eq, chain_cons_eq, e₁, e₂]
            refine BuildEquiv.mk _ _ _ _ _ _ _ _ _ _ (fun h => by cases h) ?_ ?_
            · intro _
              constructor
              · rw [show filesUnderForest
                    [insertSegments (createDirectoryNode (joinRelative q b) b (dep + 1) mt₂)
                (joinRelative q b) (b₂ :: r₂') sz₂ mt₂,
                     insertSegments (createDirectoryNode (joinRelative q a) a (dep + 1) mt₁)
                (joinRelative q a) (a₂ :: r₁') sz₁ mt₁]
                    = filesUnder (insertSegments (createDirectoryNode (joinRelative q b) b (dep + 1) mt₂)
                (joinRelative q b) (b₂ :: r₂') sz₂ mt₂)
                      ++ filesUnderForest
                        [insertSegments (createDirectoryNode (joinRelative q a) a (dep + 1) mt₁)
                (joinRelative q a) (a₂ :: r₁') sz₁ mt₁]
                    from rfl, maxMtime_append]
                exact le_trans (chain_dml (by simp)).1 (Nat.le_max_left _ _)
              · rw [show filesUnderForest
                    [insertSegments (createDirectoryNode (joinRelative q a) a (dep + 1) mt₁)
                (joinRelative q a) (a₂ :: r₁') sz₁ mt₁,
                     insertSegments (createDirectoryNode (joinRelative q b) b (dep + 1) mt₂)
                (joinRelative q b) (b₂ :: r₂') sz₂ mt₂]
                    = filesUnder (insertSegments (createDirectoryNode (joinRelative q a) a (dep + 1) mt₁)
                (joinRelative q a) (a₂ :: r₁') sz₁ mt₁)
                      ++ filesUnderForest
                        [insertSegments (createDirectoryNode (joinRelative q b) b (dep + 1) mt₂)
                (joinRelative q b) (b₂ :: r₂') sz₂ mt₂]
                    from rfl, maxMtime_append]
                exact le_trans (chain_dml (by simp)).1 (Nat.le_max_left _ _)
            · exact @buildEquivForest_swap_two [] _ _
                (fun c hc => absurd hc (List.not_mem_nil _))
                (buildEquiv_refl _ (fun s hs hd => (chain_dml (by simp)).2 s hs hd))
                (buildEquiv_refl _ (fun s hs hd => (chain_dml (by simp)).2 s hs hd))

/-! ## General insertion-step equations and lookup stability -/

theorem insert_found_eq {i' n' rp : String} {ty : NodeType} {sz0 mt0 d : Nat}
    {CS : List TreeNode}
    {cp s s₂ : String} {r' : List String} {sz mt : Nat} {c : TreeNode}
    (hfind : findChild CS (joinRelative cp s) = some c) :
    insertSegments (.node i' n' rp ty sz0 mt0 d CS) cp (s :: s₂ :: r') sz mt
      = .node i' n' rp ty sz0 mt0 d (updateChild CS (joinRelative cp s)
          (fun d0 => insertSegments d0 (joinRelative cp s) (s₂ :: r') sz mt)) := by
  simp only [insertSegments, TreeNode.children, TreeNode.depth, TreeNode.withChildren]
  rw [hfind]

/-- Inserting a path whose first segment is fresh appends one child node that
depends only on the segments, the sizes and the parent path and depth. -/
theorem insert_append_general {cp s : String} {r : List String} {sz mt d : Nat} :
    ∃ N : TreeNode, N.relativePath = joinRelative cp s ∧
      N.id = makeId (joinRelative cp s) N.type ∧
      DirsDominated N ∧ mt ≤ maxMtime (filesUnder N) ∧ N.name = s ∧
      ∀ {i' n' rp : String} {sz0 mt0 : Nat} (CS : List TreeNode),
        (∀ c ∈ CS, c.relativePath ≠ joinRelative cp s) →
        (∀ c ∈ CS, c.id ≠ N.id) →
        insertSegments (.node i' n' rp .directory sz0 mt0 d CS) cp (s :: r) sz mt
          = .node i' n' rp .directory sz0 mt0 d (CS ++ [N]) := by
  cases r with
  | nil =>
    refine ⟨createFileNode (joinRelative cp s) s (d + 1) sz mt, rfl, rfl,
      dirsDominated_createFileNode, le_maxMtime_createFileNode, rfl, ?_⟩
    intro i' n' rp sz0 mt0 CS hpathfree hidfree
    simp only [insertSegments, TreeNode.children, TreeNode.depth, TreeNode.withChildren]
    rw [ensureChild_children_of_none (lookupNode_childIdMapOf_none.mpr hidfree)]
  | cons s₂ r' =>
    refine ⟨insertSegments (createDirectoryNode (joinRelative cp s) s (d + 1) mt)
      (joinRelative cp s) (s₂ :: r') sz mt, ?_, ?_,
      (fun s0 hs0 hd0 => (chain_dml (by simp)).2 s0 hs0 hd0),
      (chain_dml (by simp)).1, ?_, ?_⟩
    · rw [insertSegments_relativePath]
      rfl
    · rw [insertSegments_id, insertSegments_type]
      rfl
    · rw [insertSegments_name]
      rfl
    · intro i' n' rp sz0 mt0 CS hpathfree hidfree
      simp only [insertSegments, TreeNode.children, TreeNode.depth, TreeNode.withChildren]
      rw [findChild_eq_none.mpr hpathfree]
      rw [ensureChild_children_of_none (lookupNode_childIdMapOf_none.mpr hidfree)]

theorem findChild_updateChild_other {p₁ p₂ : String} (hne : p₂ ≠ p₁)
    {f : TreeNode → TreeNode} (hf : ∀ c, (f c).relativePath = c.relativePath) :
    ∀ {cs : List TreeNode}, findChild (updateChild cs p₂ f) p₁ = findChild cs p₁ := by
  intro cs
  induction cs with
  | nil => rfl
  | cons c cs ih =>
    by_cases hp : c.relativePath = p₂
    · rw [show updateChild (c :: cs) p₂ f = f c :: cs from by simp [updateChild, hp]]
      have hcp₁ : c.relativePath ≠ p₁ := by rw [hp]; exact hne
      have hfp₁ : (f c).relativePath ≠ p₁ := by rw [hf]; exact hcp₁
      show List.find? _ (f c :: cs) = List.find? _ (c :: cs)
      rw [List.find?_cons_of_neg _ (by simpa using hfp₁),
        List.find?_cons_of_neg _ (by simpa using hcp₁)]
    · rw [show updateChild (c :: cs) p₂ f = c :: updateChild cs p₂ f from by
        simp [updateChild, hp]]
      by_cases hp₁ : c.relativePath = p₁
      · show List.find? _ (c :: _) = List.find? _ (c :: _)
        rw [List.find?_cons_of_pos _ (by simpa using hp₁),
          List.find?_cons_of_pos _ (by simpa using hp₁)]
      · show List.find? _ (c :: _) = List.find? _ (c :: _)
        rw [List.find?_cons_of_neg _ (by simpa using hp₁),
          List.find?_cons_of_neg _ (by simpa using hp₁)]
        exact ih

theorem findChild_updateChild_self {p : String} {f : TreeNode → TreeNode}
    (hf : ∀ c, (f c).relativePath = c.relativePath) :
    ∀ {cs : List TreeNode} {c : TreeNode}, findChild cs p = some c →
    findChild (updateChild cs p f) p = some (f c) := by
  intro cs
  induction cs with
  | nil => intro c h; cases h
  | cons c₀ cs ih =>
    intro c h
    by_cases hp : c₀.relativePath = p
    · have h2 : c₀ = c := by
        have := @List.find?_cons_of_pos TreeNode (fun x => decide (x.relativePath = p))
          c₀ cs (decide_eq_true hp)
        rw [show findChild (c₀ :: cs) p = List.find? _ (c₀ :: cs) from rfl, this] at h
        exact Option.some.inj h
      subst h2
      rw [show updateChild (c₀ :: cs) p f = f c₀ :: cs from by simp [updateChild, hp]]
      have hfp : (f c₀).relativePath = p := by rw [hf]; exact hp
      exact List.find?_cons_of_pos _ (decide_eq_true hfp)
    · have h2 : findChild cs p = some c := by
        have := @List.find?_cons_of_neg TreeNode (fun x => decide (x.relativePath = p))
          c₀ cs (by simpa using hp)
        rw [show findChild (c₀ :: cs) p = List.find? _ (c₀ :: cs) from rfl, this] at h
        exact h
      rw [show updateChild (c₀ :: cs) p f = c₀ :: updateChild cs p f from by
        simp [updateChild, hp]]
      exact (List.find?_cons_of_neg _ (by simpa using hp)).trans (ih h2)

theorem findChild_append_some {u w : List TreeNode} {p : String} {c : TreeNode}
    (h : findChild u p = some c) : findChild (u ++ w) p = some c := by
  induction u with
  | nil => cases h
  | cons c₀ u ih =>
    by_cases hp : c₀.relativePath = p
    · have h2 : c₀ = c := by
        have := @List.find?_cons_of_pos TreeNode (fun x => decide (x.relativePath = p))
          c₀ u (decide_eq_true hp)
        rw [show findChild (c₀ :: u) p = List.find? _ (c₀ :: u) from rfl, this] at h
        exact Option.some.inj h
      subst h2
      exact List.find?_cons_of_pos _ (decide_eq_true hp)
    · have h2 : findChild u p = some c := by
        have := @List.find?_cons_of_neg TreeNode (fun x => decide (x.relativePath = p))
          c₀ u (by simpa using hp)
        rw [show findChild (c₀ :: u) p = List.find? _ (c₀ :: u) from rfl, this] at h
        exact h
      exact (List.find?_cons_of_neg _ (by simpa using hp)).trans (ih h2)

theorem buildEquivForest_update_pointwise {p : String}
    {g₁ g₂ : TreeNode → TreeNode} :
    ∀ {cs : List TreeNode},
    (∀ c ∈ cs, BuildEquiv c c) →
    (∀ c ∈ cs, c.relativePath = p → BuildEquiv (g₁ c) (g₂ c)) →
    BuildEquivForest (updateChild cs p g₁) (updateChild cs p g₂) := by
  intro cs
  induction cs with
  | nil => exact fun _ _ => BuildEquivForest.nil
  | cons c cs ih =>
    intro hrefl hg
    by_cases hp : c.relativePath = p
    · rw [show updateChild (c :: cs) p g₁ = g₁ c :: cs from by simp [updateChild, hp]]
      rw [show updateChild (c :: cs) p g₂ = g₂ c :: cs from by simp [updateChild, hp]]
      exact BuildEquivForest.cons (g₁ c) (g₂ c) cs [] cs
        (hg c (List.mem_cons_self _ _) hp)
        (buildEquivForest_refl (fun c hc => hrefl c (List.mem_cons_of_mem _ hc)))
    · rw [show updateChild (c :: cs) p g₁ = c :: updateChild cs p g₁ from by
        simp [updateChild, hp]]
      rw [show updateChild (c :: cs) p g₂ = c :: updateChild cs p g₂ from by
        simp [updateChild, hp]]
      exact BuildEquivForest.cons c c (updateChild cs p g₁) [] (updateChild cs p g₂)
        (hrefl c (List.mem_cons_self _ _))
        (ih (fun c hc => hrefl c (List.mem_cons_of_mem _ hc))
          (fun c hc hcp => hg c (List.mem_cons_of_mem _ hc) hcp))

theorem no_child_at_path {cs : List TreeNode} {p : String}
    (hf : p ∉ filePathsForest cs) (hd : p ∉ dirPathsForest cs) :
    ∀ c ∈ cs, c.relativePath ≠ p := by
  intro c hc hcp
  obtain ⟨ci, cn, crp, cty, csz, cmt, cd, ccs⟩ := c
  have hcrp : crp = p := hcp
  subst hcrp
  cases cty with
  | file => exact hf (mem_filePathsForest.mpr ⟨_, hc, List.mem_singleton.mpr rfl⟩)
  | directory => exact hd (mem_dirPathsForest.mpr ⟨_, hc, List.mem_cons_self _ _⟩)

/-- Two insertions whose first segments differ commute up to `BuildEquiv` on
any well-shaped directory. -/
theorem swap_insert_diverge {a b : String} {r₁ r₂ : List String} {t : TreeNode}
    {cp : String} {sz₁ mt₁ sz₂ mt₂ : Nat}
    (hwf : WFShape t) (htd : t.type = NodeType.directory)
    (hcp : cp = t.relativePath) (hdml : DirsDominated t)
    (hfree₁ : FreeFor t cp (a :: r₁)) (hfree₂ : FreeFor t cp (b :: r₂))
    (hab : a ≠ b) :
    BuildEquiv
      (insertSegments (insertSegments t cp (b :: r₂) sz₂ mt₂) cp (a :: r₁) sz₁ mt₁)
      (insertSegments (insertSegments t cp (a :: r₁) sz₁ mt₁) cp (b :: r₂) sz₂ mt₂) := by
  obtain ⟨i, n, rp, ty, sz0, mt0, d, cs⟩ := t
  have hty : ty = NodeType.directory := htd
  subst hty
  have hcp2 : cp = rp := hcp
  subst hcp2
  obtain ⟨hwf1, hwf2, hwf3, hwf4⟩ := hwf
  have hpne : joinRelative cp a ≠ joinRelative cp b := fun h => hab (joinRelative_inj h)
  have hpne' : joinRelative cp b ≠ joinRelative cp a := fun h => hpne h.symm
  have hrefl_cs : ∀ c ∈ cs, BuildEquiv c c :=
    fun c hc => buildEquiv_refl c (fun s hs hd => hdml s (Occurs.child hc hs) hd)
  have hrootle : mt0 ≤ maxMtime (filesUnderForest cs) :=
    hdml (TreeNode.node i n cp .directory sz0 mt0 d cs) (Occurs.refl _) rfl
  have hidfree_of_pathfree : ∀ {p : String} {τ : NodeType},
      (∀ c ∈ cs, c.relativePath ≠ p) → ∀ c ∈ cs, c.id ≠ makeId p τ := by
    intro p τ hpf c hc h
    have h2 : makeId c.relativePath c.type = makeId p τ := by
      rw [← (hwf3 c hc).2.1]
      exact h
    exact hpf c hc (makeId_inj h2).2
  have hside₁ : (∃ a₂ r₁' c₁, r₁ = a₂ :: r₁' ∧
        findChild cs (joinRelative cp a) = some c₁) ∨
      (∃ N₁ : TreeNode, N₁.relativePath = joinRelative cp a ∧
        N₁.id = makeId (joinRelative cp a) N₁.type ∧
        DirsDominated N₁ ∧ mt₁ ≤ maxMtime (filesUnder N₁) ∧
        (∀ {i' n' rp' : String} {sz0' mt0' : Nat} (CS : List TreeNode),
          (∀ c ∈ CS, c.relativePath ≠ joinRelative cp a) →
          (∀ c ∈ CS, c.id ≠ N₁.id) →
          insertSegments (.node i' n' rp' .directory sz0' mt0' d CS) cp (a :: r₁) sz₁ mt₁
            = .node i' n' rp' .directory sz0' mt0' d (CS ++ [N₁])) ∧
        (∀ c ∈ cs, c.relativePath ≠ joinRelative cp a)) := by
    cases r₁ with
    | nil =>
      obtain ⟨N, h1, h2, h3, h4, h5, h6⟩ := @insert_append_general cp a [] sz₁ mt₁ d
      refine Or.inr ⟨N, h1, h2, h3, h4, fun CS hp hi => h6 CS hp hi, ?_⟩
      exact no_child_at_path hfree₁.2.2 (fun h => hfree₁.2.1 (List.mem_cons_of_mem _ h))
    | cons a₂ r₁' =>
      rcases hfind : findChild cs (joinRelative cp a) with _ | c₁
      · obtain ⟨N, h1, h2, h3, h4, h5, h6⟩ :=
          @insert_append_general cp a (a₂ :: r₁') sz₁ mt₁ d
        exact Or.inr ⟨N, h1, h2, h3, h4, fun CS hp hi => h6 CS hp hi,
          findChild_eq_none.mp hfind⟩
      · exact Or.inl ⟨a₂, r₁', c₁, rfl, rfl⟩
  have hside₂ : (∃ b₂ r₂' c₂, r₂ = b₂ :: r₂' ∧
        findChild cs (joinRelative cp b) = some c₂) ∨
      (∃ N₂ : TreeNode, N₂.relativePath = joinRelative cp b ∧
        N₂.id = makeId (joinRelative cp b) N₂.type ∧
        DirsDominated N₂ ∧ mt₂ ≤ maxMtime (filesUnder N₂) ∧
        (∀ {i' n' rp' : String} {sz0' mt0' : Nat} (CS : List TreeNode),
          (∀ c ∈ CS, c.relativePath ≠ joinRelative cp b) →
          (∀ c ∈ CS, c.id ≠ N₂.id) →
          insertSegments (.node i' n' rp' .directory sz0' mt0' d CS) cp (b :: r₂) sz₂ mt₂
            = .node i' n' rp' .directory sz0' mt0' d (CS ++ [N₂])) ∧
        (∀ c ∈ cs, c.relativePath ≠ joinRelative cp b)) := by
    cases r₂ with
    | nil =>
      obtain ⟨N, h1, h2, h3, h4, h5, h6⟩ := @insert_append_general cp b [] sz₂ mt₂ d
      refine Or.inr ⟨N, h1, h2, h3, h4, fun CS hp hi => h6 CS hp hi, ?_⟩
      exact no_child_at_path hfree₂.2.2 (fun h => hfree₂.2.1 (List.mem_cons_of_mem _ h))
    | cons b₂ r₂' =>
      rcases hfind : findChild cs (joinRelative cp b) with _ | c₂
      · obtain ⟨N, h1, h2, h3, h4, h5, h6⟩ :=
          @insert_append_general cp b (b₂ :: r₂') sz₂ mt₂ d
        exact Or.inr ⟨N, h1, h2, h3, h4, fun CS hp hi => h6 CS hp hi,
          findChild_eq_none.mp hfind⟩
      · exact Or.inl ⟨b₂, r₂', c₂, rfl, rfl⟩
  rcases hside₁ with ⟨a₂, r₁', c₁, rfl, hfind₁⟩ |
    ⟨N₁, hN₁p, hN₁i, hN₁dml, hN₁mt, hN₁eq, hpf₁⟩
  · rcases hside₂ with ⟨b₂, r₂', c₂, rfl, hfind₂⟩ |
      ⟨N₂, hN₂p, hN₂i, hN₂dml, hN₂mt, hN₂eq, hpf₂⟩
    · -- both first segments have an existing directory child: two updates commute
      have hf₂₁ : findChild (updateChild cs (joinRelative cp b)
          (fun d0 => insertSegments d0 (joinRelative cp b) (b₂ :: r₂') sz₂ mt₂))
          (joinRelative cp a) = some c₁ := by
        rw [findChild_updateChild_other hpne'
          (fun c => insertSegments_relativePath (b₂ :: r₂') c (joinRelative cp b) sz₂ mt₂)]
        exact hfind₁
      have hf₁₂ : findChild (updateChild cs (joinRelative cp a)
          (fun d0 => insertSegments d0 (joinRelative cp a) (a₂ :: r₁') sz₁ mt₁))
          (joinRelative cp b) = some c₂ := by
        rw [findChild_updateChild_other hpne
          (fun c => insertSegments_relativePath (a₂ :: r₁') c (joinRelative cp a) sz₁ mt₁)]
        exact hfind₂
      have hX : DirsDominated (insertSegments (insertSegments
          (TreeNode.node i n cp .directory sz0 mt0 d cs) cp (b :: b₂ :: r₂') sz₂ mt₂)
          cp (a :: a₂ :: r₁') sz₁ mt₁) :=
        fun s hs hd => dml_insertSegments (dml_insertSegments hdml) s hs hd
      rw [insert_found_eq hfind₂, insert_found_eq hf₂₁] at hX ⊢
      rw [insert_found_eq hfind₁, insert_found_eq hf₁₂]
      rw [updateChild_comm hpne
        (fun c => insertSegments_relativePath (a₂ :: r₁') c (joinRelative cp a) sz₁ mt₁)
        (fun c => insertSegments_relativePath (b₂ :: r₂') c (joinRelative cp b) sz₂ mt₂)]
      exact buildEquiv_refl _ hX
    · -- first updates, second appends
      have hif₂ : ∀ c ∈ cs, c.id ≠ N₂.id :=
        fun c hc h => hidfree_of_pathfree hpf₂ c hc (h.trans hN₂i)
      have hfind₁' : findChild (cs ++ [N₂]) (joinRelative cp a) = some c₁ :=
        findChild_append_some hfind₁
      have hex₁ : ∃ c ∈ cs, c.relativePath = joinRelative cp a :=
        ⟨c₁, (findChild_eq_some hfind₁).1, (findChild_eq_some hfind₁).2⟩
      have hpf₂u : ∀ c ∈ updateChild cs (joinRelative cp a)
          (fun d0 => insertSegments d0 (joinRelative cp a) (a₂ :: r₁') sz₁ mt₁),
          c.relativePath ≠ joinRelative cp b := by
        intro c' hc'
        rcases mem_updateChild hc' with hc' | ⟨c₀, hc₀, hp₀, rfl⟩
        · exact hpf₂ c' hc'
        · rw [insertSegments_relativePath]
          exact hpf₂ c₀ hc₀
      have hif₂u : ∀ c ∈ updateChild cs (joinRelative cp a)
          (fun d0 => insertSegments d0 (joinRelative cp a) (a₂ :: r₁') sz₁ mt₁),
          c.id ≠ N₂.id := by
        intro c' hc'
        rcases mem_updateChild hc' with hc' | ⟨c₀, hc₀, hp₀, rfl⟩
        · exact hif₂ c' hc'
        · rw [insertSegments_id]
          exact hif₂ c₀ hc₀
      have hX : DirsDominated (insertSegments (insertSegments
          (TreeNode.node i n cp .directory sz0 mt0 d cs) cp (b :: r₂) sz₂ mt₂)
          cp (a :: a₂ :: r₁') sz₁ mt₁) :=
        fun s hs hd => dml_insertSegments (dml_insertSegments hdml) s hs hd
      rw [hN₂eq cs hpf₂ hif₂, insert_found_eq hfind₁',
        updateChild_append_right hex₁] at hX ⊢
      rw [insert_found_eq hfind₁]
      rw [hN₂eq (updateChild cs (joinRelative cp a)
        (fun d0 => insertSegments d0 (joinRelative cp a) (a₂ :: r₁') sz₁ mt₁)) hpf₂u hif₂u]
      exact buildEquiv_refl _ hX
  · rcases hside₂ with ⟨b₂, r₂', c₂, rfl, hfind₂⟩ |
      ⟨N₂, hN₂p, hN₂i, hN₂dml, hN₂mt, hN₂eq, hpf₂⟩
    · -- first appends, second updates
      have hif₁ : ∀ c ∈ cs, c.id ≠ N₁.id :=
        fun c hc h => hidfree_of_pathfree hpf₁ c hc (h.trans hN₁i)
      have hfind₂' : findChild (cs ++ [N₁]) (joinRelative cp b) = some c₂ :=
        findChild_append_some hfind₂
      have hex₂ : ∃ c ∈ cs, c.relativePath = joinRelative cp b :=
        ⟨c₂, (findChild_eq_some hfind₂).1, (findChild_eq_some hfind₂).2⟩
      have hpf₁u : ∀ c ∈ updateChild cs (joinRelative cp b)
          (fun d0 => insertSegments d0 (joinRelative cp b) (b₂ :: r₂') sz₂ mt₂),
          c.relativePath ≠ joinRelative cp a := by
        intro c' hc'
        rcases mem_updateChild hc' with hc' | ⟨c₀, hc₀, hp₀, rfl⟩
        · exact hpf₁ c' hc'
        · rw [insertSegments_relativePath]
          exact hpf₁ c₀ hc₀
      have hif₁u : ∀ c ∈ updateChild cs (joinRelative cp b)
          (fun d0 => insertSegments d0 (joinRelative cp b) (b₂ :: r₂') sz₂ mt₂),
          c.id ≠ N₁.id := by
        intro c' hc'
        rcases mem_updateChild hc' with hc' | ⟨c₀, hc₀, hp₀, rfl⟩
        · exact hif₁ c' hc'
        · rw [insertSegments_id]
          exact hif₁ c₀ hc₀
      have hX : DirsDominated (insertSegments (insertSegments
          (TreeNode.node i n cp .directory sz0 mt0 d cs) cp (b :: b₂ :: r₂') sz₂ mt₂)
          cp (a :: r₁) sz₁ mt₁) :=
        fun s hs hd => dml_insertSegments (dml_insertSegments hdml) s hs hd
      rw [insert_found_eq hfind₂] at hX ⊢
      rw [hN₁eq (updateChild cs (joinRelative cp b)
        (fun d0 => insertSegments d0 (joinRelative cp b) (b₂ :: r₂') sz₂ mt₂))
        hpf₁u hif₁u] at hX ⊢
      rw [hN₁eq cs hpf₁ hif₁, insert_found_eq hfind₂',
        updateChild_append_right hex₂]
      exact buildEquiv_refl _ hX
    · -- both append: the two new children end up in either order
      have hif₂ : ∀ c ∈ cs, c.id ≠ N₂.id :=
        fun c hc h => hidfree_of_pathfree hpf₂ c hc (h.trans hN₂i)
      have hif₁ : ∀ c ∈ cs, c.id ≠ N₁.id :=
        fun c hc h => hidfree_of_pathfree hpf₁ c hc (h.trans hN₁i)
      have hN₂₁ : N₂.id ≠ N₁.id := by
        rw [hN₂i, hN₁i]
        exact fun h => hpne' (makeId_inj h).2
      have hN₁₂ : N₁.id ≠ N₂.id := fun h => hN₂₁ h.symm
      have hpf₁A : ∀ c ∈ cs ++ [N₂], c.relativePath ≠ joinRelative cp a := by
        intro c hc
        rcases List.mem_append.mp hc with hc | hc
        · exact hpf₁ c hc
        · rcases List.mem_singleton.mp hc with rfl
          rw [hN₂p]
          exact hpne'
      have hif₁A : ∀ c ∈ cs ++ [N₂], c.id ≠ N₁.id := by
        intro c hc
        rcases List.mem_append.mp hc with hc | hc
        · exact hif₁ c hc
        · rcases List.mem_singleton.mp hc with rfl
          exact hN₂₁
      have hpf₂A : ∀ c ∈ cs ++ [N₁], c.relativePath ≠ joinRelative cp b := by
        intro c hc
        rcases List.mem_append.mp hc with hc | hc
        · exact hpf₂ c hc
        · rcases List.mem_singleton.mp hc with rfl
          rw [hN₁p]
          exact hpne
      have hif₂A : ∀ c ∈ cs ++ [N₁], c.id ≠ N₂.id := by
        intro c hc
        rcases List.mem_append.mp hc with hc | hc
        · exact hif₂ c hc
        · rcases List.mem_singleton.mp hc with rfl
          exact hN₁₂
      rw [hN₂eq cs hpf₂ hif₂, hN₁eq (cs ++ [N₂]) hpf₁A hif₁A]
      rw [hN₁eq cs hpf₁ hif₁, hN₂eq (cs ++ [N₁]) hpf₂A hif₂A]
      rw [List.append_assoc, List.append_assoc]
      refine BuildEquiv.mk _ _ _ _ _ _ _ _ _ _ (fun h => by cases h) ?_ ?_
      · intro _
        constructor
        · rw [filesUnderForest_append, maxMtime_append]
          exact le_trans hrootle (Nat.le_max_left _ _)
        · rw [filesUnderForest_append, maxMtime_append]
          exact le_trans hrootle (Nat.le_max_left _ _)
      · exact buildEquivForest_swap_two hrefl_cs
          (buildEquiv_refl _ hN₂dml) (buildEquiv_refl _ hN₁dml)

/-- Inserting two conflict-free entries in either order produces equivalent
trees. -/
theorem swap_insert : ∀ {segs₁ segs₂ : List String} {t : TreeNode}
    {cp : String} {sz₁ mt₁ sz₂ mt₂ : Nat},
    WFShape t → t.type = NodeType.directory → cp = t.relativePath →
    DirsDominated t →
    FreeFor t cp segs₁ → FreeFor t cp segs₂ →
    conflictFree segs₁ segs₂ →
    BuildEquiv (insertSegments (insertSegments t cp segs₂ sz₂ mt₂) cp segs₁ sz₁ mt₁)
               (insertSegments (insertSegments t cp segs₁ sz₁ mt₁) cp segs₂ sz₂ mt₂) := by
  intro segs₁
  induction segs₁ with
  | nil =>
    intro segs₂ t cp sz₁ mt₁ sz₂ mt₂ _ _ _ _ _ _ hcf
    exact absurd ⟨segs₂, rfl⟩ hcf.1
  | cons a r₁ ih =>
    intro segs₂ t cp sz₁ mt₁ sz₂ mt₂ hwf htd hcp hdml hfree₁ hfree₂ hcf
    cases segs₂ with
    | nil => exact absurd ⟨a :: r₁, rfl⟩ hcf.2
    | cons b r₂ =>
      by_cases hab : a = b
      · subst hab
        have hr₁ : r₁ ≠ [] := by
          intro h
          subst h
          exact hcf.1 ⟨r₂, rfl⟩
        have hr₂ : r₂ ≠ [] := by
          intro h
          subst h
          exact hcf.2 ⟨r₁, rfl⟩
        cases r₁ with
        | nil => exact absurd rfl hr₁
        | cons a₂ r₁' =>
          cases r₂ with
          | nil => exact absurd rfl hr₂
          | cons b₂ r₂' =>
            obtain ⟨i, n, rp, ty, sz0, mt0, d, cs⟩ := t
            have hty : ty = NodeType.directory := htd
            subst hty
            have hcp2 : cp = rp := hcp
            subst hcp2
            obtain ⟨hwf1, hwf2, hwf3, hwf4⟩ := hwf
            have hrefl_cs : ∀ c ∈ cs, BuildEquiv c c :=
              fun c hc => buildEquiv_refl c (fun s hs hd => hdml s (Occurs.child hc hs) hd)
            have hrootle : mt0 ≤ maxMtime (filesUnderForest cs) :=
              hdml (TreeNode.node i n cp .directory sz0 mt0 d cs) (Occurs.refl _) rfl
            rcases hfind : findChild cs (joinRelative cp a) with _ | c
            · have hnone := findChild_eq_none.mp hfind
              have hidfree : ∀ c ∈ cs,
                  c.id ≠ makeId (joinRelative cp a) NodeType.directory :=
                fun c hc h => hnone c hc (makeId_inj (by
                  rw [← (hwf3 c hc).2.1]
                  exact h)).2
              have e₂ : insertSegments (.node i n cp .directory sz0 mt0 d cs) cp
                  (a :: b₂ :: r₂') sz₂ mt₂
                  = .node i n cp .directory sz0 mt0 d (cs ++
                    [insertSegments (createDirectoryNode (joinRelative cp a) a (d + 1) mt₂)
                      (joinRelative cp a) (b₂ :: r₂') sz₂ mt₂]) := by
                simp only [insertSegments, TreeNode.children, TreeNode.depth,
                  TreeNode.withChildren]
                rw [hfind]
                rw [ensureChild_children_of_none (lookupNode_childIdMapOf_none.mpr (by
                  intro c hc
                  rw [insertSegments_id]
                  exact hidfree c hc))]
              have e₁ : insertSegments (.node i n cp .directory sz0 mt0 d cs) cp
                  (a :: a₂ :: r₁') sz₁ mt₁
                  = .node i n cp .directory sz0 mt0 d (cs ++
                    [insertSegments (createDirectoryNode (joinRelative cp a) a (d + 1) mt₁)
                      (joinRelative cp a) (a₂ :: r₁') sz₁ mt₁]) := by
                simp only [insertSegments, TreeNode.children, TreeNode.depth,
                  TreeNode.withChildren]
                rw [hfind]
                rw [ensureChild_children_of_none (lookupNode_childIdMapOf_none.mpr (by
                  intro c hc
                  rw [insertSegments_id]
                  exact hidfree c hc))]
              have hC₂path : (insertSegments
                  (createDirectoryNode (joinRelative cp a) a (d + 1) mt₂)
                  (joinRelative cp a) (b₂ :: r₂') sz₂ mt₂).relativePath
                  = joinRelative cp a := by
                rw [insertSegments_relativePath]
                rfl
              have hC₁path : (insertSegments
                  (createDirectoryNode (joinRelative cp a) a (d + 1) mt₁)
                  (joinRelative cp a) (a₂ :: r₁') sz₁ mt₁).relativePath
                  = joinRelative cp a := by
                rw [insertSegments_relativePath]
                rfl
              have hfind₂' : findChild (cs ++ [insertSegments
                  (createDirectoryNode (joinRelative cp a) a (d + 1) mt₂)
                  (joinRelative cp a) (b₂ :: r₂') sz₂ mt₂]) (joinRelative cp a)
                  = some (insertSegments
                    (createDirectoryNode (joinRelative cp a) a (d + 1) mt₂)
                    (joinRelative cp a) (b₂ :: r₂') sz₂ mt₂) := by
                rw [findChild_append_left hnone]
                exact findChild_some_of_mem (by simp) (List.mem_cons_self _ _) hC₂path
              have hfind₁' : findChild (cs ++ [insertSegments
                  (createDirectoryNode (joinRelative cp a) a (d + 1) mt₁)
                  (joinRelative cp a) (a₂ :: r₁') sz₁ mt₁]) (joinRelative cp a)
                  = some (insertSegments
                    (createDirectoryNode (joinRelative cp a) a (d + 1) mt₁)
                    (joinRelative cp a) (a₂ :: r₁') sz₁ mt₁) := by
                rw [findChild_append_left hnone]
                exact findChild_some_of_mem (by simp) (List.mem_cons_self _ _) hC₁path
              rw [e₂, insert_found_eq hfind₂', updateChild_append_left hnone]
              rw [e₁, insert_found_eq hfind₁', updateChild_append_left hnone]
              rw [show updateChild [insertSegments
                  (createDirectoryNode (joinRelative cp a) a (d + 1) mt₂)
                  (joinRelative cp a) (b₂ :: r₂') sz₂ mt₂] (joinRelative cp a)
                  (fun d0 => insertSegments d0 (joinRelative cp a) (a₂ :: r₁') sz₁ mt₁)
                  = [insertSegments (insertSegments
                      (createDirectoryNode (joinRelative cp a) a (d + 1) mt₂)
                      (joinRelative cp a) (b₂ :: r₂') sz₂ mt₂)
                      (joinRelative cp a) (a₂ :: r₁') sz₁ mt₁] from by
                simp [updateChild, hC₂path]]
              rw [show updateChild [insertSegments
                  (createDirectoryNode (joinRelative cp a) a (d + 1) mt₁)
                  (joinRelative cp a) (a₂ :: r₁') sz₁ mt₁] (joinRelative cp a)
                  (fun d0 => insertSegments d0 (joinRelative cp a) (b₂ :: r₂') sz₂ mt₂)
                  = [insertSegments (insertSegments
                      (createDirectoryNode (joinRelative cp a) a (d + 1) mt₁)
                      (joinRelative cp a) (a₂ :: r₁') sz₁ mt₁)
                      (joinRelative cp a) (b₂ :: r₂') sz₂ mt₂] from by
                simp [updateChild, hC₁path]]
              refine BuildEquiv.mk _ _ _ _ _ _ _ _ _ _ (fun h => by cases h) ?_ ?_
              · intro _
                constructor
                · rw [filesUnderForest_append, maxMtime_append]
                  exact le_trans hrootle (Nat.le_max_left _ _)
                · rw [filesUnderForest_append, maxMtime_append]
                  exact le_trans hrootle (Nat.le_max_left _ _)
              · exact buildEquivForest_prefix_refl hrefl_cs
                  (BuildEquivForest.cons _ _ [] [] []
                    (cross_swap (by simp) (by simp) (conflictFree_tail hcf))
                    BuildEquivForest.nil)
            · have hpres₂ : ∀ c : TreeNode, (insertSegments c (joinRelative cp a)
                  (b₂ :: r₂') sz₂ mt₂).relativePath = c.relativePath :=
                fun c => insertSegments_relativePath _ c _ _ _
              have hpres₁ : ∀ c : TreeNode, (insertSegments c (joinRelative cp a)
                  (a₂ :: r₁') sz₁ mt₁).relativePath = c.relativePath :=
                fun c => insertSegments_relativePath _ c _ _ _
              have hf₂₁ := findChild_updateChild_self hpres₂ hfind
              have hf₁₂ := findChild_updateChild_self hpres₁ hfind
              rw [insert_found_eq hfind, insert_found_eq hf₂₁,
                updateChild_updateChild_same hpres₂]
              rw [insert_found_eq hfind, insert_found_eq hf₁₂,
                updateChild_updateChild_same hpres₁]
              refine BuildEquiv.mk _ _ _ _ _ _ _ _ _ _ (fun h => by cases h) ?_ ?_
              · intro _
                constructor
                · exact le_trans hrootle (maxMtime_forest_updateChild (fun c₀ =>
                    le_trans maxMtime_insertSegments_mono maxMtime_insertSegments_mono))
                · exact le_trans hrootle (maxMtime_forest_updateChild (fun c₀ =>
                    le_trans maxMtime_insertSegments_mono maxMtime_insertSegments_mono))
              · refine buildEquivForest_update_pointwise hrefl_cs ?_
                intro c₀ hc₀ hp₀
                have hc₀dir : c₀.type = NodeType.directory := by
                  rcases nodeType_cases c₀.type with hcty | hcty
                  · exfalso
                    apply hfree₁.1 (joinRelative cp a) (List.mem_cons_self _ _)
                    refine mem_filePathsForest.mpr ⟨c₀, hc₀, ?_⟩
                    obtain ⟨ci, cn, crp, cty, csz, cmt, cd, ccs⟩ := c₀
                    have : cty = NodeType.file := hcty
                    subst this
                    have : crp = joinRelative cp a := hp₀
                    subst this
                    exact List.mem_singleton.mpr rfl
                  · exact hcty
                exact ih (wfshapeForest_mem hwf4 hc₀) hc₀dir hp₀.symm
                  (fun s hs hd => hdml s (Occurs.child hc₀ hs) hd)
                  (freeFor_descend hfree₁ hc₀) (freeFor_descend hfree₂ hc₀)
                  (conflictFree_tail hcf)
      · exact swap_insert_diverge hwf htd hcp hdml hfree₁ hfree₂ hab

theorem lookupNode_childIdMapOf_some : ∀ {cs : List TreeNode} {k : String}
    {e : TreeNode}, lookupNode (childIdMapOf cs) k = some e → e ∈ cs ∧ e.id = k := by
  intro cs
  induction cs with
  | nil => intro k e h; cases h
  | cons c cs ih =>
    intro k e h
    have h2 : (if c.id = k then some c else lookupNode (childIdMapOf cs) k) = some e := h
    by_cases hk : c.id = k
    · rw [if_pos hk] at h2
      rcases Option.some.inj h2 with rfl
      exact ⟨List.mem_cons_self _ _, hk⟩
    · rw [if_neg hk] at h2
      obtain ⟨hm, hi⟩ := ih h2
      exact ⟨List.mem_cons_of_mem _ hm, hi⟩

theorem findChild_related {cs₁ cs₂ : List TreeNode} {p : String} {c₁ : TreeNode}
    (hforest : BuildEquivForest cs₁ cs₂)
    (hnd₂ : (cs₂.map TreeNode.relativePath).Nodup)
    (hfind : findChild cs₁ p = some c₁) :
    ∃ c₂, findChild cs₂ p = some c₂ ∧ BuildEquiv c₁ c₂ := by
  obtain ⟨hc₁mem, hc₁p⟩ := findChild_eq_some hfind
  obtain ⟨c₂, hc₂mem, hrel⟩ := buildEquivForest_mem_left hforest hc₁mem
  have hc₂p : c₂.relativePath = p := by
    rw [← (buildEquiv_fields hrel).2.2.1]
    exact hc₁p
  exact ⟨c₂, findChild_some_of_mem hnd₂ hc₂mem hc₂p, hrel⟩

/-- Inserting the same entry into two equivalent well-shaped trees produces
equivalent trees. -/
theorem congr_insert : ∀ {segs : List String} {t₁ t₂ : TreeNode} {cp : String}
    {sz mt : Nat},
    BuildEquiv t₁ t₂ → WFShape t₁ → WFShape t₂ →
    BuildEquiv (insertSegments t₁ cp segs sz mt) (insertSegments t₂ cp segs sz mt) := by
  intro segs
  induction segs with
  | nil => exact fun h _ _ => h
  | cons seg rest ih =>
    intro t₁ t₂ cp sz mt h hwfa hwfb
    obtain ⟨i, n, rp, ty, sz0, mt0, d, cs₁⟩ := t₁
    obtain ⟨mt₂', cs₂, rfl, h1, h2, hforest⟩ := buildEquiv_node_inv h
    obtain ⟨hwa1, hwa2, hwa3, hwa4⟩ := hwfa
    obtain ⟨hwb1, hwb2, hwb3, hwb4⟩ := hwfb
    have hpnd₁ : (cs₁.map TreeNode.relativePath).Nodup :=
      nodup_paths_of_names (fun c hc => (hwa3 c hc).1) hwa2
    have hpnd₂ : (cs₂.map TreeNode.relativePath).Nodup :=
      nodup_paths_of_names (fun c hc => (hwb3 c hc).1) hwb2
    have hids := buildEquivForest_ids hforest
    have hpaths := buildEquivForest_paths hforest
    cases rest with
    | nil =>
      rcases hlook₁ : lookupNode (childIdMapOf cs₁)
          (createFileNode (joinRelative cp seg) seg (d + 1) sz mt).id with _ | e₁
      · have hlook₂ : lookupNode (childIdMapOf cs₂)
            (createFileNode (joinRelative cp seg) seg (d + 1) sz mt).id = none := by
          rw [lookupNode_childIdMapOf_none]
          intro c₂ hc₂ hid
          have hmem : c₂.id ∈ cs₁.map TreeNode.id :=
            hids.mem_iff.mpr (List.mem_map.mpr ⟨c₂, hc₂, rfl⟩)
          obtain ⟨c₁x, hc₁x, hidx⟩ := List.mem_map.mp hmem
          exact (lookupNode_childIdMapOf_none.mp hlook₁) c₁x hc₁x (hidx.trans hid)
        simp only [insertSegments, TreeNode.children, TreeNode.depth,
          TreeNode.withChildren]
        rw [ensureChild_children_of_none hlook₁, ensureChild_children_of_none hlook₂]
        refine BuildEquiv.mk _ _ _ _ _ _ _ _ _ _ h1 ?_ ?_
        · intro hty
          constructor
          · rw [filesUnderForest_append, maxMtime_append]
            exact le_trans (h2 hty).1 (Nat.le_max_left _ _)
          · rw [filesUnderForest_append, maxMtime_append]
            exact le_trans (h2 hty).2 (Nat.le_max_left _ _)
        · exact buildEquivForest_append_single hforest
            (buildEquiv_refl _ dirsDominated_createFileNode)
      · obtain ⟨he₁mem, he₁id⟩ := lookupNode_childIdMapOf_some hlook₁
        rcases hlook₂ : lookupNode (childIdMapOf cs₂)
            (createFileNode (joinRelative cp seg) seg (d + 1) sz mt).id with _ | e₂
        · exfalso
          have hmem : e₁.id ∈ cs₂.map TreeNode.id :=
            hids.mem_iff.mp (List.mem_map.mpr ⟨e₁, he₁mem, rfl⟩)
          obtain ⟨c₂x, hc₂x, hidx⟩ := List.mem_map.mp hmem
          exact (lookupNode_childIdMapOf_none.mp hlook₂) c₂x hc₂x (hidx.trans he₁id)
        · simp only [insertSegments, TreeNode.children, TreeNode.depth,
            TreeNode.withChildren]
          rw [ensureChild_children_of_some hlook₁, ensureChild_children_of_some hlook₂]
          exact BuildEquiv.mk _ _ _ _ _ _ _ _ _ _ h1 h2 hforest
    | cons seg2 rest2 =>
      rcases hfind : findChild cs₁ (joinRelative cp seg) with _ | c₁
      · have hnone₁ := findChild_eq_none.mp hfind
        have hfind₂ : findChild cs₂ (joinRelative cp seg) = none := by
          rw [findChild_eq_none]
          intro c₂ hc₂ hp
          have hmem : c₂.relativePath ∈ cs₁.map TreeNode.relativePath :=
            hpaths.mem_iff.mpr (List.mem_map.mpr ⟨c₂, hc₂, rfl⟩)
          obtain ⟨c₁x, hc₁x, hpx⟩ := List.mem_map.mp hmem
          exact hnone₁ c₁x hc₁x (hpx.trans hp)
        have hnone₂ := findChild_eq_none.mp hfind₂
        have hlook₁ : lookupNode (childIdMapOf cs₁) (insertSegments
            (createDirectoryNode (joinRelative cp seg) seg (d + 1) mt)
            (joinRelative cp seg) (seg2 :: rest2) sz mt).id = none := by
          rw [lookupNode_childIdMapOf_none]
          intro c hc hid
          rw [insertSegments_id] at hid
          exact hnone₁ c hc (makeId_inj (by
            rw [← (hwa3 c hc).2.1]
            exact hid)).2
        have hlook₂ : lookupNode (childIdMapOf cs₂) (insertSegments
            (createDirectoryNode (joinRelative cp seg) seg (d + 1) mt)
            (joinRelative cp seg) (seg2 :: rest2) sz mt).id = none := by
          rw [lookupNode_childIdMapOf_none]
          intro c hc hid
          rw [insertSegments_id] at hid
          exact hnone₂ c hc (makeId_inj (by
            rw [← (hwb3 c hc).2.1]
            exact hid)).2
        simp only [insertSegments, TreeNode.children, TreeNode.depth,
          TreeNode.withChildren]
        rw [hfind, hfind₂]
        rw [ensureChild_children_of_none hlook₁, ensureChild_children_of_none hlook₂]
        refine BuildEquiv.mk _ _ _ _ _ _ _ _ _ _ h1 ?_ ?_
        · intro hty
          constructor
          · rw [filesUnderForest_append, maxMtime_append]
            exact le_trans (h2 hty).1 (Nat.le_max_left _ _)
          · rw [filesUnderForest_append, maxMtime_append]
            exact le_trans (h2 hty).2 (Nat.le_max_left _ _)
        · exact buildEquivForest_append_single hforest
            (buildEquiv_refl _ (fun s hs hd => (chain_dml (by simp)).2 s hs hd))
      · obtain ⟨c₂, hfind₂, hrel⟩ := findChild_related hforest hpnd₂ hfind
        rw [insert_found_eq hfind, insert_found_eq hfind₂]
        refine BuildEquiv.mk _ _ _ _ _ _ _ _ _ _ h1 ?_ ?_
        · intro hty
          constructor
          · exact le_trans (h2 hty).1
              (maxMtime_forest_updateChild (fun c₀ => maxMtime_insertSegments_mono))
          · exact le_trans (h2 hty).2
              (maxMtime_forest_updateChild (fun c₀ => maxMtime_insertSegments_mono))
        · refine buildEquivForest_update hforest hpnd₁ hpnd₂ ?_
          intro c₁x hc₁x c₂x hc₂x hr hp
          exact ih hr (wfshapeForest_mem hwa4 hc₁x) (wfshapeForest_mem hwb4 hc₂x)

/-! ## Equivalent trees canonicalise identically under sort + aggregate -/

theorem sortForest_eq_map : ∀ (cs : List TreeNode),
    sortForest cs = cs.map sortChildrenRecursively := by
  intro cs
  induction cs with
  | nil => rfl
  | cons c cs ih =>
    show sortChildrenRecursively c :: sortForest cs = _
    rw [ih]
    rfl

theorem sort_name (t : TreeNode) : (sortChildrenRecursively t).name = t.name := by
  obtain ⟨i, n, rp, ty, sz, mt, d, cs⟩ := t
  rfl

theorem nodeLe_congr {a a' b b' : TreeNode} (hat : a'.type = a.type)
    (han : a'.name = a.name) (hbt : b'.type = b.type) (hbn : b'.name = b.name) :
    nodeLe a' b' = nodeLe a b := by
  unfold nodeLe
  rw [hat, han, hbt, hbn]

theorem sorted_map_agg {l : List TreeNode} (h : l.Pairwise nodeLeP) :
    (l.map (fun c => (aggregateDirectoryMetadata c).1)).Pairwise nodeLeP := by
  refine List.Pairwise.map _ ?_ h
  intro a b hab
  show nodeLe (aggregateDirectoryMetadata a).1 (aggregateDirectoryMetadata b).1 = true
  rw [nodeLe_congr (aggregate_preserves_type a) (aggregate_preserves_name a)
    (aggregate_preserves_type b) (aggregate_preserves_name b)]
  exact hab

theorem buildEquivForest_exists_perm : ∀ {cs₁ cs₂ : List TreeNode},
    BuildEquivForest cs₁ cs₂ →
    ∃ cs₂', cs₂.Perm cs₂' ∧ List.Forall₂ BuildEquiv cs₁ cs₂' := by
  intro cs₁
  induction cs₁ with
  | nil =>
    intro cs₂ h
    rw [buildEquivForest_nil_inv h]
    exact ⟨[], List.Perm.refl _, List.Forall₂.nil⟩
  | cons a l ih =>
    intro cs₂ h
    obtain ⟨u, b, v, rfl, hab, hf⟩ := buildEquivForest_cons_inv h
    obtain ⟨w, hperm, hfa⟩ := ih hf
    exact ⟨b :: w, List.perm_middle.trans (hperm.cons b), List.Forall₂.cons hab hfa⟩

theorem map_eq_of_forall₂ {f : TreeNode → TreeNode} : ∀ {l₁ l₂ : List TreeNode},
    List.Forall₂ BuildEquiv l₁ l₂ →
    (∀ a ∈ l₁, ∀ b ∈ l₂, BuildEquiv a b → f a = f b) →
    l₁.map f = l₂.map f := by
  intro l₁ l₂ h
  induction h with
  | nil => intro _; rfl
  | cons hab htail ih =>
    intro hf
    rename_i a b l₁' l₂'
    show f a :: _ = f b :: _
    rw [hf a (List.mem_cons_self _ _) b (List.mem_cons_self _ _) hab,
      ih (fun a ha b hb hr =>
        hf a (List.mem_cons_of_mem _ ha) b (List.mem_cons_of_mem _ hb) hr)]

theorem keys_nodup_of_names {cs : List TreeNode}
    (h : (cs.map TreeNode.name).Nodup) :
    (cs.map (fun c => (c.type, c.name))).Nodup := by
  have h2 : (List.map Prod.snd (cs.map (fun c => (c.type, c.name)))).Nodup := by
    rw [List.map_map]
    exact h
  exact List.Nodup.of_map _ h2

/-- Equivalent, well-shaped, dominated trees have identical canonical forms:
the sort pass followed by the aggregation pass erases both the children order
and the provisional directory mtimes. -/
theorem buildEquiv_canonical : ∀ (t₁ t₂ : TreeNode), BuildEquiv t₁ t₂ →
    WFShape t₁ → WFShape t₂ → DirsDominated t₁ → DirsDominated t₂ →
    sortAndAggregate t₁ = sortAndAggregate t₂ := by
  intro t₁
  induction t₁ using TreeNode.inductionOn with
  | _ i n rp ty sz mt d cs ih =>
    intro t₂ h hwfa hwfb hdm₁ hdm₂
    obtain ⟨mt₂', cs₂, rfl, h1, h2, hforest⟩ := buildEquiv_node_inv h
    cases ty with
    | file =>
      have hcs : cs = [] := hwfa.1 rfl
      have hcs₂ : cs₂ = [] := hwfb.1 rfl
      have hmt : mt = mt₂' := h1 rfl
      subst hcs
      subst hcs₂
      subst hmt
      rfl
    | directory =>
      have hagg₁ := aggregate_correct
        (sortChildrenRecursively (TreeNode.node i n rp .directory sz mt d cs))
        (fc_sort _ (wfshape_fc _ hwfa)) (dml_sort _ hdm₁)
      have hagg₂ := aggregate_correct
        (sortChildrenRecursively (TreeNode.node i n rp .directory sz mt₂' d cs₂))
        (fc_sort _ (wfshape_fc _ hwfb)) (dml_sort _ hdm₂)
      have hfp : (filesUnder (TreeNode.node i n rp .directory sz mt d cs)).Perm
          (filesUnder (TreeNode.node i n rp .directory sz mt₂' d cs₂)) :=
        buildEquiv_filesPerm _ _ h
      have hSeq : (aggregateLoop (List.insertionSort nodeLeP (sortForest cs)) 0 mt).2.1
          = (aggregateLoop (List.insertionSort nodeLeP (sortForest cs₂)) 0 mt₂').2.1 :=
        hagg₁.1.trans
          ((sumSizes_perm ((filesUnder_sort_perm _).trans
            (hfp.trans (filesUnder_sort_perm _).symm))).trans hagg₂.1.symm)
      have hMeq : (aggregateLoop (List.insertionSort nodeLeP (sortForest cs)) 0 mt).2.2
          = (aggregateLoop (List.insertionSort nodeLeP (sortForest cs₂)) 0 mt₂').2.2 :=
        hagg₁.2.1.trans
          ((maxMtime_perm ((filesUnder_sort_perm _).trans
            (hfp.trans (filesUnder_sort_perm _).symm))).trans hagg₂.2.1.symm)
      obtain ⟨cs₂', hperm₂, hfa⟩ := buildEquivForest_exists_perm hforest
      have e1 : cs.map (fun c =>
          (aggregateDirectoryMetadata (sortChildrenRecursively c)).1)
          = cs₂'.map (fun c =>
          (aggregateDirectoryMetadata (sortChildrenRecursively c)).1) := by
        refine map_eq_of_forall₂ hfa ?_
        intro a ha b hb hr
        exact ih a ha b hr (wfshapeForest_mem hwfa.2.2.2 ha)
          (wfshapeForest_mem hwfb.2.2.2 (hperm₂.mem_iff.mpr hb))
          (fun s hs hd => hdm₁ s (Occurs.child ha hs) hd)
          (fun s hs hd => hdm₂ s (Occurs.child (hperm₂.mem_iff.mpr hb) hs) hd)
      have P1 : ((List.insertionSort nodeLeP (sortForest cs)).map
          (fun c => (aggregateDirectoryMetadata c).1)).Perm
          (cs.map (fun c => (aggregateDirectoryMetadata (sortChildrenRecursively c)).1)) := by
        refine ((perm_insertionSort_nodes (sortForest cs)).map
          (fun c => (aggregateDirectoryMetadata c).1)).trans ?_
        rw [sortForest_eq_map, List.map_map]
        exact List.Perm.refl _
      have P2 : ((List.insertionSort nodeLeP (sortForest cs₂)).map
          (fun c => (aggregateDirectoryMetadata c).1)).Perm
          (cs₂.map (fun c => (aggregateDirectoryMetadata (sortChildrenRecursively c)).1)) := by
        refine ((perm_insertionSort_nodes (sortForest cs₂)).map
          (fun c => (aggregateDirectoryMetadata c).1)).trans ?_
        rw [sortForest_eq_map, List.map_map]
        exact List.Perm.refl _
      have chain : ((List.insertionSort nodeLeP (sortForest cs)).map
          (fun c => (aggregateDirectoryMetadata c).1)).Perm
          ((List.insertionSort nodeLeP (sortForest cs₂)).map
          (fun c => (aggregateDirectoryMetadata c).1)) := by
        refine P1.trans ?_
        rw [e1]
        exact ((hperm₂.map _).symm.trans P2.symm)
      have hs₁ : ((List.insertionSort nodeLeP (sortForest cs)).map
          (fun c => (aggregateDirectoryMetadata c).1)).Pairwise nodeLeP :=
        sorted_map_agg (sorted_insertionSort_nodes _)
      have hs₂ : ((List.insertionSort nodeLeP (sortForest cs₂)).map
          (fun c => (aggregateDirectoryMetadata c).1)).Pairwise nodeLeP :=
        sorted_map_agg (sorted_insertionSort_nodes _)
      have hk1 : (((List.insertionSort nodeLeP (sortForest cs)).map
          (fun c => (aggregateDirectoryMetadata c).1)).map
          (fun c => (c.type, c.name))).Perm
          ((cs.map (fun c => (aggregateDirectoryMetadata (sortChildrenRecursively c)).1)).map
          (fun c => (c.type, c.name))) := P1.map _
      have hk2 : (cs.map (fun c =>
          (aggregateDirectoryMetadata (sortChildrenRecursively c)).1)).map
          (fun c => (c.type, c.name))
          = cs.map (fun c => (c.type, c.name)) := by
        rw [List.map_map]
        refine map_congr_mem ?_
        intro c hc
        show ((aggregateDirectoryMetadata (sortChildrenRecursively c)).1.type,
          (aggregateDirectoryMetadata (sortChildrenRecursively c)).1.name)
          = (c.type, c.name)
        rw [show (aggregateDirectoryMetadata (sortChildrenRecursively c)).1.type = c.type from
          (aggregate_preserves_type _).trans (sort_type c)]
        rw [show (aggregateDirectoryMetadata (sortChildrenRecursively c)).1.name = c.name from
          (aggregate_preserves_name _).trans (sort_name c)]
      have hkeys : (((List.insertionSort nodeLeP (sortForest cs)).map
          (fun c => (aggregateDirectoryMetadata c).1)).map
          (fun c => (c.type, c.name))).Nodup := by
        rw [hk1.nodup_iff, hk2]
        exact keys_nodup_of_names hwfa.2.1
      have hcheq := sorted_perm_unique chain hs₁ hs₂ hkeys
      show TreeNode.node i n rp .directory
          (aggregateLoop (List.insertionSort nodeLeP (sortForest cs)) 0 mt).2.1
          (aggregateLoop (List.insertionSort nodeLeP (sortForest cs)) 0 mt).2.2 d
          (aggregateLoop (List.insertionSort nodeLeP (sortForest cs)) 0 mt).1
        = TreeNode.node i n rp .directory
          (aggregateLoop (List.insertionSort nodeLeP (sortForest cs₂)) 0 mt₂').2.1
          (aggregateLoop (List.insertionSort nodeLeP (sortForest cs₂)) 0 mt₂').2.2 d
          (aggregateLoop (List.insertionSort nodeLeP (sortForest cs₂)) 0 mt₂').1
      rw [aggregateLoop_fst, aggregateLoop_fst, hSeq, hMeq, hcheq]

/-! ## Folding a well-formed entry list: invariants, congruence, permutation -/

theorem fold_invariant : ∀ (L : List FileEntry) (t : TreeNode),
    WFShape t → t.type = NodeType.directory → t.relativePath = "." →
    DirsDominated t →
    (∀ e ∈ L, validSegments (segmentsOf e)) →
    L.Pairwise (fun a b => conflictFree (segmentsOf a) (segmentsOf b)) →
    (∀ e ∈ L, FreeFor t "." (segmentsOf e)) →
    WFShape (insertEntries t L) ∧ (insertEntries t L).type = NodeType.directory ∧
      (insertEntries t L).relativePath = "." ∧ DirsDominated (insertEntries t L) := by
  intro L
  induction L with
  | nil => exact fun t hwf htd hpath hdml _ _ _ => ⟨hwf, htd, hpath, hdml⟩
  | cons e L ihL =>
    intro t hwf htd hpath hdml hval hpw hfree
    rw [show insertEntries t (e :: L)
        = insertEntries (insertFileNode t e.path e.size e.mtimeMs) L from by
      unfold insertEntries
      rw [List.foldl_cons]]
    refine ihL _ ?_ ?_ ?_ ?_ ?_ ?_ ?_
    · exact wfshape_insertSegments hwf htd hpath.symm (hfree e (List.mem_cons_self _ _))
    · rw [show insertFileNode t e.path e.size e.mtimeMs
          = insertSegments t "." (segmentsOf e) e.size e.mtimeMs from rfl,
        insertSegments_type]
      exact htd
    · rw [show insertFileNode t e.path e.size e.mtimeMs
          = insertSegments t "." (segmentsOf e) e.size e.mtimeMs from rfl,
        insertSegments_relativePath]
      exact hpath
    · exact fun s hs hd => dml_insertSegments hdml s hs hd
    · exact fun e' he' => hval e' (List.mem_cons_of_mem _ he')
    · exact (List.pairwise_cons.mp hpw).2
    · intro e' he'
      exact freeFor_insert (hval e (List.mem_cons_self _ _))
        (hval e' (List.mem_cons_of_mem _ he'))
        ((List.pairwise_cons.mp hpw).1 e' he')
        (hfree e' (List.mem_cons_of_mem _ he'))

theorem fold_congr : ∀ (L : List FileEntry) (t₁ t₂ : TreeNode),
    BuildEquiv t₁ t₂ → WFShape t₁ → WFShape t₂ →
    t₁.type = NodeType.directory → t₂.type = NodeType.directory →
    t₁.relativePath = "." → t₂.relativePath = "." →
    (∀ e ∈ L, validSegments (segmentsOf e)) →
    L.Pairwise (fun a b => conflictFree (segmentsOf a) (segmentsOf b)) →
    (∀ e ∈ L, FreeFor t₁ "." (segmentsOf e)) →
    (∀ e ∈ L, FreeFor t₂ "." (segmentsOf e)) →
    BuildEquiv (insertEntries t₁ L) (insertEntries t₂ L) := by
  intro L
  induction L with
  | nil => exact fun t₁ t₂ h _ _ _ _ _ _ _ _ _ _ => h
  | cons e L ihL =>
    intro t₁ t₂ h hwf₁ hwf₂ htd₁ htd₂ hp₁ hp₂ hval hpw hfree₁ hfree₂
    rw [show insertEntries t₁ (e :: L)
        = insertEntries (insertFileNode t₁ e.path e.size e.mtimeMs) L from by
      unfold insertEntries
      rw [List.foldl_cons]]
    rw [show insertEntries t₂ (e :: L)
        = insertEntries (insertFileNode t₂ e.path e.size e.mtimeMs) L from by
      unfold insertEntries
      rw [List.foldl_cons]]
    refine ihL _ _ (congr_insert h hwf₁ hwf₂) ?_ ?_ ?_ ?_ ?_ ?_ ?_ ?_ ?_ ?_
    · exact wfshape_insertSegments hwf₁ htd₁ hp₁.symm (hfree₁ e (List.mem_cons_self _ _))
    · exact wfshape_insertSegments hwf₂ htd₂ hp₂.symm (hfree₂ e (List.mem_cons_self _ _))
    · rw [show insertFileNode t₁ e.path e.size e.mtimeMs
          = insertSegments t₁ "." (segmentsOf e) e.size e.mtimeMs from rfl,
        insertSegments_type]
      exact htd₁
    · rw [show insertFileNode t₂ e.path e.size e.mtimeMs
          = insertSegments t₂ "." (segmentsOf e) e.size e.mtimeMs from rfl,
        insertSegments_type]
      exact htd₂
    · rw [show insertFileNode t₁ e.path e.size e.mtimeMs
          = insertSegments t₁ "." (segmentsOf e) e.size e.mtimeMs from rfl,
        insertSegments_relativePath]
      exact hp₁
    · rw [show insertFileNode t₂ e.path e.size e.mtimeMs
          = insertSegments t₂ "." (segmentsOf e) e.size e.mtimeMs from rfl,
        insertSegments_relativePath]
      exact hp₂
    · exact fun e' he' => hval e' (List.mem_cons_of_mem _ he')
    · exact (List.pairwise_cons.mp hpw).2
    · intro e' he'
      exact freeFor_insert (hval e (List.mem_cons_self _ _))
        (hval e' (List.mem_cons_of_mem _ he'))
        ((List.pairwise_cons.mp hpw).1 e' he')
        (hfree₁ e' (List.mem_cons_of_mem _ he'))
    · intro e' he'
      exact freeFor_insert (hval e (List.mem_cons_self _ _))
        (hval e' (List.mem_cons_of_mem _ he'))
        ((List.pairwise_cons.mp hpw).1 e' he')
        (hfree₂ e' (List.mem_cons_of_mem _ he'))

/-- Peeling one entry off the assembly fold. -/
theorem insertEntries_cons (t : TreeNode) (e : FileEntry) (L : List FileEntry) :
    insertEntries t (e :: L) = insertEntries (insertFileNode t e.path e.size e.mtimeMs) L := by
  unfold insertEntries
  rw [List.foldl_cons]

theorem insertFileNode_type (t : TreeNode) (p : String) (sz mt : Nat) :
    (insertFileNode t p sz mt).type = t.type :=
  insertSegments_type (splitPath p) t "." sz mt

theorem insertFileNode_relativePath (t : TreeNode) (p : String) (sz mt : Nat) :
    (insertFileNode t p sz mt).relativePath = t.relativePath :=
  insertSegments_relativePath (splitPath p) t "." sz mt

theorem perm_canonical : ∀ {L₁ L₂ : List FileEntry}, L₁.Perm L₂ →
    ∀ t : TreeNode, WFShape t → t.type = NodeType.directory →
    t.relativePath = "." → DirsDominated t →
    (∀ e ∈ L₁, validSegments (segmentsOf e)) →
    L₁.Pairwise (fun a b => conflictFree (segmentsOf a) (segmentsOf b)) →
    (∀ e ∈ L₁, FreeFor t "." (segmentsOf e)) →
    sortAndAggregate (insertEntries t L₁) = sortAndAggregate (insertEntries t L₂) := by
  intro L₁ L₂ hp
  induction hp with
  | nil =>
    intro t _ _ _ _ _ _ _
    rfl
  | cons e hp ihp =>
    intro t hwf htd hpath hdml hval hpw hfree
    rw [insertEntries_cons, insertEntries_cons]
    refine ihp _ ?_ ?_ ?_ ?_ ?_ ?_ ?_
    · exact wfshape_insertSegments hwf htd hpath.symm (hfree e (List.mem_cons_self _ _))
    · rw [insertFileNode_type]
      exact htd
    · rw [insertFileNode_relativePath]
      exact hpath
    · exact fun s hs hd => dml_insertSegments hdml s hs hd
    · exact fun e' he' => hval e' (List.mem_cons_of_mem _ he')
    · exact (List.pairwise_cons.mp hpw).2
    · intro e' he'
      exact freeFor_insert (hval e (List.mem_cons_self _ _))
        (hval e' (List.mem_cons_of_mem _ he'))
        ((List.pairwise_cons.mp hpw).1 e' he')
        (hfree e' (List.mem_cons_of_mem _ he'))
  | swap x y l =>
    intro t hwf htd hpath hdml hval hpw hfree
    rw [insertEntries_cons, insertEntries_cons, insertEntries_cons, insertEntries_cons]
    have hvx : validSegments (segmentsOf x) :=
      hval x (List.mem_cons_of_mem _ (List.mem_cons_self _ _))
    have hvy : validSegments (segmentsOf y) := hval y (List.mem_cons_self _ _)
    have hR := List.pairwise_cons.mp hpw
    have hyx : conflictFree (segmentsOf y) (segmentsOf x) := hR.1 x (List.mem_cons_self _ _)
    have hcf : conflictFree (segmentsOf x) (segmentsOf y) := ⟨hyx.2, hyx.1⟩
    have hRx := List.pairwise_cons.mp hR.2
    have hfx : FreeFor t "." (segmentsOf x) :=
      hfree x (List.mem_cons_of_mem _ (List.mem_cons_self _ _))
    have hfy : FreeFor t "." (segmentsOf y) := hfree y (List.mem_cons_self _ _)
    have hswap : BuildEquiv
        (insertFileNode (insertFileNode t y.path y.size y.mtimeMs) x.path x.size x.mtimeMs)
        (insertFileNode (insertFileNode t x.path x.size x.mtimeMs) y.path y.size y.mtimeMs) :=
      swap_insert hwf htd hpath.symm hdml hfx hfy hcf
    have hwfY : WFShape (insertFileNode t y.path y.size y.mtimeMs) :=
      wfshape_insertSegments hwf htd hpath.symm hfy
    have hwfX : WFShape (insertFileNode t x.path x.size x.mtimeMs) :=
      wfshape_insertSegments hwf htd hpath.symm hfx
    have hfxy : FreeFor (insertFileNode t y.path y.size y.mtimeMs) "." (segmentsOf x) :=
      freeFor_insert hvy hvx hyx hfx
    have hfyx : FreeFor (insertFileNode t x.path x.size x.mtimeMs) "." (segmentsOf y) :=
      freeFor_insert hvx hvy hcf hfy
    have htdY : (insertFileNode t y.path y.size y.mtimeMs).type = NodeType.directory := by
      rw [insertFileNode_type]
      exact htd
    have htdX : (insertFileNode t x.path x.size x.mtimeMs).type = NodeType.directory := by
      rw [insertFileNode_type]
      exact htd
    have hpY : (insertFileNode t y.path y.size y.mtimeMs).relativePath = "." := by
      rw [insertFileNode_relativePath]
      exact hpath
    have hpX : (insertFileNode t x.path x.size x.mtimeMs).relativePath = "." := by
      rw [insertFileNode_relativePath]
      exact hpath
    have hdmlY : DirsDominated (insertFileNode t y.path y.size y.mtimeMs) :=
      fun s hs hd => dml_insertSegments hdml s hs hd
    have hdmlX : DirsDominated (insertFileNode t x.path x.size x.mtimeMs) :=
      fun s hs hd => dml_insertSegments hdml s hs hd
    have hwfA : WFShape
        (insertFileNode (insertFileNode t y.path y.size y.mtimeMs) x.path x.size x.mtimeMs) :=
      wfshape_insertSegments hwfY htdY hpY.symm hfxy
    have hwfB : WFShape
        (insertFileNode (insertFileNode t x.path x.size x.mtimeMs) y.path y.size y.mtimeMs) :=
      wfshape_insertSegments hwfX htdX hpX.symm hfyx
    have htdA : (insertFileNode (insertFileNode t y.path y.size y.mtimeMs)
        x.path x.size x.mtimeMs).type = NodeType.directory := by
      rw [insertFileNode_type]
      exact htdY
    have htdB : (insertFileNode (insertFileNode t x.path x.size x.mtimeMs)
        y.path y.size y.mtimeMs).type = NodeType.directory := by
      rw [insertFileNode_type]
      exact htdX
    have hpA : (insertFileNode (insertFileNode t y.path y.size y.mtimeMs)
        x.path x.size x.mtimeMs).relativePath = "." := by
      rw [insertFileNode_relativePath]
      exact hpY
    have hpB : (insertFileNode (insertFileNode t x.path x.size x.mtimeMs)
        y.path y.size y.mtimeMs).relativePath = "." := by
      rw [insertFileNode_relativePath]
      exact hpX
    have hdmlA : DirsDominated
        (insertFileNode (insertFileNode t y.path y.size y.mtimeMs) x.path x.size x.mtimeMs) :=
      fun s hs hd => dml_insertSegments hdmlY s hs hd
    have hdmlB : DirsDominated
        (insertFileNode (insertFileNode t x.path x.size x.mtimeMs) y.path y.size y.mtimeMs) :=
      fun s hs hd => dml_insertSegments hdmlX s hs hd
    have hvl : ∀ e ∈ l, validSegments (segmentsOf e) :=
      fun e he => hval e (List.mem_cons_of_mem _ (List.mem_cons_of_mem _ he))
    have hcf_yl : ∀ e ∈ l, conflictFree (segmentsOf y) (segmentsOf e) :=
      fun e he => hR.1 e (List.mem_cons_of_mem _ he)
    have hcf_xl : ∀ e ∈ l, conflictFree (segmentsOf x) (segmentsOf e) :=
      fun e he => hRx.1 e he
    have hfree_l : ∀ e ∈ l, FreeFor t "." (segmentsOf e) :=
      fun e he => hfree e (List.mem_cons_of_mem _ (List.mem_cons_of_mem _ he))
    have hfreeA : ∀ e ∈ l, FreeFor
        (insertFileNode (insertFileNode t y.path y.size y.mtimeMs) x.path x.size x.mtimeMs)
        "." (segmentsOf e) :=
      fun e he => freeFor_insert hvx (hvl e he) (hcf_xl e he)
        (freeFor_insert hvy (hvl e he) (hcf_yl e he) (hfree_l e he))
    have hfreeB : ∀ e ∈ l, FreeFor
        (insertFileNode (insertFileNode t x.path x.size x.mtimeMs) y.path y.size y.mtimeMs)
        "." (segmentsOf e) :=
      fun e he => freeFor_insert hvy (hvl e he) (hcf_yl e he)
        (freeFor_insert hvx (hvl e he) (hcf_xl e he) (hfree_l e he))
    have hinvA := fold_invariant l _ hwfA htdA hpA hdmlA hvl hRx.2 hfreeA
    have hinvB := fold_invariant l _ hwfB htdB hpB hdmlB hvl hRx.2 hfreeB
    exact buildEquiv_canonical _ _
      (fold_congr l _ _ hswap hwfA hwfB htdA htdB hpA hpB hvl hRx.2 hfreeA hfreeB)
      hinvA.1 hinvB.1 hinvA.2.2.2 hinvB.2.2.2
  | trans hp₁ hp₂ ih₁ ih₂ =>
    intro t hwf htd hpath hdml hval hpw hfree
    refine (ih₁ t hwf htd hpath hdml hval hpw hfree).trans
      (ih₂ t hwf htd hpath hdml ?_ ?_ ?_)
    · exact fun e he => hval e (hp₁.mem_iff.mpr he)
    · refine (List.Perm.pairwise_iff ?_ hp₁).mp hpw
      intro a b hab
      exact ⟨hab.2, hab.1⟩
    · exact fun e he => hfree e (hp₁.mem_iff.mpr he)

theorem joinChain_ne_dot : ∀ (xs : List String) (p : String), p ≠ "." →
    joinChain p xs ≠ "." := by
  intro xs
  induction xs with
  | nil => exact fun p hp => hp
  | cons x xs ih => exact fun p hp => ih _ (joinRelative_ne_dot hp)

/-- The freshly created root directory is free for every valid segment list:
it contains no file node at all and its only directory path is `"."`. -/
theorem freeFor_root {repoName : String} {segs : List String}
    (hv : validSegments segs) :
    FreeFor (createDirectoryNode "." repoName 0 0) "." segs := by
  refine ⟨?_, ?_, ?_⟩
  · intro p _ hpf
    exact absurd hpf (List.not_mem_nil _)
  · intro hmem
    have hdot : joinChain "." segs = "." := List.mem_singleton.mp hmem
    cases segs with
    | nil => exact hv.1 rfl
    | cons s rest =>
      rw [joinChain_dot_cons] at hdot
      exact joinChain_ne_dot rest s (hv.2 s (List.mem_cons_self _ _)).2.1 hdot
  · exact fun h => absurd h (List.not_mem_nil _)

/-- C4 counterexample: the claim quantifies over every file-entry list, but a
list with a duplicated path is order-sensitive — `ensureChild` keeps the
first node inserted under an id, so `[a:size 1, a:size 2]` and its swap
assemble trees whose (only) child records size 1 versus size 2. -/
theorem claim_C4_counterexample :
    ∃ (repoName : String) (entries entriesB : List FileEntry),
      entries.Perm entriesB ∧
      sortAndAggregate (assembleTree repoName entries)
        ≠ sortAndAggregate (assembleTree repoName entriesB) := by
  refine ⟨"r", [⟨"a", 1, 0⟩, ⟨"a", 2, 0⟩], [⟨"a", 2, 0⟩, ⟨"a", 1, 0⟩],
    List.Perm.swap _ _ _, ?_⟩
  intro h
  have hsz := congrArg (fun t => t.children.map TreeNode.size) h
  exact absurd hsz (by decide)

/-- C4 (amended): for every well-formed entry list — every path splits into
usable segments and no two paths coincide or nest, as `git ls-tree -r` /
`git ls-files` listings guarantee — assembling from the list and from any
permutation of it, then running the sort and aggregation passes, yields
identical trees. -/
theorem claim_C4_determinism {repoName : String} {entries entriesB : List FileEntry}
    (hwf : entriesWellFormed entries) (hperm : entries.Perm entriesB) :
    sortAndAggregate (assembleTree repoName entries)
      = sortAndAggregate (assembleTree repoName entriesB) := by
  refine perm_canonical hperm (createDirectoryNode "." repoName 0 0)
    ?_ rfl rfl ?_ hwf.1 hwf.2 ?_
  · exact ⟨fun _ => rfl, List.nodup_nil, fun c hc => absurd hc (List.not_mem_nil c), trivial⟩
  · intro s hs hd
    rcases occurs_node_iff.mp hs with rfl | ⟨c, hc, _⟩
    · exact Nat.zero_le _
    · exact absurd hc (List.not_mem_nil _)
  · exact fun e he => freeFor_root (hwf.1 e he)

theorem claim_C4_witness :
    entriesWellFormed [(⟨"a.txt", 3, 7⟩ : FileEntry), ⟨"dir/b.txt", 4, 9⟩] ∧
    sortAndAggregate (assembleTree "repo"
        [(⟨"a.txt", 3, 7⟩ : FileEntry), ⟨"dir/b.txt", 4, 9⟩])
      = sortAndAggregate (assembleTree "repo"
        [(⟨"dir/b.txt", 4, 9⟩ : FileEntry), ⟨"a.txt", 3, 7⟩]) :=
  ⟨by decide, claim_C4_determinism (by decide) (List.Perm.swap _ _ _)⟩
